import Mathlib

/-!
# go-obvious: environment accessors (`env.go`) and timestamps (`timestamp.go`)

A shallow embedding of the packages `env` and `timestamp` and of the parts of the Go
standard library they call (`strings.Trim`, `strings.TrimRight`, `strings.TrimSpace`,
`strings.Split`, `strings.ToLower`, `strconv.ParseUint`, `strconv.ParseInt`,
`fmt.Sprintf`, `time.Unix`, `Time.Format` and `time.Parse` for the layout
`time.RFC3339Nano`, the latter with both of its parsers: the RFC 3339 parser it tries
first and the layout-driven parser it falls back to, as of Go 1.20).

Go strings are modelled as lists of Unicode code points (`List Char`), that is,
as the rune sequence of a valid UTF-8 string.  The process environment is an
explicit lookup table, and a Go `panic` is an `Except.error` carrying the value
passed to `panic`.  A `nil` slice and an empty slice are both the empty list.
-/

namespace Obvious

set_option maxRecDepth 100000

/-- A Go string, as the sequence of its runes. -/
abbrev GoString := List Char

deriving instance DecidableEq for Except

/-- The double-quote character `"`. -/
def dquote : Char := Char.ofNat 34

/-- The single-quote character. -/
def squote : Char := Char.ofNat 39

/-! ## Package `strings` -/

/-- Go `strings.TrimLeft(s, cutset)`: drop the leading runes contained in `cutset`. -/
def TrimLeft (s cutset : GoString) : GoString :=
  s.dropWhile (fun c => cutset.contains c)

/-- Go `strings.TrimRight(s, cutset)`: drop the trailing runes contained in `cutset`. -/
def TrimRight (s cutset : GoString) : GoString :=
  s.rdropWhile (fun c => cutset.contains c)

/-- Go `strings.Trim(s, cutset)`: the right end is trimmed first, then the left end. -/
def Trim (s cutset : GoString) : GoString :=
  TrimLeft (TrimRight s cutset) cutset

/-- Go `unicode.IsSpace`: the Latin-1 cases of the switch, then the `White_Space`
range table for the code points above Latin-1. -/
def isSpace (c : Char) : Bool :=
  let r := c.toNat
  if r ≤ 0xFF then
    r == 0x09 || r == 0x0A || r == 0x0B || r == 0x0C || r == 0x0D || r == 0x20
      || r == 0x85 || r == 0xA0
  else
    r == 0x1680 || (0x2000 ≤ r && r ≤ 0x200A) || r == 0x2028 || r == 0x2029
      || r == 0x202F || r == 0x205F || r == 0x3000

/-- Go `strings.TrimSpace(s)`: the start index moves right over white space, then
the stop index moves left over white space. -/
def TrimSpace (s : GoString) : GoString :=
  (s.dropWhile isSpace).rdropWhile isSpace

/-- The scan of `strings.Split` for a non-empty separator.  `skip` counts the runes
of a separator occurrence that are still to be stepped over, `cur` holds the runes of
the current piece in reverse.  At a position where `sep` starts (the position
`strings.Index` returns) the current piece is closed and the scan resumes right after
the occurrence, so occurrences are found left to right and never overlap. -/
def splitScan (sep : GoString) : Nat → GoString → GoString → List GoString
  | _, cur, [] => [cur.reverse]
  | skip + 1, cur, _ :: rest => splitScan sep skip cur rest
  | 0, cur, c :: rest =>
    if sep.isPrefixOf (c :: rest) then
      cur.reverse :: splitScan sep (sep.length - 1) [] rest
    else
      splitScan sep 0 (c :: cur) rest

/-- Go `strings.Split(s, sep)`: with an empty separator the string is exploded into
its runes, otherwise it is cut at every occurrence of `sep`. -/
def Split (s sep : GoString) : List GoString :=
  if sep.isEmpty then s.map (fun c => [c]) else splitScan sep 0 [] s

/-- The ASCII case of Go `unicode.ToLower`. -/
def asciiLower (c : Char) : Char :=
  if 65 ≤ c.toNat ∧ c.toNat ≤ 90 then Char.ofNat (c.toNat + 32) else c

/-- Go `strings.ToLower(s)`: every rune is mapped by `unicode.ToLower`.  The ASCII
letters are lowered here; `lowerTable` is the case table of package `unicode` for the
runes from U+0080 on. -/
def ToLower (lowerTable : Char → Char) (s : GoString) : GoString :=
  s.map (fun c => if c.toNat < 128 then asciiLower c else lowerTable c)

/-! ## Packages `fmt` and `strconv` -/

/-- The decimal digit character of a number below ten. -/
def digitChar (d : Nat) : Char := Char.ofNat (48 + d)

/-- The digit loop of Go `fmt` for base 10: the quotient gives the higher digits,
the remainder the last one.  `fuel` bounds the number of digits written. -/
def fmtDigits : Nat → Nat → GoString
  | 0, u => [digitChar (u % 10)]
  | fuel + 1, u => if u < 10 then [digitChar u] else fmtDigits fuel (u / 10) ++ [digitChar (u % 10)]

/-- Go `fmt.Sprintf("%v", u)` for an unsigned integer `u`; a number has at most as
many digits as its value, so the loop never runs out of fuel. -/
def sprintUint (u : Nat) : GoString := fmtDigits u u

/-- Go `fmt.Sprintf("%v", b)` for a boolean. -/
def sprintBool (b : Bool) : GoString :=
  if b then "true".toList else "false".toList

/-- The two errors of `strconv`: `ErrSyntax` and `ErrRange`. -/
inductive NumErr where
  | ErrSyntax
  | ErrRange
  deriving DecidableEq, Repr

/-- The digit loop of Go `strconv.ParseUint` for base 10 on 64-bit accumulators:
`maxVal` is `1<<bitSize - 1`, the cutoff is `maxUint64/10 + 1`. -/
def parseUintLoop (maxVal : Nat) : GoString → Nat → Except NumErr Nat
  | [], n => .ok n
  | c :: rest, n =>
    if 48 ≤ c.toNat ∧ c.toNat ≤ 57 then
      let d := c.toNat - 48
      if n ≥ (2 ^ 64 - 1) / 10 + 1 then .error .ErrRange
      else
        let n10 := (n * 10) % 2 ^ 64
        let n1 := (n10 + d) % 2 ^ 64
        if n1 < n10 ∨ n1 > maxVal then .error .ErrRange
        else parseUintLoop maxVal rest n1
    else .error .ErrSyntax

/-- Go `strconv.ParseUint(s, 10, bitSize)` for `0 < bitSize ≤ 64`. -/
def ParseUint (s : GoString) (bitSize : Nat) : Except NumErr Nat :=
  if s.isEmpty then .error .ErrSyntax else parseUintLoop (2 ^ bitSize - 1) s 0

/-! ## Package `env` -/

/-- The process environment: the value of a variable, `none` when it is unset. -/
abbrev Env := GoString → Option GoString

/-- The value handed to `panic`: a message, or the `*strconv.NumError` of a failed
parse (function name, input text, error). -/
inductive Panic where
  | message (text : GoString)
  | numError (func num : GoString) (err : NumErr)
  deriving DecidableEq, Repr

/-- The function `Get` of `env.go`: `os.Getenv`, the empty string for an unset variable. -/
def Get (env : Env) (name : GoString) : GoString :=
  (env name).getD []

/-- The body of the `for i := 0; i < 3; i++` loop of `MustGet`, run `n` times. -/
def stripQuotesLoop : Nat → GoString → GoString
  | 0, val => val
  | n + 1, val => stripQuotesLoop n (Trim val [dquote, squote])

/-- The function `MustGet` of `env.go`: it panics on an empty raw value and otherwise
runs the quote-stripping loop three times. -/
def MustGet (env : Env) (name : GoString) : Except Panic GoString :=
  let val := Get env name
  if val = [] then
    .error (.message ("missing env var - ".toList ++ name))
  else
    .ok (stripQuotesLoop 3 val)

/-- The function `Exists` of `env.go`. -/
def Exists (env : Env) (name : GoString) : Bool :=
  Get env name != []

/-- The function `GetOr` of `env.go`: the default replaces an empty value, then the
double quotes are trimmed. -/
def GetOr (env : Env) (name dval : GoString) : GoString :=
  let value := Get env name
  let value := if value = [] then dval else value
  Trim value [dquote]

/-- The function `GetBoolOr` of `env.go`; `lowerTable` is the case table that
`strings.ToLower` reads. -/
def GetBoolOr (lowerTable : Char → Char) (env : Env) (name : GoString) (dval : Bool) : Bool :=
  let str := GetOr env name (sprintBool dval)
  ToLower lowerTable str == "true".toList

/-- The function `mustParseUint32` of `env.go`: it panics with the error of
`strconv.ParseUint(str, 10, 32)`. -/
def mustParseUint32 (str : GoString) : Except Panic Nat :=
  match ParseUint str 32 with
  | .error err => .error (.numError "ParseUint".toList str err)
  | .ok val => .ok val

/-- The function `GetUintOr` of `env.go`: the default is formatted, resolved by `GetOr`
and parsed like a value. -/
def GetUintOr (env : Env) (name : GoString) (dval : Nat) : Except Panic Nat :=
  let str := GetOr env name (sprintUint dval)
  mustParseUint32 str

/-- The function `GetArray` of `env.go`, step by step as in the source. -/
def GetArray (env : Env) (name sep : GoString) (allowQuotes trimQuoted : Bool) :
    List GoString :=
  let raw := GetOr env name []
  if raw = [] then []
  else
    let sep := if sep = [] then [','] else sep
    let raw := TrimSpace raw
    if raw.length = 0 then []
    else
      let raw :=
        if raw.head? = some '[' ∧ raw.getLast? = some ']' then
          TrimSpace (TrimRight (TrimSpace (Trim raw ['[', ']'])) sep)
        else raw
      let parts := Split raw sep
      let parts := parts.map TrimSpace
      let parts :=
        if !allowQuotes then
          let parts := parts.map (fun p => Trim p [dquote])
          if trimQuoted then parts.map TrimSpace else parts
        else parts
      parts.filter (fun p => p != [])

/-- The function `MustGetArray` of `env.go`. -/
def MustGetArray (env : Env) (name sep : GoString) (allowQuotes trimQuoted : Bool) :
    Except Panic (List GoString) :=
  let val := GetArray env name sep allowQuotes trimQuoted
  if val.length = 0 then
    .error (.message ("missing env var (empty array) - ".toList ++ name))
  else
    .ok val

/-- An environment with the single variable `name` set to `value`. -/
def setenv (name value : GoString) : Env :=
  fun n => if n = name then some value else none

/-! ## Package `timestamp`: integer arithmetic -/

/-- The value of a Go `int64` expression: the mathematical result wrapped to 64 bits
in two's complement. -/
def wrapInt64 (x : Int) : Int := (x + 2 ^ 63) % 2 ^ 64 - 2 ^ 63

/-- The function `MilliFrom` of `timestamp.go`: `nsec / 1e6`, the division of Go, which
truncates toward zero. -/
def MilliFrom (nsec : Int) : Int := wrapInt64 (Int.tdiv nsec 1000000)

/-! ## Notions used to state the properties -/

/-- The string `GetOr` works on: the value of the variable when it is non-empty, the
default otherwise. -/
def resolved (env : Env) (name dval : GoString) : GoString :=
  if Get env name = [] then dval else Get env name

/-- The string `s` wrapped in layers of matching quotes, the outermost layer first:
every layer puts its character on both sides. -/
def wrapQuotes : List Char → GoString → GoString
  | [], s => s
  | q :: layers, s => q :: (wrapQuotes layers s ++ [q])

/-- A quote character: the double or the single quote. -/
def isQuote (c : Char) : Bool := c == dquote || c == squote

/-- The string is "true" up to the case of its four letters. -/
def equalsTrueIgnoringCase (w : GoString) : Bool :=
  match w with
  | [a, b, c, d] =>
    (a == 't' || a == 'T') && (b == 'r' || b == 'R') && (c == 'u' || c == 'U')
      && (d == 'e' || d == 'E')
  | _ => false

/-- An ASCII decimal digit. -/
def isDigit (c : Char) : Bool := decide (48 ≤ c.toNat ∧ c.toNat ≤ 57)

/-- A base-10 unsigned literal: one or more ASCII digits, no sign. -/
def isUintLiteral (w : GoString) : Bool := !w.isEmpty && w.all isDigit

/-- The number a digit string denotes when read after the digits of `n`. -/
def decValueFrom (n : Nat) (w : GoString) : Nat :=
  w.foldl (fun acc c => 10 * acc + (c.toNat - 48)) n

/-- The number a base-10 literal denotes. -/
def decValue (w : GoString) : Nat := decValueFrom 0 w

/-- A rune of the bracket and quote notation of `GetArray`: `[`, `]` or the double
quote. -/
def isSyntaxChar (c : Char) : Bool := c == '[' || c == ']' || c == dquote

/-- A bracket of the list notation of `GetArray`: `[` or `]`. -/
def isBracket (c : Char) : Bool := c == '[' || c == ']'

/-- The sequence obtained by splitting `s` on commas, trimming white space from each
piece and dropping the pieces that are then empty. -/
def splitTrimFilter (s : GoString) : List GoString :=
  ((s.splitOn ',').map TrimSpace).filter (fun p => p != [])

/-- The pieces of a split, each trimmed by the predicate `q`, without the empty
ones. -/
def cleanBy (q : Char → Bool) (parts : List GoString) : List GoString :=
  (parts.map (fun l => (l.dropWhile q).rdropWhile q)).filter (fun l => l != [])

/-- The bracket step of `GetArray` on the trimmed raw value: a value that starts with
`[` and ends with `]` loses its brackets and its trailing separator runes. -/
def unbracket (raw sep : GoString) : GoString :=
  if raw.head? = some '[' ∧ raw.getLast? = some ']' then
    TrimSpace (TrimRight (TrimSpace (Trim raw ['[', ']'])) sep)
  else raw

/-- The steps of `GetArray` after the pieces are trimmed: quote stripping and
re-trimming under the flags, then dropping the empty pieces. -/
def finishParts (allowQuotes trimQuoted : Bool) (parts : List GoString) : List GoString :=
  let parts :=
    if !allowQuotes then
      let parts := parts.map (fun p => Trim p [dquote])
      if trimQuoted then parts.map TrimSpace else parts
    else parts
  parts.filter (fun p => p != [])

/-- The pieces of `GetArray` after all trimming and quote stripping, in textual
order, before the empty ones are dropped. -/
def processedParts (env : Env) (name sep : GoString) (allowQuotes trimQuoted : Bool) :
    List GoString :=
  let raw := GetOr env name []
  if raw = [] then []
  else
    let sep := if sep = [] then [','] else sep
    let raw := TrimSpace raw
    if raw.length = 0 then []
    else
      let raw :=
        if raw.head? = some '[' ∧ raw.getLast? = some ']' then
          TrimSpace (TrimRight (TrimSpace (Trim raw ['[', ']'])) sep)
        else raw
      let parts := (Split raw sep).map TrimSpace
      if !allowQuotes then
        let parts := parts.map (fun p => Trim p [dquote])
        if trimQuoted then parts.map TrimSpace else parts
      else parts

/-- The stripping pass of `MustGet` repeated until the string stops changing; a pass
that changes the string shortens it, so `fuel` passes suffice for a string of length
`fuel`. -/
def stripUntilStableAux : Nat → GoString → GoString
  | 0, val => val
  | fuel + 1, val =>
    if Trim val [dquote, squote] = val then val
    else stripUntilStableAux fuel (Trim val [dquote, squote])

/-- The stripping pass of `MustGet` repeated until the string stops changing. -/
def stripUntilStable (val : GoString) : GoString :=
  stripUntilStableAux val.length val

/-! ## Package `time` -/

/-- A Go `time.Time` as `Format` and `Parse` see it: the instant, as seconds since the
Unix epoch (an `int64`) and nanoseconds within the second (below 10^9), and the offset
in seconds east of UTC that the location of the time value has at that instant. -/
structure Time where
  sec : Int
  nsec : Nat
  offset : Int
  deriving DecidableEq, Repr

/-- Go `time.isLeap`. -/
def isLeap (year : Int) : Bool :=
  year % 4 == 0 && (year % 100 != 0 || year % 400 == 0)

/-- The table `daysBefore` of package `time`: the days of a non-leap year before the
start of month `m + 1`. -/
def daysBefore (m : Nat) : Nat :=
  [0, 31, 59, 90, 120, 151, 181, 212, 243, 273, 304, 334, 365].getD m 0

/-- Go `time.daysIn`. -/
def daysIn (month : Nat) (year : Int) : Nat :=
  if month = 2 ∧ isLeap year = true then 29 else daysBefore month - daysBefore (month - 1)

/-- The days from 1 January of year 1 to the Unix epoch. -/
def unixEpochDays : Int := 719162

/-- The constant `unixToInternal + internalToAbsolute` of package `time`: the seconds
from the start of the year -292277022399, where the absolute seconds of package `time`
start, to the Unix epoch. -/
def unixToAbsolute : Int := 9223372028715321600

/-- The constant `internalToAbsolute` of package `time` in days: the days from the start
of the year -292277022399 to 1 January of year 1, that is 730692556 cycles of 400
years. -/
def internalToAbsoluteDays : Int := 106751990353932

/-- Go `Time.abs`: the seconds of the instant moved by the zone offset, counted from the
start of the year -292277022399 in a `uint64`, so that the count wraps around at
2^64. -/
def Time.abs (t : Time) : Nat := ((t.sec + t.offset + unixToAbsolute) % 2 ^ 64).toNat

/-- The year and the day within the year (from 0) of a day counted from 1 January of
year 1, as in Go `time.absDate`: cycles of 400, 100, 4 and 1 years are cut off in
turn.  Package `time` counts the days without sign from the year -292277022399, which
differs from year 1 by a multiple of 400 years (`internalToAbsoluteDays`); here that
many days are taken off first, the count is signed and the first cut rounds down. -/
def yearDay (d : Int) : Int × Nat :=
  let n400 := d / 146097
  let d1 := (d % 146097).toNat
  let n100 := d1 / 36524 - d1 / 36524 / 4
  let d2 := d1 - 36524 * n100
  let n4 := d2 / 1461
  let d3 := d2 - 1461 * n4
  let n1 := d3 / 365 - d3 / 365 / 4
  (400 * n400 + 100 * n100 + 4 * n4 + n1 + 1, d3 - 365 * n1)

/-- The month and the day of the month of a day within a non-leap year, as in Go
`time.absDate`: the month is estimated by months of 31 days, which is too low by at
most one, and adjusted by the table `daysBefore`. -/
def monthDayPlain (day : Nat) : Nat × Nat :=
  let month := day / 31
  let e := daysBefore (month + 1)
  if day ≥ e then (month + 2, day - e + 1) else (month + 1, day - daysBefore month + 1)

/-- The month and the day of the month of a day within a year, as in Go `time.absDate`:
in a leap year the leap day is set apart and the days after it move down by one. -/
def monthDay (year : Int) (yday : Nat) : Nat × Nat :=
  if isLeap year = true ∧ yday = 31 + 29 - 1 then (2, 29)
  else monthDayPlain (if isLeap year = true ∧ yday > 31 + 29 - 1 then yday - 1 else yday)

/-- Go `time.daysSinceEpoch`, counted from 1 January of year 1: the days before
1 January of `year`. -/
def daysSinceEpoch (year : Int) : Int :=
  let y := year - 1
  146097 * (y / 400) + 36524 * (y % 400 / 100) + 1461 * (y % 100 / 4) + 365 * (y % 4)

/-- Go `time.appendInt`: the sign, then the decimal digits padded with zeros to
`width`. -/
def appendInt (x : Int) (width : Nat) : GoString :=
  (if x < 0 then ['-'] else [])
    ++ List.replicate (width - (sprintUint x.natAbs).length) '0' ++ sprintUint x.natAbs

/-- Go `time.appendNano` for the layout `.999999999`: nothing for zero nanoseconds,
otherwise the point and nine digits without the trailing zeros. -/
def appendNano (nsec : Nat) : GoString :=
  if nsec = 0 then [] else '.' :: (appendInt nsec 9).rdropWhile (fun c => c == '0')

/-- The zone of Go `Time.appendFormatRFC3339`: `Z` for the offset zero, otherwise the
sign, the hours and the minutes of the offset; the seconds of the offset are dropped
by the truncating division. -/
def appendZone (offset : Int) : GoString :=
  if offset = 0 then ['Z']
  else
    let zone := Int.tdiv offset 60
    (if zone < 0 then ['-'] else ['+'])
      ++ appendInt (zone.natAbs / 60 : Nat) 2 ++ [':'] ++ appendInt (zone.natAbs % 60 : Nat) 2

/-- Go `Time.Format(time.RFC3339Nano)`, that is `Time.appendFormatRFC3339` with
nanoseconds: date and clock of the absolute seconds, the fraction of the second, the
zone. -/
def formatRFC3339Nano (t : Time) : GoString :=
  let abs := t.abs
  let yd := yearDay ((abs / 86400 : Nat) - internalToAbsoluteDays)
  let md := monthDay yd.1 yd.2
  let clock := abs % 86400
  appendInt yd.1 4 ++ ['-'] ++ appendInt md.1 2 ++ ['-'] ++ appendInt md.2 2 ++ ['T']
    ++ appendInt (clock / 3600 : Nat) 2 ++ [':'] ++ appendInt (clock % 3600 / 60 : Nat) 2
    ++ [':'] ++ appendInt (clock % 60 : Nat) 2 ++ appendNano t.nsec ++ appendZone t.offset

/-- Go `s[i:j]` on a string long enough. -/
def slice (s : GoString) (i j : Nat) : GoString := (s.drop i).take (j - i)

/-- Go `time.isDigit(s, i)`: the rune at index `i` exists and is a decimal digit. -/
def isDigitAt (s : GoString) (i : Nat) : Bool :=
  match s[i]? with
  | some c => isDigit c
  | none => false

/-- The closure `parseUint` of Go `time.parseRFC3339`: the digits are read and the
value is checked against the range; `none` stands for the flag `ok` set to false. -/
def parseField (s : GoString) (lo hi : Nat) : Option Nat :=
  if s.all isDigit then
    if decValue s < lo ∨ hi < decValue s then none else some (decValue s)
  else none

/-- Go `time.parseNanoseconds` on a point followed by digits, `nbytes` runes in all:
at most nine digits are read and scaled to nanoseconds. -/
def parseNanoseconds (s : GoString) (nbytes : Nat) : Nat :=
  let nb := min nbytes 10
  decValue (slice s 1 nb) * 10 ^ (10 - nb)

/-- Go `time.Date` in UTC on fields that are in range (the calls that are modelled,
from `parseRFC3339` and from `parse`, pass checked fields, so the normalisation of
overflowing fields does not act). -/
def Date (year : Int) (month day hour min sec nsec : Nat) : Time :=
  let d := daysSinceEpoch year + daysBefore (month - 1)
    + (if isLeap year = true ∧ month ≥ 3 then 1 else 0) + (day - 1 : Nat)
  { sec := (d - unixEpochDays) * 86400 + hour * 3600 + min * 60 + sec,
    nsec := nsec, offset := 0 }

/-- The zone of Go `time.parseRFC3339` on the rest of the text after the fraction. -/
def parseZone (t : Time) (s : GoString) : Option Time :=
  if s = ['Z'] then some t
  else if s.length ≠ 6 then none
  else
    match parseField (slice s 1 3) 0 23, parseField (slice s 4 6) 0 59 with
    | some hr, some mm =>
      if (s.head? = some '-' ∨ s.head? = some '+') ∧ s[3]? = some ':' then
        let zoneOffset : Int := if s.head? = some '-' then -(((hr * 60 + mm) * 60 : Nat) : Int)
          else (((hr * 60 + mm) * 60 : Nat) : Int)
        some { sec := t.sec - zoneOffset, nsec := t.nsec, offset := zoneOffset }
      else none
    | _, _ => none

/-- The fraction and zone steps of Go `time.parseRFC3339` on the text after the
seconds; `mk` builds the time in UTC from the nanoseconds.  A point followed by a
digit starts the fraction, which runs over all the digits that follow. -/
def parseFractionZone (mk : Nat → Time) (rest : GoString) : Option Time :=
  if rest.length ≥ 2 ∧ rest.head? = some '.' ∧ isDigitAt rest 1 = true then
    let n := 1 + ((rest.drop 1).takeWhile isDigit).length
    parseZone (mk (parseNanoseconds rest n)) (rest.drop n)
  else parseZone (mk 0) rest

/-- Go `time.parseRFC3339`, the parser `time.Parse` tries first for the layouts
`RFC3339` and `RFC3339Nano`. -/
def parseRFC3339 (s : GoString) : Option Time :=
  if s.length < 19 then none
  else
    match parseField (slice s 0 4) 0 9999, parseField (slice s 5 7) 1 12 with
    | some year, some month =>
      match parseField (slice s 8 10) 1 (daysIn month year),
        parseField (slice s 11 13) 0 23, parseField (slice s 14 16) 0 59,
        parseField (slice s 17 19) 0 59 with
      | some day, some hour, some min, some sec =>
        if s[4]? = some '-' ∧ s[7]? = some '-' ∧ s[10]? = some 'T' ∧ s[13]? = some ':'
            ∧ s[16]? = some ':' then
          parseFractionZone (Date year month day hour min sec) (s.drop 19)
        else none
      | _, _, _, _ => none
    | _, _ => none

/-- The function `ToEpoche` of `timestamp.go`. -/
def ToEpoche (t : Time) : GoString := formatRFC3339Nano t

/-- Go `time.commaOrPeriod`. -/
def commaOrPeriod (c : Char) : Bool := c == '.' || c == ','

/-- Go `time.skip(value, prefix)` for a prefix of one rune that is not a space: the
value must start with the rune, which is taken off. -/
def skip (value : GoString) (c : Char) : Option GoString :=
  match value with
  | d :: rest => if d = c then some rest else none
  | [] => none

/-- Go `time.getnum(s, fixed)`: the number of one or two digits at the start of `s` and
the rest of `s`; with `fixed` set a single digit is an error. -/
def getnum (s : GoString) (fixed : Bool) : Option (Nat × GoString) :=
  if isDigitAt s 0 = false then none
  else if isDigitAt s 1 = false then
    if fixed = true then none else some (decValue (s.take 1), s.drop 1)
  else some (decValue (s.take 2), s.drop 2)

/-- Go `time.atoi` as `time.parse` calls it for the year: on four runes of which the
first is a digit, so that no sign is taken off and the value cannot overflow; a rune
that is not a digit is an error. -/
def atoi (s : GoString) : Option Nat :=
  if s.all isDigit then some (decValue s) else none

/-- The element `.999999999` of the layout in Go `time.parse`: a point or a comma
followed by a digit starts the fraction, which runs over all the digits that follow;
otherwise the fraction is taken as omitted.  The result is the nanoseconds and the
rest of the text. -/
def parseFraction (value : GoString) : Nat × GoString :=
  if value.length ≥ 2 ∧ (value.head?.map commaOrPeriod = some true)
      ∧ isDigitAt value 1 = true then
    let n := 1 + ((value.drop 1).takeWhile isDigit).length
    (parseNanoseconds value n, value.drop n)
  else (0, value)

/-- The element `Z07:00` of the layout in Go `time.parse`: the letter `Z` for UTC, or a
sign, two digits of hours, a colon and two digits of minutes.  The range test admits
24 hours and 60 minutes.  The result is the offset in seconds and the rest of the
text. -/
def parseZoneOffset (value : GoString) : Option (Int × GoString) :=
  if value.head? = some 'Z' then some (0, value.drop 1)
  else if value.length < 6 then none
  else if value[3]? ≠ some ':' then none
  else
    match getnum (slice value 1 3) true, getnum (slice value 4 6) true with
    | some hr, some mm =>
      if hr.1 > 24 ∨ mm.1 > 60 then none
      else if value.head? = some '+' then
        some ((((hr.1 * 60 + mm.1) * 60 : Nat) : Int), value.drop 6)
      else if value.head? = some '-' then
        some (-(((hr.1 * 60 + mm.1) * 60 : Nat) : Int), value.drop 6)
      else none
    | _, _ => none

/-- The elements `.999999999` and `Z07:00` of the layout and the end of Go
`time.parse`: fraction and zone are read, nothing may follow the zone, the day is
checked against the month, and the time is built in UTC and moved by the offset. -/
def parseEnd (year month day hour mi sec : Nat) (value : GoString) : Option Time :=
  let frac := parseFraction value
  match parseZoneOffset frac.2 with
  | none => none
  | some zone =>
    if zone.2 ≠ [] then none
    else if day < 1 ∨ daysIn month year < day then none
    else
      let t := Date year month day hour mi sec frac.1
      some { sec := t.sec - zone.1, nsec := t.nsec, offset := zone.1 }

/-- The elements `T15:04:05` of the layout in Go `time.parse`: an hour of one or two
digits below 24, minute and second of two digits below 60. -/
def parseClock (year month day : Nat) (value : GoString) : Option Time :=
  match (skip value 'T').bind (fun v => getnum v false) with
  | none => none
  | some hour =>
    if 24 ≤ hour.1 then none
    else
      match (skip hour.2 ':').bind (fun v => getnum v true) with
      | none => none
      | some mi =>
        if 60 ≤ mi.1 then none
        else
          match (skip mi.2 ':').bind (fun v => getnum v true) with
          | none => none
          | some sec =>
            if 60 ≤ sec.1 then none
            else parseEnd year month day hour.1 mi.1 sec.1 sec.2

/-- Go `time.parse(layout, value, UTC, Local)` for the layout `time.RFC3339Nano`, that
is `2006-01-02T15:04:05.999999999Z07:00`: the elements of the layout are read one
after the other (a year of four digits, month and day of two digits, then the clock,
the fraction and the zone), and the text between them must match.  `none` stands for
a `*time.ParseError`. -/
def parse (value : GoString) : Option Time :=
  if value.length < 4 ∨ isDigitAt value 0 = false then none
  else
    match atoi (value.take 4) with
    | none => none
    | some year =>
      match (skip (value.drop 4) '-').bind (fun v => getnum v true) with
      | none => none
      | some month =>
        if month.1 = 0 ∨ 12 < month.1 then none
        else
          match (skip month.2 '-').bind (fun v => getnum v true) with
          | none => none
          | some day => parseClock year month.1 day.1 day.2

/-- The function `FromEpoche` of `timestamp.go`: `time.Parse(time.RFC3339Nano, epoche)`
returns the time of `parseRFC3339` when that parser accepts the text and otherwise
the result of the layout-driven parser `parse`.  `none` stands for a result with an
error that is not nil. -/
def FromEpoche (epoche : GoString) : Option Time :=
  match parseRFC3339 epoche with
  | some t => some t
  | none => parse epoche


/-- The steps of Go `strconv.ParseInt` after the sign is taken off: the digits are
parsed by `ParseUint`, whose syntax error is passed on and whose range error leaves
the largest value of `bitSize` bits; then the value is checked against
`1 << (bitSize - 1)` and converted to `int64`. -/
def parseIntBody (bitSize : Nat) (neg : Bool) (digits : GoString) : Except NumErr Int :=
  match ParseUint digits bitSize with
  | .error .ErrSyntax => .error .ErrSyntax
  | r =>
    let un : Nat :=
      match r with
      | .ok v => v
      | .error _ => 2 ^ bitSize - 1
    let cutoff : Nat := 2 ^ (bitSize - 1)
    if neg = false ∧ un ≥ cutoff then .error .ErrRange
    else if neg = true ∧ un > cutoff then .error .ErrRange
    else .ok (if neg = true then wrapInt64 (-(wrapInt64 un)) else wrapInt64 un)

/-- Go `strconv.ParseInt(s, 10, bitSize)`: the empty text is a syntax error, a leading
`+` or `-` is taken off. -/
def ParseInt (s : GoString) (bitSize : Nat) : Except NumErr Int :=
  if s.isEmpty then .error .ErrSyntax
  else
    parseIntBody bitSize (s.head? == some '-')
      (if s.head? = some '+' ∨ s.head? = some '-' then s.tail else s)

/-- Go `time.Unix(sec, nsec)`: nanoseconds outside of a second are carried into the
seconds.  The time is in the local zone, whose offset at an instant is `zone`. -/
def Unix (zone : Int → Int) (sec nsec : Int) : Time :=
  if nsec < 0 ∨ nsec ≥ 1000000000 then
    let n := wrapInt64 (Int.tdiv nsec 1000000000)
    let sec := wrapInt64 (sec + n)
    let nsec := wrapInt64 (nsec - wrapInt64 (n * 1000000000))
    if nsec < 0 then
      { sec := wrapInt64 (sec - 1), nsec := (wrapInt64 (nsec + 1000000000)).toNat,
        offset := zone (wrapInt64 (sec - 1)) }
    else { sec := sec, nsec := nsec.toNat, offset := zone sec }
  else { sec := sec, nsec := nsec.toNat, offset := zone sec }

/-- Go `Time.UTC()`: the same instant in the zone UTC. -/
def UTC (t : Time) : Time := { sec := t.sec, nsec := t.nsec, offset := 0 }

/-- The function `NanoStringToTime` of `timestamp.go`; `zone` is the offset of the
local zone, in which `time.Unix` builds the time before it is moved to UTC. -/
def NanoStringToTime (zone : Int → Int) (input : GoString) : GoString :=
  match ParseInt input 64 with
  | .error _ => []
  | .ok val =>
    let seconds := wrapInt64 (Int.tdiv val 1000000000)
    let nseconds := wrapInt64 (seconds * 1000000000)
    let nleft := wrapInt64 (val - nseconds)
    formatRFC3339Nano (UTC (Unix zone seconds nleft))

/-- The digits of a signed literal: the text without its sign. -/
def int64Digits (s : GoString) : GoString :=
  match s with
  | '+' :: r => r
  | '-' :: r => r
  | _ => s

/-- The number a signed literal denotes. -/
def int64Value (s : GoString) : Int :=
  match s with
  | '-' :: r => -(decValue r : Int)
  | '+' :: r => (decValue r : Int)
  | _ => (decValue s : Int)

/-- The base-10 text of a signed 64-bit integer: an optional sign, one or more ASCII
digits, a value from -2^63 to 2^63 - 1. -/
def isInt64Literal (s : GoString) : Bool :=
  isUintLiteral (int64Digits s) &&
    decide (-2 ^ 63 ≤ int64Value s ∧ int64Value s ≤ 2 ^ 63 - 1)

/-- The year of a time in its own zone, the year `Format` writes. -/
def localYear (t : Time) : Int :=
  (yearDay ((t.abs / 86400 : Nat) - internalToAbsoluteDays)).1

/-- The `width` lowest decimal digits of `n`, the highest first. -/
def fixedDigits : Nat → Nat → GoString
  | 0, _ => []
  | width + 1, n => fixedDigits width (n / 10) ++ [digitChar (n % 10)]

/-! ## Trimming lemmas -/

section Trimming

variable {α : Type} (p : α → Bool)

theorem dropWhile_append_all (t l : List α) (h : ∀ x ∈ t, p x = true) :
    (t ++ l).dropWhile p = l.dropWhile p := by
  induction t with
  | nil => rfl
  | cons a t ih =>
    have ha : p a = true := h a (List.mem_cons_self a t)
    have ht : ∀ x ∈ t, p x = true := fun x hx => h x (List.mem_cons_of_mem a hx)
    simp [List.dropWhile_cons, ha, ih ht]

theorem rdropWhile_append_all (l t : List α) (h : ∀ x ∈ t, p x = true) :
    (l ++ t).rdropWhile p = l.rdropWhile p := by
  unfold List.rdropWhile
  rw [List.reverse_append, dropWhile_append_all]
  intro x hx
  exact h x (List.mem_reverse.mp hx)

theorem rdropWhile_append_rtakeWhile (l : List α) :
    l.rdropWhile p ++ l.rtakeWhile p = l := by
  unfold List.rdropWhile List.rtakeWhile
  rw [← List.reverse_append, List.takeWhile_append_dropWhile, List.reverse_reverse]

theorem rdropWhile_cons (a : α) (l : List α) :
    (a :: l).rdropWhile p =
      if ((l.rdropWhile p).isEmpty && p a) = true then [] else a :: l.rdropWhile p := by
  unfold List.rdropWhile
  rw [List.reverse_cons, List.dropWhile_append]
  by_cases h : List.dropWhile p l.reverse = []
  · by_cases ha : p a = true <;> simp [h, ha]
  · simp [h]

theorem dropWhile_rdropWhile_comm (l : List α) :
    (l.rdropWhile p).dropWhile p = (l.dropWhile p).rdropWhile p := by
  induction l with
  | nil => rfl
  | cons a l ih =>
    rw [rdropWhile_cons]
    by_cases ha : p a = true
    · rw [List.dropWhile_cons_of_pos ha, ← ih]
      by_cases h : l.rdropWhile p = []
      · simp [h, ha]
      · simp [h, ha]
    · rw [List.dropWhile_cons_of_neg ha, rdropWhile_cons]
      simp [ha]

/-- Trimming on both ends returns the middle part of any decomposition whose outer
parts lie in the cut set and whose middle part neither starts nor ends in it. -/
theorem trim_eq_of_decomp (a m b : List α) (ha : ∀ x ∈ a, p x = true)
    (hb : ∀ x ∈ b, p x = true) (hh : ∀ x, m.head? = some x → p x = false)
    (hl : ∀ x, m.getLast? = some x → p x = false) :
    ((a ++ m ++ b).dropWhile p).rdropWhile p = m := by
  rw [← dropWhile_rdropWhile_comm, rdropWhile_append_all p _ b hb,
    dropWhile_rdropWhile_comm, dropWhile_append_all p a m ha]
  have h1 : m.dropWhile p = m := by
    cases m with
    | nil => rfl
    | cons x m => exact List.dropWhile_cons_of_neg (by simp [hh x rfl])
  rw [h1, List.rdropWhile_eq_self_iff]
  intro hne
  have := hl (m.getLast hne) (List.getLast?_eq_getLast m hne)
  simp [this]

/-- Every list splits into a trimmed-off head, the trimmed list and a trimmed-off
tail. -/
theorem trim_decomp (l : List α) :
    ∃ a b, l = a ++ (l.dropWhile p).rdropWhile p ++ b ∧ (∀ x ∈ a, p x = true) ∧
      (∀ x ∈ b, p x = true) := by
  refine ⟨l.takeWhile p, (l.dropWhile p).rtakeWhile p, ?_, ?_, ?_⟩
  · rw [List.append_assoc, rdropWhile_append_rtakeWhile, List.takeWhile_append_dropWhile]
  · intro x hx
    exact (List.mem_takeWhile_imp hx)
  · intro x hx
    exact (List.mem_rtakeWhile_imp hx)

theorem trim_head_not (l : List α) (x : α)
    (h : ((l.dropWhile p).rdropWhile p).head? = some x) : p x = false := by
  rw [← dropWhile_rdropWhile_comm] at h
  have := List.head?_dropWhile_not p (l.rdropWhile p)
  rw [h] at this
  exact this

theorem trim_getLast_not (l : List α) (x : α)
    (h : ((l.dropWhile p).rdropWhile p).getLast? = some x) : p x = false := by
  have hne : (l.dropWhile p).rdropWhile p ≠ [] := by
    intro h0
    rw [h0] at h
    cases h
  have := List.rdropWhile_last_not p (l.dropWhile p) hne
  rw [List.getLast?_eq_getLast _ hne] at h
  cases h
  simpa using this

theorem trim_mem (l : List α) (x : α) (h : x ∈ (l.dropWhile p).rdropWhile p) : x ∈ l :=
  (List.dropWhile_suffix p).subset ((List.rdropWhile_prefix p _).subset h)

end Trimming

/-! ## Splitting lemmas -/

section Splitting

variable (p q : Char → Bool)

theorem cleanBy_cons (x : GoString) (parts : List GoString) :
    cleanBy q (x :: parts) = cleanBy q [x] ++ cleanBy q parts := by
  unfold cleanBy
  rw [List.map_cons, List.filter_cons]
  split <;> simp_all

theorem cleanBy_single_append (x t : GoString) (ht : ∀ c ∈ t, q c = true) :
    cleanBy q [x ++ t] = cleanBy q [x] := by
  unfold cleanBy
  simp only [List.map_cons, List.map_nil]
  rw [← dropWhile_rdropWhile_comm, rdropWhile_append_all q x t ht, dropWhile_rdropWhile_comm]

theorem cleanBy_single_prepend (t x : GoString) (ht : ∀ c ∈ t, q c = true) :
    cleanBy q [t ++ x] = cleanBy q [x] := by
  unfold cleanBy
  simp only [List.map_cons, List.map_nil]
  rw [dropWhile_append_all q t x ht]

theorem cleanBy_single_nil : cleanBy q [[]] = [] := rfl

/-- A tail of blanks and separators adds no piece to the cleaned split. -/
theorem cleanBy_go_tail (t : GoString) (ht : ∀ c ∈ t, q c = true ∨ p c = true)
    (acc : GoString) :
    cleanBy q (List.splitOnP.go p t acc) = cleanBy q [acc.reverse] := by
  induction t generalizing acc with
  | nil => rfl
  | cons c t ih =>
    have ht2 : ∀ x ∈ t, q x = true ∨ p x = true :=
      fun x hx => ht x (List.mem_cons_of_mem c hx)
    rw [List.splitOnP.go]
    by_cases hc : p c = true
    · rw [if_pos hc, cleanBy_cons, ih ht2 [], List.reverse_nil, cleanBy_single_nil,
        List.append_nil]
    · rw [if_neg hc, ih ht2 (c :: acc), List.reverse_cons]
      apply cleanBy_single_append
      intro x hx
      rw [List.mem_singleton.mp hx]
      rcases ht c (List.mem_cons_self c t) with h | h
      · exact h
      · exact absurd h hc

theorem cleanBy_go_append (s t : GoString) (ht : ∀ c ∈ t, q c = true ∨ p c = true)
    (acc : GoString) :
    cleanBy q (List.splitOnP.go p (s ++ t) acc) = cleanBy q (List.splitOnP.go p s acc) := by
  induction s generalizing acc with
  | nil =>
    rw [List.nil_append, cleanBy_go_tail p q t ht acc]
    rfl
  | cons c s ih =>
    rw [List.cons_append, List.splitOnP.go, List.splitOnP.go]
    by_cases hc : p c = true
    · rw [if_pos hc, if_pos hc, cleanBy_cons, ih [], ← cleanBy_cons]
    · rw [if_neg hc, if_neg hc, ih (c :: acc)]

theorem go_prepend (t s acc : GoString) (ht : ∀ c ∈ t, p c = false) :
    List.splitOnP.go p (t ++ s) acc = List.splitOnP.go p s (t.reverse ++ acc) := by
  induction t generalizing acc with
  | nil => rfl
  | cons c t ih =>
    have hc : ¬ p c = true := by simp [ht c (List.mem_cons_self c t)]
    rw [List.cons_append, List.splitOnP.go, if_neg hc,
      ih _ (fun x hx => ht x (List.mem_cons_of_mem c hx))]
    simp

theorem cleanBy_go_acc (s acc : GoString) (hacc : ∀ c ∈ acc, q c = true) :
    cleanBy q (List.splitOnP.go p s acc) = cleanBy q (List.splitOnP.go p s []) := by
  rw [List.splitOnP.go_acc p s acc, List.splitOnP.go_acc p s []]
  cases h : List.splitOnP p s with
  | nil => rfl
  | cons x parts =>
    simp only [List.modifyHead_cons, List.reverse_nil, List.nil_append]
    rw [cleanBy_cons, cleanBy_cons q x]
    congr 1
    apply cleanBy_single_prepend
    intro c hc
    exact hacc c (List.mem_reverse.mp hc)

/-- Blanks in front of the string add no piece to the cleaned split. -/
theorem cleanBy_splitOnP_prepend (t s : GoString) (ht : ∀ c ∈ t, q c = true)
    (hqp : ∀ c, q c = true → p c = false) :
    cleanBy q (List.splitOnP p (t ++ s)) = cleanBy q (List.splitOnP p s) := by
  unfold List.splitOnP
  rw [go_prepend p t s [] (fun c hc => hqp c (ht c hc))]
  apply cleanBy_go_acc
  intro c hc
  rw [List.append_nil] at hc
  exact ht c (List.mem_reverse.mp hc)

theorem cleanBy_splitOnP_append (s t : GoString) (ht : ∀ c ∈ t, q c = true ∨ p c = true) :
    cleanBy q (List.splitOnP p (s ++ t)) = cleanBy q (List.splitOnP p s) :=
  cleanBy_go_append p q s t ht []

/-- Trimming the blanks of the string before the split does not change the cleaned
split. -/
theorem cleanBy_splitOnP_trim (s : GoString) (hqp : ∀ c, q c = true → p c = false) :
    cleanBy q (List.splitOnP p ((s.dropWhile q).rdropWhile q)) =
      cleanBy q (List.splitOnP p s) := by
  obtain ⟨a, b, h, ha, hb⟩ := trim_decomp q s
  conv_rhs => rw [h]
  rw [cleanBy_splitOnP_append p q _ b (fun c hc => Or.inl (hb c hc)),
    cleanBy_splitOnP_prepend p q a _ ha hqp]

/-- Removing trailing separators before the split does not change the cleaned
split. -/
theorem cleanBy_splitOnP_rdropWhile (s : GoString) :
    cleanBy q (List.splitOnP p (s.rdropWhile p)) = cleanBy q (List.splitOnP p s) := by
  conv_rhs => rw [← rdropWhile_append_rtakeWhile p s]
  rw [cleanBy_splitOnP_append p q _ _ (fun c hc => Or.inr (List.mem_rtakeWhile_imp hc))]

theorem mem_of_mem_go (s acc piece : GoString) (c : Char)
    (hp : piece ∈ List.splitOnP.go p s acc) (hc : c ∈ piece) : c ∈ s ∨ c ∈ acc := by
  induction s generalizing acc with
  | nil =>
    simp only [List.splitOnP.go, List.mem_singleton] at hp
    rw [hp] at hc
    exact Or.inr (List.mem_reverse.mp hc)
  | cons a s ih =>
    rw [List.splitOnP.go] at hp
    by_cases ha : p a = true
    · rw [if_pos ha] at hp
      rcases List.mem_cons.mp hp with h | h
      · rw [h] at hc
        exact Or.inr (List.mem_reverse.mp hc)
      · rcases ih [] h with h2 | h2
        · exact Or.inl (List.mem_cons_of_mem a h2)
        · cases h2
    · rw [if_neg ha] at hp
      rcases ih (a :: acc) hp with h2 | h2
      · exact Or.inl (List.mem_cons_of_mem a h2)
      · rcases List.mem_cons.mp h2 with h3 | h3
        · rw [h3]
          exact Or.inl (List.mem_cons_self a s)
        · exact Or.inr h3

theorem mem_of_mem_splitOnP (s piece : GoString) (c : Char)
    (hp : piece ∈ List.splitOnP p s) (hc : c ∈ piece) : c ∈ s := by
  rcases mem_of_mem_go p s [] piece c hp hc with h | h
  · exact h
  · cases h

end Splitting

/-- With a separator of one rune the scan of `Split` is the library split on that
rune. -/
theorem splitScan_single (x : Char) (s cur : GoString) :
    splitScan [x] 0 cur s = List.splitOnP.go (fun c => c == x) s cur := by
  induction s generalizing cur with
  | nil => rfl
  | cons c s ih =>
    rw [splitScan, List.splitOnP.go]
    by_cases hc : c = x
    · subst hc
      simp [List.isPrefixOf, ih]
    · have hx : ¬ x = c := fun h => hc h.symm
      simp [List.isPrefixOf, hc, hx, ih]

theorem Split_single (x : Char) (s : GoString) : Split s [x] = s.splitOn x := by
  unfold Split List.splitOn List.splitOnP
  simp only [List.isEmpty_cons, Bool.false_eq_true, if_false]
  exact splitScan_single x s []

/-! ## Lemmas on `Trim` and `TrimSpace` -/

theorem Trim_eq (s cutset : GoString) :
    Trim s cutset =
      (s.dropWhile (fun c => cutset.contains c)).rdropWhile (fun c => cutset.contains c) := by
  unfold Trim TrimLeft TrimRight
  exact dropWhile_rdropWhile_comm _ s

theorem Trim_nil (cutset : GoString) : Trim [] cutset = [] := rfl

/-- A string that neither starts nor ends with a rune of the cut set, wrapped in runes
of the cut set, is trimmed back to itself. -/
theorem Trim_wrapped (a m b cutset : GoString) (ha : ∀ x ∈ a, x ∈ cutset)
    (hb : ∀ x ∈ b, x ∈ cutset) (hh : ∀ x, m.head? = some x → x ∉ cutset)
    (hl : ∀ x, m.getLast? = some x → x ∉ cutset) :
    Trim (a ++ m ++ b) cutset = m := by
  rw [Trim_eq]
  apply trim_eq_of_decomp
  · intro x hx
    simpa using ha x hx
  · intro x hx
    simpa using hb x hx
  · intro x hx
    simpa using hh x hx
  · intro x hx
    simpa using hl x hx

theorem Trim_eq_self (m cutset : GoString) (hh : ∀ x, m.head? = some x → x ∉ cutset)
    (hl : ∀ x, m.getLast? = some x → x ∉ cutset) : Trim m cutset = m := by
  have := Trim_wrapped [] m [] cutset (by simp) (by simp) hh hl
  simpa using this

theorem Trim_eq_self_of_not_mem (m cutset : GoString) (h : ∀ x ∈ m, x ∉ cutset) :
    Trim m cutset = m := by
  apply Trim_eq_self
  · intro x hx
    exact h x (List.mem_of_mem_head? hx)
  · intro x hx
    exact h x (List.mem_of_mem_getLast? hx)

theorem Trim_decomp (s cutset : GoString) :
    ∃ a b, s = a ++ Trim s cutset ++ b ∧ (∀ x ∈ a, x ∈ cutset) ∧ (∀ x ∈ b, x ∈ cutset) := by
  obtain ⟨a, b, h, ha, hb⟩ := trim_decomp (fun c => cutset.contains c) s
  refine ⟨a, b, ?_, ?_, ?_⟩
  · rw [Trim_eq]
    exact h
  · intro x hx
    simpa using ha x hx
  · intro x hx
    simpa using hb x hx

theorem Trim_head_not (s cutset : GoString) (x : Char)
    (h : (Trim s cutset).head? = some x) : x ∉ cutset := by
  rw [Trim_eq] at h
  simpa using trim_head_not _ s x h

theorem Trim_getLast_not (s cutset : GoString) (x : Char)
    (h : (Trim s cutset).getLast? = some x) : x ∉ cutset := by
  rw [Trim_eq] at h
  simpa using trim_getLast_not _ s x h

theorem Trim_mem (s cutset : GoString) (x : Char) (h : x ∈ Trim s cutset) : x ∈ s := by
  rw [Trim_eq] at h
  exact trim_mem _ s x h

theorem GetOr_eq (env : Env) (name dval : GoString) :
    GetOr env name dval = Trim (resolved env name dval) [dquote] := by
  unfold GetOr resolved
  rfl

theorem GetOr_nil_default (env : Env) (name : GoString) :
    GetOr env name [] = Trim (Get env name) [dquote] := by
  rw [GetOr_eq]
  unfold resolved
  split
  · rename_i h
    rw [h]
  · rfl

theorem wrapQuotes_eq (layers : List Char) (s : GoString) :
    wrapQuotes layers s = layers ++ s ++ layers.reverse := by
  induction layers with
  | nil => simp [wrapQuotes]
  | cons q layers ih => simp [wrapQuotes, ih]

/-! ## Properties of the scalar accessors -/

/-- C2: `MustGet` fails exactly when the raw value of the variable is empty (the
variable is unset or set to the empty string), which is exactly when `Exists` is false,
and the value it panics with is the message "missing env var - " followed by the
name. -/
theorem MustGet_fails_iff (env : Env) (name : GoString) :
    ((∃ p, MustGet env name = .error p) ↔ Get env name = []) ∧
    (Get env name = [] ↔ (env name = none ∨ env name = some [])) ∧
    ((∃ p, MustGet env name = .error p) ↔ Exists env name = false) ∧
    (∀ p, MustGet env name = .error p →
      p = .message ("missing env var - ".toList ++ name)) := by
  have hex : Exists env name = false ↔ Get env name = [] := by
    unfold Exists
    simp
  have hget : Get env name = [] ↔ (env name = none ∨ env name = some []) := by
    unfold Get
    cases env name <;> simp
  have hfail : (∃ p, MustGet env name = .error p) ↔ Get env name = [] := by
    unfold MustGet
    by_cases h : Get env name = [] <;> simp [h]
  refine ⟨hfail, hget, hfail.trans hex.symm, ?_⟩
  intro p hp
  unfold MustGet at hp
  by_cases h : Get env name = []
  · simp [h] at hp
    exact hp.symm
  · simp [h] at hp

/-- C3: `MustGetArray` fails exactly when `GetArray` with the same arguments returns
no element, the value it panics with is then the message
"missing env var (empty array) - " followed by the name, and otherwise it returns the
sequence `GetArray` returns. -/
theorem MustGetArray_spec (env : Env) (name sep : GoString) (allowQuotes trimQuoted : Bool) :
    ((∃ p, MustGetArray env name sep allowQuotes trimQuoted = .error p) ↔
      GetArray env name sep allowQuotes trimQuoted = []) ∧
    MustGetArray env name sep allowQuotes trimQuoted =
      (if GetArray env name sep allowQuotes trimQuoted = [] then
        .error (.message ("missing env var (empty array) - ".toList ++ name))
      else .ok (GetArray env name sep allowQuotes trimQuoted)) := by
  unfold MustGetArray
  by_cases h : GetArray env name sep allowQuotes trimQuoted = []
  · simp [h]
  · simp [h]

/-- C7: `GetOr` returns the resolved string (the value of the variable when it is
non-empty, the default otherwise) with its leading and trailing runs of double quotes
removed: the resolved string is the result between two runs of double quotes, and the
result neither starts nor ends with a double quote.  Everything else, single quotes
and inner double quotes included, stays in place, and the default is stripped like a
value. -/
theorem GetOr_strips_dquotes (env : Env) (name dval : GoString) :
    GetOr env name dval = Trim (resolved env name dval) [dquote] ∧
    (∃ pre suf, resolved env name dval = pre ++ GetOr env name dval ++ suf ∧
      (∀ c ∈ pre, c = dquote) ∧ (∀ c ∈ suf, c = dquote)) ∧
    (GetOr env name dval).head? ≠ some dquote ∧
    (GetOr env name dval).getLast? ≠ some dquote := by
  rw [GetOr_eq]
  refine ⟨rfl, ?_, ?_, ?_⟩
  · obtain ⟨a, b, h, ha, hb⟩ := Trim_decomp (resolved env name dval) [dquote]
    refine ⟨a, b, h, ?_, ?_⟩
    · intro c hc
      simpa using ha c hc
    · intro c hc
      simpa using hb c hc
  · intro h
    exact Trim_head_not _ _ _ h (by simp)
  · intro h
    exact Trim_getLast_not _ _ _ h (by simp)

/-- C8: for a non-empty string `s` that neither starts nor ends with a double or
single quote, wrapped in layers of matching quotes, `MustGet` on a variable holding
the wrapped string returns `s`.  This holds for any number of layers, so for one, two
and three: the first pass already removes the whole run of quotes on either side. -/
theorem MustGet_unwraps (env : Env) (name s : GoString) (layers : List Char)
    (hs : s ≠ [])
    (hh : ∀ c, s.head? = some c → isQuote c = false)
    (hl : ∀ c, s.getLast? = some c → isQuote c = false)
    (hq : ∀ q ∈ layers, isQuote q = true)
    (hv : Get env name = wrapQuotes layers s) :
    MustGet env name = .ok s := by
  have hcut : ∀ c : Char, c ∈ [dquote, squote] ↔ isQuote c = true := by
    intro c
    simp [isQuote]
  have hh2 : ∀ x, s.head? = some x → x ∉ [dquote, squote] := by
    intro x hx hmem
    have := hh x hx
    rw [(hcut x).mp hmem] at this
    cases this
  have hl2 : ∀ x, s.getLast? = some x → x ∉ [dquote, squote] := by
    intro x hx hmem
    have := hl x hx
    rw [(hcut x).mp hmem] at this
    cases this
  have h1 : Trim (wrapQuotes layers s) [dquote, squote] = s := by
    rw [wrapQuotes_eq]
    apply Trim_wrapped _ _ _ _ _ _ hh2 hl2
    · intro x hx
      exact (hcut x).mpr (hq x hx)
    · intro x hx
      exact (hcut x).mpr (hq x (List.mem_reverse.mp hx))
  have h2 : Trim s [dquote, squote] = s := Trim_eq_self _ _ hh2 hl2
  have hne : wrapQuotes layers s ≠ [] := by
    rw [wrapQuotes_eq]
    simp [hs]
  unfold MustGet
  simp only [hv, hne, if_false]
  simp [stripQuotesLoop, h1, h2]

/-! ## The stages of `GetArray` -/

theorem GetArray_unfold (env : Env) (name sep : GoString) (allowQuotes trimQuoted : Bool) :
    GetArray env name sep allowQuotes trimQuoted =
      if GetOr env name [] = [] then []
      else if TrimSpace (GetOr env name []) = [] then []
      else finishParts allowQuotes trimQuoted
        ((Split (unbracket (TrimSpace (GetOr env name [])) (if sep = [] then [','] else sep))
          (if sep = [] then [','] else sep)).map TrimSpace) := by
  unfold GetArray finishParts unbracket
  simp only [List.length_eq_zero]

theorem TrimSpace_eq (s : GoString) :
    TrimSpace s = (s.dropWhile isSpace).rdropWhile isSpace := rfl

theorem TrimSpace_mem (s : GoString) (c : Char) (h : c ∈ TrimSpace s) : c ∈ s :=
  trim_mem isSpace s c h

theorem TrimSpace_eq_self (m : GoString) (hh : ∀ x, m.head? = some x → isSpace x = false)
    (hl : ∀ x, m.getLast? = some x → isSpace x = false) : TrimSpace m = m := by
  have := trim_eq_of_decomp isSpace [] m [] (by simp) (by simp) hh hl
  simpa using this

theorem TrimSpace_idem (s : GoString) : TrimSpace (TrimSpace s) = TrimSpace s :=
  TrimSpace_eq_self _ (trim_head_not isSpace s) (trim_getLast_not isSpace s)

theorem cleanBy_isSpace (parts : List GoString) :
    cleanBy isSpace parts = (parts.map TrimSpace).filter (fun p => p != []) := rfl

/-- On pieces without a double quote the flags change nothing: the last stage only
drops the empty pieces. -/
theorem finishParts_plain (allowQuotes trimQuoted : Bool) (parts : List GoString)
    (h : ∀ piece ∈ parts, ∀ c ∈ piece, c ≠ dquote) :
    finishParts allowQuotes trimQuoted (parts.map TrimSpace) = cleanBy isSpace parts := by
  have hq : (parts.map TrimSpace).map (fun p => Trim p [dquote]) = parts.map TrimSpace := by
    rw [List.map_map]
    apply List.map_congr_left
    intro piece hp
    apply Trim_eq_self_of_not_mem
    intro c hc hmem
    exact h piece hp c (TrimSpace_mem piece c hc) (List.mem_singleton.mp hmem)
  have ht : (parts.map TrimSpace).map TrimSpace = parts.map TrimSpace := by
    rw [List.map_map]
    apply List.map_congr_left
    intro piece _
    exact TrimSpace_idem piece
  rw [cleanBy_isSpace]
  unfold finishParts
  cases allowQuotes <;> cases trimQuoted <;> simp [hq, ht]

theorem comma_not_space : ∀ c, isSpace c = true → (c == ',') = false := by
  intro c hc
  by_cases h : c = ','
  · subst h
    revert hc
    decide
  · simpa using h

/-- The cleaned comma split is not changed by trimming the string first. -/
theorem splitTrimFilter_TrimSpace (s : GoString) :
    splitTrimFilter (TrimSpace s) = splitTrimFilter s :=
  cleanBy_splitOnP_trim (fun c => c == ',') isSpace s comma_not_space

/-- The cleaned comma split is not changed by removing trailing commas first. -/
theorem splitTrimFilter_TrimRight (s : GoString) :
    splitTrimFilter (TrimRight s [',']) = splitTrimFilter s := by
  have hp : (fun c : Char => [','].contains c) = (fun c => c == ',') := by
    funext c
    by_cases h : c = ',' <;> simp [h]
  unfold TrimRight
  rw [hp]
  exact cleanBy_splitOnP_rdropWhile (fun c => c == ',') isSpace s

/-- The result of `GetArray` with the comma separator on a raw value that holds no
double quote and is not bracketed after trimming. -/
theorem GetArray_comma_plain (env : Env) (name : GoString) (allowQuotes trimQuoted : Bool)
    (hq : ∀ c ∈ Get env name, c ≠ dquote)
    (hb : (TrimSpace (Get env name)).head? ≠ some '[') :
    GetArray env name [','] allowQuotes trimQuoted = splitTrimFilter (Get env name) := by
  have hraw : GetOr env name [] = Get env name := by
    rw [GetOr_nil_default]
    apply Trim_eq_self_of_not_mem
    intro c hc hmem
    exact hq c hc (List.mem_singleton.mp hmem)
  rw [GetArray_unfold, hraw]
  by_cases h1 : Get env name = []
  · rw [if_pos h1, h1]
    rfl
  · rw [if_neg h1]
    by_cases h2 : TrimSpace (Get env name) = []
    · rw [if_pos h2, ← splitTrimFilter_TrimSpace, h2]
      rfl
    · rw [if_neg h2]
      have hsep : (if ([','] : GoString) = [] then [','] else [',']) = [','] := by simp
      have hub : unbracket (TrimSpace (Get env name)) [','] = TrimSpace (Get env name) := by
        unfold unbracket
        rw [if_neg (fun h => hb h.1)]
      rw [hsep, hub, Split_single, finishParts_plain]
      · exact splitTrimFilter_TrimSpace (Get env name)
      · intro piece hp c hc
        have hmem : c ∈ TrimSpace (Get env name) :=
          mem_of_mem_splitOnP _ _ piece c hp hc
        exact hq c (TrimSpace_mem _ c hmem)

theorem not_syntax_ne (c : Char) (h : isSyntaxChar c = false) :
    c ≠ '[' ∧ c ≠ ']' ∧ c ≠ dquote := by
  simp only [isSyntaxChar, Bool.or_eq_false_iff, beq_eq_false_iff_ne] at h
  exact ⟨h.1.1, h.1.2, h.2⟩

theorem bracketed_head (s : GoString) : ('[' :: (s ++ [']'])).head? = some '[' := rfl

theorem bracketed_getLast (s : GoString) : ('[' :: (s ++ [']'])).getLast? = some ']' := by
  rw [← List.cons_append, List.getLast?_append]
  rfl

/-- The result of `GetArray` with the comma separator on a plain string. -/
theorem GetArray_comma_of_plain (env : Env) (name s : GoString)
    (allowQuotes trimQuoted : Bool) (hs : ∀ c ∈ s, isSyntaxChar c = false)
    (hv : Get env name = s) :
    GetArray env name [','] allowQuotes trimQuoted = splitTrimFilter s := by
  rw [← hv] at hs ⊢
  apply GetArray_comma_plain
  · intro c hc
    exact (not_syntax_ne c (hs c hc)).2.2
  · intro h
    have hmem : '[' ∈ Get env name := TrimSpace_mem _ _ (List.mem_of_mem_head? h)
    exact (not_syntax_ne _ (hs _ hmem)).1 rfl

/-- The result of `GetArray` with the comma separator on a plain string in
brackets. -/
theorem GetArray_comma_of_bracketed (env : Env) (name s : GoString)
    (allowQuotes trimQuoted : Bool) (hs : ∀ c ∈ s, isSyntaxChar c = false)
    (hv : Get env name = '[' :: (s ++ [']'])) :
    GetArray env name [','] allowQuotes trimQuoted = splitTrimFilter s := by
  have hhead := bracketed_head s
  have hlast := bracketed_getLast s
  have hraw : GetOr env name [] = '[' :: (s ++ [']']) := by
    rw [GetOr_nil_default, hv]
    apply Trim_eq_self
    · intro x hx
      rw [hhead] at hx
      cases hx
      decide
    · intro x hx
      rw [hlast] at hx
      cases hx
      decide
  have htrim : TrimSpace ('[' :: (s ++ [']'])) = '[' :: (s ++ [']']) := by
    apply TrimSpace_eq_self
    · intro x hx
      rw [hhead] at hx
      cases hx
      decide
    · intro x hx
      rw [hlast] at hx
      cases hx
      decide
  have hstrip : Trim ('[' :: (s ++ [']'])) ['[', ']'] = s := by
    have h := Trim_wrapped ['['] s [']'] ['[', ']'] (by simp) (by simp)
      (fun x hx hmem => by
        have hn := not_syntax_ne x (hs x (List.mem_of_mem_head? hx))
        rcases List.mem_cons.mp hmem with h1 | h1
        · exact hn.1 h1
        · exact hn.2.1 (List.mem_singleton.mp h1))
      (fun x hx hmem => by
        have hn := not_syntax_ne x (hs x (List.mem_of_mem_getLast? hx))
        rcases List.mem_cons.mp hmem with h1 | h1
        · exact hn.1 h1
        · exact hn.2.1 (List.mem_singleton.mp h1))
    simpa using h
  have hsep : (if ([','] : GoString) = [] then [','] else [',']) = [','] := by simp
  have hub : unbracket ('[' :: (s ++ [']'])) [','] =
      TrimSpace (TrimRight (TrimSpace s) [',']) := by
    unfold unbracket
    rw [if_pos ⟨hhead, hlast⟩, hstrip]
  rw [GetArray_unfold, hraw, htrim, if_neg (by simp), if_neg (by simp), hsep, hub,
    Split_single, finishParts_plain]
  · have h1 := splitTrimFilter_TrimSpace (TrimRight (TrimSpace s) [','])
    have h2 := splitTrimFilter_TrimRight (TrimSpace s)
    have h3 := splitTrimFilter_TrimSpace s
    exact h1.trans (h2.trans h3)
  · intro piece hp c hc
    have h1 : c ∈ TrimSpace (TrimRight (TrimSpace s) [',']) :=
      mem_of_mem_splitOnP _ _ piece c hp hc
    have h2 : c ∈ TrimRight (TrimSpace s) [','] := TrimSpace_mem _ c h1
    have h3 : c ∈ TrimSpace s := (List.rdropWhile_prefix _ _).subset h2
    exact (not_syntax_ne c (hs c (TrimSpace_mem _ c h3))).2.2

/-! ## Characters -/

theorem toNat_ofNat_small (n : Nat) (h : n < 55296) : (Char.ofNat n).toNat = n := by
  unfold Char.ofNat
  have hv : n.isValidChar := Or.inl h
  rw [dif_pos hv]
  rfl

theorem char_eq_of_toNat (a b : Char) (h : a.toNat = b.toNat) : a = b := by
  rw [← Char.ofNat_toNat a, ← Char.ofNat_toNat b, h]

theorem char_eq_iff_toNat (a b : Char) : a = b ↔ a.toNat = b.toNat :=
  ⟨fun h => by rw [h], char_eq_of_toNat a b⟩

/-- The rune `strings.ToLower` writes for `c` is the lower-case ASCII letter `x`
exactly when `c` is `x` or its upper-case form, provided the case table maps no rune
from U+0080 on to `x`. -/
theorem lower_eq_letter_iff (tbl : Char → Char) (c x : Char)
    (hx : 97 ≤ x.toNat ∧ x.toNat ≤ 122) (htbl : ∀ r : Char, 128 ≤ r.toNat → tbl r ≠ x) :
    (if c.toNat < 128 then asciiLower c else tbl c) = x ↔
      (c.toNat = x.toNat ∨ c.toNat + 32 = x.toNat) := by
  by_cases h128 : c.toNat < 128
  · rw [if_pos h128]
    unfold asciiLower
    by_cases hup : 65 ≤ c.toNat ∧ c.toNat ≤ 90
    · rw [if_pos hup, char_eq_iff_toNat, toNat_ofNat_small _ (by omega)]
      omega
    · rw [if_neg hup, char_eq_iff_toNat]
      omega
  · rw [if_neg h128]
    constructor
    · intro h
      exact absurd h (htbl c (by omega))
    · intro h
      omega

theorem ToLower_eq_true_iff (tbl : Char → Char)
    (htbl : ∀ r : Char, 128 ≤ r.toNat → tbl r ∉ ['t', 'r', 'u', 'e']) (w : GoString) :
    (ToLower tbl w == ['t', 'r', 'u', 'e']) = equalsTrueIgnoringCase w := by
  have ht : ∀ r : Char, 128 ≤ r.toNat → tbl r ≠ 't' := fun r hr h =>
    htbl r hr (by simp [h])
  have hr : ∀ r : Char, 128 ≤ r.toNat → tbl r ≠ 'r' := fun r hr h =>
    htbl r hr (by simp [h])
  have hu : ∀ r : Char, 128 ≤ r.toNat → tbl r ≠ 'u' := fun r hr h =>
    htbl r hr (by simp [h])
  have he : ∀ r : Char, 128 ≤ r.toNat → tbl r ≠ 'e' := fun r hr h =>
    htbl r hr (by simp [h])
  have key : ∀ (c x X : Char), (97 ≤ x.toNat ∧ x.toNat ≤ 122) → X.toNat + 32 = x.toNat →
      (∀ r : Char, 128 ≤ r.toNat → tbl r ≠ x) →
      ((if c.toNat < 128 then asciiLower c else tbl c) == x) = (c == x || c == X) := by
    intro c x X hx hX hx2
    rw [Bool.eq_iff_iff]
    simp only [beq_iff_eq, Bool.or_eq_true]
    rw [lower_eq_letter_iff tbl c x hx hx2, char_eq_iff_toNat c x, char_eq_iff_toNat c X]
    omega
  rcases w with _ | ⟨a, _ | ⟨b, _ | ⟨c, _ | ⟨d, _ | ⟨e, w⟩⟩⟩⟩⟩ <;>
    simp [ToLower, equalsTrueIgnoringCase]
  rw [key a 't' 'T' (by decide) (by decide) ht, key b 'r' 'R' (by decide) (by decide) hr,
    key c 'u' 'U' (by decide) (by decide) hu, key d 'e' 'E' (by decide) (by decide) he]
  simp only [Bool.and_assoc]

/-- C6, as the code has it: `GetBoolOr` is true exactly when the resolved string (the
value of the variable when it is non-empty, otherwise the text of the default, with
leading and trailing double quotes removed) is "true" up to letter case.  So an unset
or empty variable yields the default, and a set value that, with its leading and
trailing double quotes removed, is not "true" up to case yields false whatever the
default is.  The case table of package `unicode` is a parameter: it maps no rune from
U+0080 on to one of the letters t, r, u, e. -/
theorem GetBoolOr_spec (tbl : Char → Char)
    (htbl : ∀ r : Char, 128 ≤ r.toNat → tbl r ∉ ['t', 'r', 'u', 'e'])
    (env : Env) (name : GoString) (dval : Bool) :
    GetBoolOr tbl env name dval =
      equalsTrueIgnoringCase (Trim (resolved env name (sprintBool dval)) [dquote]) ∧
    (Get env name = [] → GetBoolOr tbl env name dval = dval) ∧
    (Get env name ≠ [] → equalsTrueIgnoringCase (Trim (Get env name) [dquote]) = false →
      GetBoolOr tbl env name dval = false) := by
  have main : GetBoolOr tbl env name dval =
      equalsTrueIgnoringCase (Trim (resolved env name (sprintBool dval)) [dquote]) := by
    unfold GetBoolOr
    rw [GetOr_eq]
    exact ToLower_eq_true_iff tbl htbl _
  refine ⟨main, ?_, ?_⟩
  · intro h
    rw [main]
    unfold resolved
    rw [if_pos h]
    cases dval <;> decide
  · intro h hne
    rw [main]
    unfold resolved
    rw [if_neg h]
    exact hne

/-- C6, at the identity case table: a variable holding `TrUe` in double quotes is
true with default false, and `FaLsE` is false with default true. -/
theorem GetBoolOr_spec_witness :
    GetBoolOr id (setenv "B".toList "\"TrUe\"".toList) "B".toList false = true ∧
    GetBoolOr id (setenv "B".toList "FaLsE".toList) "B".toList true = false := by
  have hid : ∀ r : Char, 128 ≤ r.toNat → id r ∉ ['t', 'r', 'u', 'e'] := by
    intro r hr hmem
    simp only [id, List.mem_cons, List.mem_singleton, List.not_mem_nil, or_false] at hmem
    rcases hmem with h | h | h | h <;> rw [h] at hr <;> exact absurd hr (by decide)
  constructor
  · rw [(GetBoolOr_spec id hid _ _ _).1]
    decide
  · exact (GetBoolOr_spec id hid (setenv "B".toList "FaLsE".toList) "B".toList true).2.2
      (by decide) (by decide)

/-- C6 fails as stated in its last sentence: the set value of six runes that is `true`
between two double quotes is not "true" up to case, yet it yields true although the
default is false, under every case table. -/
theorem GetBoolOr_quoted_true_counterexample :
    Get (setenv "B".toList "\"true\"".toList) "B".toList = "\"true\"".toList ∧
    equalsTrueIgnoringCase "\"true\"".toList = false ∧
    (∀ tbl : Char → Char,
      GetBoolOr tbl (setenv "B".toList "\"true\"".toList) "B".toList false = true) :=
  ⟨by decide, by decide, fun _ => rfl⟩

/-! ## Formatting and parsing unsigned integers -/

theorem decValueFrom_cons (n : Nat) (c : Char) (w : GoString) :
    decValueFrom n (c :: w) = decValueFrom (10 * n + (c.toNat - 48)) w := rfl

theorem le_decValueFrom (w : GoString) (n : Nat) : n ≤ decValueFrom n w := by
  induction w generalizing n with
  | nil => exact Nat.le_refl n
  | cons c w ih =>
    rw [decValueFrom_cons]
    exact Nat.le_trans (by omega) (ih _)

/-- On a digit string the loop of `ParseUint` returns the value of the string when it
is within the bound, and the range error otherwise. -/
theorem parseUintLoop_digits (maxVal : Nat) (hmax : maxVal * 10 + 9 < 2 ^ 64)
    (w : GoString) (hw : ∀ c ∈ w, isDigit c = true) (n : Nat) (hn : n ≤ maxVal) :
    parseUintLoop maxVal w n =
      if decValueFrom n w ≤ maxVal then .ok (decValueFrom n w) else .error .ErrRange := by
  induction w generalizing n with
  | nil => simp [parseUintLoop, decValueFrom, hn]
  | cons c w ih =>
    have hc : 48 ≤ c.toNat ∧ c.toNat ≤ 57 := by
      have := hw c (List.mem_cons_self c w)
      simpa [isDigit] using this
    have hw2 : ∀ x ∈ w, isDigit x = true := fun x hx => hw x (List.mem_cons_of_mem c hx)
    have hcut : ¬ (n ≥ (2 ^ 64 - 1) / 10 + 1) := by
      norm_num at hmax ⊢
      omega
    have h10 : (n * 10) % 2 ^ 64 = n * 10 := Nat.mod_eq_of_lt (by omega)
    have h1 : (n * 10 + (c.toNat - 48)) % 2 ^ 64 = n * 10 + (c.toNat - 48) :=
      Nat.mod_eq_of_lt (by omega)
    rw [parseUintLoop, if_pos hc, if_neg hcut]
    simp only [h10, h1]
    rw [decValueFrom_cons]
    have hcomm : 10 * n + (c.toNat - 48) = n * 10 + (c.toNat - 48) := by omega
    rw [hcomm]
    by_cases hov : n * 10 + (c.toNat - 48) > maxVal
    · have hge := le_decValueFrom w (n * 10 + (c.toNat - 48))
      rw [if_pos (Or.inr hov), if_neg (by omega)]
    · rw [if_neg (by omega)]
      exact ih hw2 _ (by omega)

/-- On a string with a rune that is no digit the loop of `ParseUint` fails. -/
theorem parseUintLoop_nondigit (maxVal : Nat) (w : GoString)
    (hw : ¬ ∀ c ∈ w, isDigit c = true) (n : Nat) :
    ∃ e, parseUintLoop maxVal w n = .error e := by
  induction w generalizing n with
  | nil => simp at hw
  | cons c w ih =>
    rw [parseUintLoop]
    by_cases hc : 48 ≤ c.toNat ∧ c.toNat ≤ 57
    · have hw2 : ¬ ∀ x ∈ w, isDigit x = true := by
        intro hall
        apply hw
        intro x hx
        rcases List.mem_cons.mp hx with h | h
        · rw [h]
          simpa [isDigit] using hc
        · exact hall x h
      rw [if_pos hc]
      split
      · exact ⟨_, rfl⟩
      · simp only []
        split
        · exact ⟨_, rfl⟩
        · exact ih hw2 _
    · rw [if_neg hc]
      exact ⟨_, rfl⟩

/-- The result of `mustParseUint32`: the value of a literal that fits 32 bits. -/
theorem mustParseUint32_ok (w : GoString) (hlit : isUintLiteral w = true)
    (hval : decValue w ≤ 4294967295) : mustParseUint32 w = .ok (decValue w) := by
  simp only [isUintLiteral, Bool.and_eq_true, Bool.not_eq_true', List.all_eq_true] at hlit
  unfold mustParseUint32 ParseUint
  rw [hlit.1]
  simp only [Bool.false_eq_true, if_false]
  rw [parseUintLoop_digits _ (by norm_num) w hlit.2 0 (by norm_num)]
  have h : decValueFrom 0 w ≤ 2 ^ 32 - 1 := by
    norm_num
    exact hval
  rw [if_pos h]
  rfl

/-- A literal above 32 bits makes `mustParseUint32` panic with the range error. -/
theorem mustParseUint32_range (w : GoString) (hlit : isUintLiteral w = true)
    (hval : 4294967295 < decValue w) :
    mustParseUint32 w = .error (.numError "ParseUint".toList w .ErrRange) := by
  simp only [isUintLiteral, Bool.and_eq_true, Bool.not_eq_true', List.all_eq_true] at hlit
  unfold mustParseUint32 ParseUint
  rw [hlit.1]
  simp only [Bool.false_eq_true, if_false]
  rw [parseUintLoop_digits _ (by norm_num) w hlit.2 0 (by norm_num)]
  have h : ¬ decValueFrom 0 w ≤ 2 ^ 32 - 1 := by
    norm_num
    exact hval
  rw [if_neg h]

/-- Anything that is no literal makes `mustParseUint32` panic. -/
theorem mustParseUint32_not_literal (w : GoString) (hlit : isUintLiteral w = false) :
    ∃ e, mustParseUint32 w = .error (.numError "ParseUint".toList w e) := by
  unfold mustParseUint32 ParseUint
  cases w with
  | nil => exact ⟨.ErrSyntax, rfl⟩
  | cons c w =>
    have hnd : ¬ ∀ x ∈ c :: w, isDigit x = true := by
      intro hall
      have : isUintLiteral (c :: w) = true := by
        simp only [isUintLiteral, Bool.and_eq_true, Bool.not_eq_true', List.all_eq_true]
        exact ⟨rfl, hall⟩
      rw [hlit] at this
      cases this
    obtain ⟨e, he⟩ := parseUintLoop_nondigit (2 ^ 32 - 1) (c :: w) hnd 0
    refine ⟨e, ?_⟩
    simp only [List.isEmpty_cons, Bool.false_eq_true, if_false]
    rw [he]

theorem digitChar_toNat (d : Nat) (h : d < 10) : (digitChar d).toNat = 48 + d :=
  toNat_ofNat_small _ (by omega)

/-- The text `fmt` writes for `u` is a literal denoting `u`. -/
theorem fmtDigits_spec (fuel u : Nat) (h : u ≤ fuel) :
    (∀ c ∈ fmtDigits fuel u, isDigit c = true) ∧ fmtDigits fuel u ≠ [] ∧
      decValueFrom 0 (fmtDigits fuel u) = u := by
  induction fuel generalizing u with
  | zero =>
    have hu : u = 0 := by omega
    subst hu
    refine ⟨?_, ?_, ?_⟩ <;> decide
  | succ fuel ih =>
    rw [fmtDigits]
    by_cases h10 : u < 10
    · rw [if_pos h10]
      have hd := digitChar_toNat u h10
      refine ⟨?_, by simp, ?_⟩
      · intro c hc
        rw [List.mem_singleton.mp hc]
        simp only [isDigit, hd, decide_eq_true_eq]
        omega
      · simp [decValueFrom, hd]
    · rw [if_neg h10]
      obtain ⟨h1, _, h3⟩ := ih (u / 10) (by omega)
      have hd := digitChar_toNat (u % 10) (by omega)
      refine ⟨?_, by simp, ?_⟩
      · intro c hc
        rcases List.mem_append.mp hc with hc | hc
        · exact h1 c hc
        · rw [List.mem_singleton.mp hc]
          simp only [isDigit, hd, decide_eq_true_eq]
          omega
      · unfold decValueFrom at h3 ⊢
        rw [List.foldl_append, h3]
        simp only [List.foldl_cons, List.foldl_nil, hd]
        omega

theorem sprintUint_literal (u : Nat) :
    isUintLiteral (sprintUint u) = true ∧ decValue (sprintUint u) = u := by
  obtain ⟨h1, h2, h3⟩ := fmtDigits_spec u u (Nat.le_refl u)
  refine ⟨?_, h3⟩
  simp only [isUintLiteral, Bool.and_eq_true, Bool.not_eq_true', List.all_eq_true]
  refine ⟨?_, h1⟩
  unfold sprintUint
  cases hf : fmtDigits u u with
  | nil => exact absurd hf h2
  | cons c w => rfl

theorem Trim_dquote_literal (w : GoString) (h : isUintLiteral w = true) :
    Trim w [dquote] = w := by
  simp only [isUintLiteral, Bool.and_eq_true, Bool.not_eq_true', List.all_eq_true] at h
  apply Trim_eq_self_of_not_mem
  intro x hx hmem
  have hd := h.2 x hx
  rw [List.mem_singleton.mp hmem] at hd
  revert hd
  decide

/-! ## Properties of `GetUintOr` -/

theorem GetUintOr_of_empty (env : Env) (name : GoString) (dval : Nat)
    (h : Get env name = []) : GetUintOr env name dval = mustParseUint32 (sprintUint dval) := by
  unfold GetUintOr
  rw [GetOr_eq]
  unfold resolved
  rw [if_pos h, Trim_dquote_literal _ (sprintUint_literal dval).1]

theorem GetUintOr_of_set (env : Env) (name : GoString) (dval : Nat)
    (h : Get env name ≠ []) :
    GetUintOr env name dval = mustParseUint32 (Trim (Get env name) [dquote]) := by
  unfold GetUintOr
  rw [GetOr_eq]
  unfold resolved
  rw [if_neg h]

/-- C4, as the code has it: on a variable that is unset or empty `GetUintOr` returns
the default when the default is at most 4294967295; a larger default makes it panic
with the range error of `strconv.ParseUint`, since the default is formatted and then
parsed under the 32-bit bound like a value. -/
theorem GetUintOr_default (env : Env) (name : GoString) (dval : Nat)
    (h : Get env name = []) :
    (dval ≤ 4294967295 → GetUintOr env name dval = .ok dval) ∧
    (4294967295 < dval → GetUintOr env name dval =
      .error (.numError "ParseUint".toList (sprintUint dval) .ErrRange)) := by
  rw [GetUintOr_of_empty env name dval h]
  obtain ⟨hlit, hval⟩ := sprintUint_literal dval
  constructor
  · intro hd
    have := mustParseUint32_ok (sprintUint dval) hlit (by rw [hval]; exact hd)
    rw [this, hval]
  · intro hd
    exact mustParseUint32_range (sprintUint dval) hlit (by rw [hval]; exact hd)

/-- C4, on an unset variable: the default 100 is returned and the default 2^32
panics. -/
theorem GetUintOr_default_witness :
    GetUintOr (fun _ => none) "TEST_UINT_ENV".toList 100 = .ok 100 ∧
    GetUintOr (fun _ => none) "TEST_UINT_ENV".toList 4294967296 =
      .error (.numError "ParseUint".toList (sprintUint 4294967296) .ErrRange) :=
  ⟨(GetUintOr_default (fun _ => none) "TEST_UINT_ENV".toList 100 rfl).1 (by decide),
   (GetUintOr_default (fun _ => none) "TEST_UINT_ENV".toList 4294967296 rfl).2 (by decide)⟩

/-- C4 fails as stated: with the variable unset and the default 4294967296, a value
of a 64-bit `uint`, `GetUintOr` panics instead of returning the default. -/
theorem GetUintOr_default_counterexample :
    Get (fun _ => none) "TEST_UINT_ENV".toList = [] ∧ 4294967296 < 2 ^ 64 ∧
    GetUintOr (fun _ => none) "TEST_UINT_ENV".toList 4294967296 =
      .error (.numError "ParseUint".toList "4294967296".toList .ErrRange) := by
  decide

/-- C5: on a variable holding a non-empty value, let `w` be the value without its
leading and trailing double quotes.  When `w` is a base-10 unsigned literal of value
at most 4294967295, `GetUintOr` returns that value; otherwise it panics, whatever the
default is, so the default is never returned as a fallback. -/
theorem GetUintOr_set (env : Env) (name : GoString) (dval : Nat)
    (hv : Get env name ≠ []) :
    (isUintLiteral (Trim (Get env name) [dquote]) = true ∧
        decValue (Trim (Get env name) [dquote]) ≤ 4294967295 →
      GetUintOr env name dval = .ok (decValue (Trim (Get env name) [dquote]))) ∧
    (¬ (isUintLiteral (Trim (Get env name) [dquote]) = true ∧
        decValue (Trim (Get env name) [dquote]) ≤ 4294967295) →
      ∃ e, GetUintOr env name dval =
        .error (.numError "ParseUint".toList (Trim (Get env name) [dquote]) e)) := by
  rw [GetUintOr_of_set env name dval hv]
  constructor
  · intro h
    exact mustParseUint32_ok _ h.1 h.2
  · intro h
    by_cases hlit : isUintLiteral (Trim (Get env name) [dquote]) = true
    · have hbig : 4294967295 < decValue (Trim (Get env name) [dquote]) := by
        by_contra hle
        exact h ⟨hlit, by omega⟩
      exact ⟨.ErrRange, mustParseUint32_range _ hlit hbig⟩
    · exact mustParseUint32_not_literal _ (by simpa using hlit)

/-- C5, on a variable holding the quoted literal 42 and on one holding `invalid`,
both with the default 50. -/
theorem GetUintOr_set_witness :
    GetUintOr (setenv "U".toList "\"42\"".toList) "U".toList 50 = .ok 42 ∧
    ∃ e, GetUintOr (setenv "U".toList "invalid".toList) "U".toList 50 =
      .error (.numError "ParseUint".toList "invalid".toList e) :=
  ⟨(GetUintOr_set (setenv "U".toList "\"42\"".toList) "U".toList 50 (by decide)).1
      (by decide),
   (GetUintOr_set (setenv "U".toList "invalid".toList) "U".toList 50 (by decide)).2
      (by decide)⟩

/-! ## Properties of `GetArray` that need no parsing -/

/-- C10: when the variable is unset, empty, or empty after the double-quote stripping
of `GetOr` followed by white-space trimming, `GetArray` returns no element, for every
separator and every combination of the two flags. -/
theorem GetArray_empty_of_blank (env : Env) (name sep : GoString)
    (allowQuotes trimQuoted : Bool)
    (h : env name = none ∨ env name = some [] ∨
      TrimSpace (Trim (Get env name) [dquote]) = []) :
    GetArray env name sep allowQuotes trimQuoted = [] := by
  have h2 : TrimSpace (Trim (Get env name) [dquote]) = [] := by
    rcases h with h | h | h
    · simp [Get, h, Trim_nil, TrimSpace]
    · simp [Get, h, Trim_nil, TrimSpace]
    · exact h
  unfold GetArray
  rw [GetOr_nil_default]
  by_cases h3 : Trim (Get env name) [dquote] = []
  · simp [h3]
  · simp [h3, h2]

/-- C10, on a variable holding only quotes and white space, with a two-rune
separator and both flags set. -/
theorem GetArray_empty_of_blank_witness :
    GetArray (setenv "A".toList "\" \t \"".toList) "A".toList "::".toList true true = [] :=
  GetArray_empty_of_blank _ _ _ _ _ (Or.inr (Or.inr (by decide)))

/-- C8, on the value of the test: `test_value` in single quotes in double quotes. -/
theorem MustGet_unwraps_witness :
    MustGet (setenv "TEST_ENV".toList "\"'test_value'\"".toList) "TEST_ENV".toList =
      .ok "test_value".toList :=
  MustGet_unwraps _ _ "test_value".toList [dquote, squote] (by decide)
    (fun c h => by cases h; rfl) (fun c h => by cases h; rfl) (by decide) (by decide)

/-! ## `GetArray` on plain and on bracketed values -/

/-- C1: for a string `s` without `[`, `]` and double quote and for every combination
of the two flags, `GetArray` with the separator "," on a variable holding `s` returns
the sequence obtained by splitting `s` on commas, trimming white space from each piece
and dropping the pieces that are then empty, in the original order. -/
theorem GetArray_plain (env : Env) (name s : GoString) (allowQuotes trimQuoted : Bool)
    (hs : ∀ c ∈ s, isSyntaxChar c = false) (hv : Get env name = s) :
    GetArray env name ",".toList allowQuotes trimQuoted =
      ((s.splitOn ',').map TrimSpace).filter (fun p => p != []) :=
  GetArray_comma_of_plain env name s allowQuotes trimQuoted hs hv

/-- C1, on a value with blanks, empty pieces and a duplicate. -/
theorem GetArray_plain_witness :
    GetArray (setenv "A".toList " b , a ,, b ,".toList) "A".toList ",".toList true false =
      ["b".toList, "a".toList, "b".toList] :=
  (GetArray_plain (setenv "A".toList " b , a ,, b ,".toList) "A".toList
    " b , a ,, b ,".toList true false (by decide) (by decide)).trans (by decide)

/-- C9: for a string `s` without `[`, `]` and double quote and for every combination
of the two flags, `GetArray` with the separator "," returns on a variable holding
`s` in brackets the same sequence as on a variable holding `s`. -/
theorem GetArray_brackets (env env2 : Env) (name name2 s : GoString)
    (allowQuotes trimQuoted : Bool) (hs : ∀ c ∈ s, isSyntaxChar c = false)
    (hv : Get env name = "[".toList ++ s ++ "]".toList) (hv2 : Get env2 name2 = s) :
    GetArray env name ",".toList allowQuotes trimQuoted =
      GetArray env2 name2 ",".toList allowQuotes trimQuoted := by
  have h1 := GetArray_comma_of_bracketed env name s allowQuotes trimQuoted hs
    (by rw [hv]; rfl)
  have h2 := GetArray_comma_of_plain env2 name2 s allowQuotes trimQuoted hs hv2
  exact h1.trans h2.symm

/-- C9, on a value with a dangling separator before the closing bracket. -/
theorem GetArray_brackets_witness :
    GetArray (setenv "A".toList "[val1, val2 , ]".toList) "A".toList ",".toList false true =
      GetArray (setenv "B".toList "val1, val2 , ".toList) "B".toList ",".toList false true :=
  GetArray_brackets _ _ _ _ "val1, val2 , ".toList false true (by decide) (by decide)
    (by decide)

/-! ## The cases of `env_test.go` -/

theorem test_GetArray_simple :
    GetArray (setenv "TEST_ENV".toList "val1,val2,val3".toList) "TEST_ENV".toList ",".toList
      false false = ["val1".toList, "val2".toList, "val3".toList] := by decide

theorem test_GetArray_spaces :
    GetArray (setenv "TEST_ENV".toList " val1 , val2 , val3 ".toList) "TEST_ENV".toList
      ",".toList false false = ["val1".toList, "val2".toList, "val3".toList] := by decide

theorem test_GetArray_empty :
    GetArray (setenv "TEST_ENV".toList []) "TEST_ENV".toList ",".toList false false = [] := by
  decide

theorem test_GetArray_brackets :
    GetArray (setenv "TEST_ENV".toList "[val1,val2,val3]".toList) "TEST_ENV".toList
      ",".toList false false = ["val1".toList, "val2".toList, "val3".toList] := by decide

theorem test_MustGet_nested :
    MustGet (setenv "TEST_ENV".toList "\"'test_value'\"".toList) "TEST_ENV".toList =
      .ok "test_value".toList := by decide

theorem test_MustGet_missing :
    MustGet (fun _ => none) "TEST_ENV".toList =
      .error (.message "missing env var - TEST_ENV".toList) := by decide

theorem test_GetBoolOr_mixed_case :
    GetBoolOr id (setenv "TEST_BOOL_ENV".toList "TrUe".toList) "TEST_BOOL_ENV".toList false
      = true ∧
    GetBoolOr id (setenv "TEST_BOOL_ENV".toList "FaLsE".toList) "TEST_BOOL_ENV".toList true
      = false := by decide

theorem test_GetUintOr :
    GetUintOr (setenv "TEST_UINT_ENV".toList "42".toList) "TEST_UINT_ENV".toList 0 = .ok 42 ∧
    GetUintOr (fun _ => none) "TEST_UINT_ENV".toList 100 = .ok 100 ∧
    GetUintOr (setenv "TEST_UINT_ENV".toList "invalid".toList) "TEST_UINT_ENV".toList 50 =
      .error (.numError "ParseUint".toList "invalid".toList .ErrSyntax) := by decide

theorem test_MustGetArray_missing :
    MustGetArray (fun _ => none) "TEST_ENV".toList ",".toList false false =
      .error (.message "missing env var (empty array) - TEST_ENV".toList) := by decide

theorem test_Split_long_separator :
    Split "a--b--".toList "--".toList = ["a".toList, "b".toList, []] ∧
    Split "a---b".toList "--".toList = ["a".toList, "-b".toList] := by decide

/-! ## Invariants of the parsed array -/

/-- C13: an empty separator means the comma: `GetArray` with the empty separator
returns the same sequence as with the separator ",", for every variable value and
every combination of the two flags. -/
theorem GetArray_empty_sep (env : Env) (name : GoString) (allowQuotes trimQuoted : Bool) :
    GetArray env name [] allowQuotes trimQuoted =
      GetArray env name ",".toList allowQuotes trimQuoted := by
  rw [GetArray_unfold, GetArray_unfold]
  rfl

theorem GetArray_eq_filter (env : Env) (name sep : GoString)
    (allowQuotes trimQuoted : Bool) :
    GetArray env name sep allowQuotes trimQuoted =
      (processedParts env name sep allowQuotes trimQuoted).filter (fun p => p != []) := by
  unfold GetArray processedParts
  by_cases h1 : GetOr env name [] = []
  · simp [h1]
  · by_cases h2 : (TrimSpace (GetOr env name [])).length = 0
    · simp [h1, h2]
    · simp only [h1, h2, if_false]

/-- C12: the result of `GetArray` holds no empty string: it is the list of the
processed pieces (after all trimming and quote stripping) without the empty ones, so
what remains keeps its relative textual order. -/
theorem GetArray_no_empty (env : Env) (name sep : GoString)
    (allowQuotes trimQuoted : Bool) :
    [] ∉ GetArray env name sep allowQuotes trimQuoted ∧
    GetArray env name sep allowQuotes trimQuoted =
      (processedParts env name sep allowQuotes trimQuoted).filter (fun p => p != []) ∧
    (GetArray env name sep allowQuotes trimQuoted).Sublist
      (processedParts env name sep allowQuotes trimQuoted) := by
  have h := GetArray_eq_filter env name sep allowQuotes trimQuoted
  refine ⟨?_, h, ?_⟩
  · rw [h]
    intro hmem
    have := (List.mem_filter.mp hmem).2
    simp at this
  · rw [h]
    exact List.filter_sublist _

theorem finishParts_mem_trimmed (allowQuotes trimQuoted : Bool) (parts : List GoString)
    (h : allowQuotes = true ∨ trimQuoted = true) (e : GoString)
    (he : e ∈ finishParts allowQuotes trimQuoted (parts.map TrimSpace)) :
    ∃ x, e = TrimSpace x := by
  unfold finishParts at he
  have he2 := (List.mem_filter.mp he).1
  cases allowQuotes with
  | true =>
    simp only [Bool.not_true, Bool.false_eq_true, if_false] at he2
    obtain ⟨x, _, hx⟩ := List.mem_map.mp he2
    exact ⟨x, hx.symm⟩
  | false =>
    have ht : trimQuoted = true := by
      rcases h with h | h
      · cases h
      · exact h
    subst ht
    simp only [Bool.not_false, if_true] at he2
    obtain ⟨x, _, hx⟩ := List.mem_map.mp he2
    exact ⟨x, hx.symm⟩

/-- C11, as the code has it: when `allowQuotes` is true or `trimQuoted` is true, no
element of the result of `GetArray` begins or ends with a white-space rune, for every
variable value and separator. -/
theorem GetArray_elements_trimmed (env : Env) (name sep : GoString)
    (allowQuotes trimQuoted : Bool) (h : allowQuotes = true ∨ trimQuoted = true) :
    ∀ e ∈ GetArray env name sep allowQuotes trimQuoted,
      (∀ c, e.head? = some c → isSpace c = false) ∧
      (∀ c, e.getLast? = some c → isSpace c = false) := by
  intro e he
  rw [GetArray_unfold] at he
  by_cases h1 : GetOr env name [] = []
  · rw [if_pos h1] at he
    cases he
  · rw [if_neg h1] at he
    by_cases h2 : TrimSpace (GetOr env name []) = []
    · rw [if_pos h2] at he
      cases he
    · rw [if_neg h2] at he
      obtain ⟨x, hx⟩ := finishParts_mem_trimmed allowQuotes trimQuoted _ h e he
      rw [hx]
      exact ⟨trim_head_not isSpace x, trim_getLast_not isSpace x⟩

/-- C11, with `allowQuotes` false and `trimQuoted` true on a value with a quoted
element that has blanks inside the quotes: the element comes out as `a`. -/
theorem GetArray_elements_trimmed_witness :
    GetArray (setenv "A".toList "x,\" a \",y".toList) "A".toList ",".toList false true =
      ["x".toList, "a".toList, "y".toList] ∧
    ((∀ c, ("a".toList).head? = some c → isSpace c = false) ∧
      (∀ c, ("a".toList).getLast? = some c → isSpace c = false)) :=
  ⟨by decide,
   GetArray_elements_trimmed (setenv "A".toList "x,\" a \",y".toList) "A".toList
     ",".toList false true (Or.inr rfl) "a".toList (by decide)⟩

/-- C11 fails as stated: with both flags false the blanks inside the quotes of an
element stay, and the element " a " begins and ends with a blank. -/
theorem GetArray_elements_trimmed_counterexample :
    GetArray (setenv "A".toList "x,\" a \",y".toList) "A".toList ",".toList false false =
      ["x".toList, " a ".toList, "y".toList] ∧
    (" a ".toList).head? = some ' ' ∧ (" a ".toList).getLast? = some ' ' ∧
    isSpace ' ' = true := by
  decide

/-! ## The stripping loop of `MustGet` -/

theorem Trim_idem (s cutset : GoString) : Trim (Trim s cutset) cutset = Trim s cutset :=
  Trim_eq_self _ _ (Trim_head_not s cutset) (Trim_getLast_not s cutset)

theorem Trim_eq_nil_iff (s cutset : GoString) :
    Trim s cutset = [] ↔ ∀ c ∈ s, c ∈ cutset := by
  constructor
  · intro h
    obtain ⟨a, b, hs, ha, hb⟩ := Trim_decomp s cutset
    rw [h, List.append_nil] at hs
    intro c hc
    rw [hs] at hc
    rcases List.mem_append.mp hc with h1 | h1
    · exact ha c h1
    · exact hb c h1
  · intro h
    unfold Trim TrimLeft TrimRight
    have h1 : s.rdropWhile (fun c => cutset.contains c) = [] := by
      rw [List.rdropWhile_eq_nil_iff]
      intro x hx
      simpa using h x hx
    rw [h1]
    rfl

/-- From the first pass on the loop of `MustGet` changes nothing. -/
theorem stripQuotesLoop_succ (n : Nat) (val : GoString) :
    stripQuotesLoop (n + 1) val = Trim val [dquote, squote] := by
  induction n generalizing val with
  | zero => rfl
  | succ n ih =>
    rw [stripQuotesLoop, ih, Trim_idem]

theorem stripUntilStableAux_eq (fuel : Nat) (val : GoString)
    (h : fuel = 0 → val = []) :
    stripUntilStableAux fuel val = Trim val [dquote, squote] := by
  cases fuel with
  | zero =>
    rw [h rfl]
    rfl
  | succ fuel =>
    rw [stripUntilStableAux]
    by_cases hs : Trim val [dquote, squote] = val
    · rw [if_pos hs, hs]
    · rw [if_neg hs]
      cases fuel with
      | zero => rfl
      | succ fuel =>
        rw [stripUntilStableAux, if_pos (Trim_idem _ _)]

theorem stripUntilStable_eq (val : GoString) :
    stripUntilStable val = Trim val [dquote, squote] :=
  stripUntilStableAux_eq val.length val (fun h => List.length_eq_zero.mp h)

theorem mem_quotes_iff (c : Char) : c ∈ [dquote, squote] ↔ isQuote c = true := by
  simp [isQuote]

/-- C19, as the code has it: the bound of three passes is not observable.  For every
variable `MustGet` returns what repeating the stripping pass until the string stops
changing returns, since one pass of `strings.Trim` already removes the whole run of
quotes at either end. -/
theorem MustGet_eq_until_stable (env : Env) (name : GoString) :
    MustGet env name =
      (if Get env name = [] then .error (.message ("missing env var - ".toList ++ name))
       else .ok (stripUntilStable (Get env name))) ∧
    ∀ val : GoString, stripQuotesLoop 3 val = stripUntilStable val := by
  have h : ∀ val : GoString, stripQuotesLoop 3 val = stripUntilStable val := by
    intro val
    rw [stripQuotesLoop_succ, stripUntilStable_eq]
  refine ⟨?_, h⟩
  unfold MustGet
  by_cases hv : Get env name = []
  · simp [hv]
  · simp only [hv, if_false]
    rw [h]

/-- C19 fails as stated: no non-empty raw value tells three stripping passes from
stripping until the string stops changing. -/
theorem MustGet_three_passes_counterexample :
    ¬ ∃ val : GoString, val ≠ [] ∧ stripQuotesLoop 3 val ≠ stripUntilStable val := by
  rintro ⟨val, _, h⟩
  apply h
  rw [stripQuotesLoop_succ, stripUntilStable_eq]

/-- C20: `MustGet` returns the empty string without failing exactly when the raw
value is non-empty and holds only double and single quotes; for every other non-empty
raw value it returns a non-empty string that neither begins nor ends with a quote. -/
theorem MustGet_empty_result (env : Env) (name : GoString) :
    (MustGet env name = .ok [] ↔
      (Get env name ≠ [] ∧ ∀ c ∈ Get env name, isQuote c = true)) ∧
    (Get env name ≠ [] → (∃ c ∈ Get env name, isQuote c = false) →
      ∃ r, MustGet env name = .ok r ∧ r ≠ [] ∧
        (∀ c, r.head? = some c → isQuote c = false) ∧
        (∀ c, r.getLast? = some c → isQuote c = false)) := by
  have hrun : Get env name ≠ [] →
      MustGet env name = .ok (Trim (Get env name) [dquote, squote]) := by
    intro hv
    unfold MustGet
    simp only [hv, if_false]
    rw [stripQuotesLoop_succ]
  have hnil : Trim (Get env name) [dquote, squote] = [] ↔
      ∀ c ∈ Get env name, isQuote c = true := by
    rw [Trim_eq_nil_iff]
    constructor
    · intro h c hc
      exact (mem_quotes_iff c).mp (h c hc)
    · intro h c hc
      exact (mem_quotes_iff c).mpr (h c hc)
  constructor
  · constructor
    · intro h
      have hv : Get env name ≠ [] := by
        intro h0
        unfold MustGet at h
        simp [h0] at h
      rw [hrun hv] at h
      injection h with h
      exact ⟨hv, hnil.mp h⟩
    · rintro ⟨hv, hall⟩
      rw [hrun hv, hnil.mpr hall]
  · intro hv hex
    refine ⟨_, hrun hv, ?_, ?_, ?_⟩
    · intro h0
      obtain ⟨c, hc, hq⟩ := hex
      rw [hnil.mp h0 c hc] at hq
      cases hq
    · intro c hc
      have := Trim_head_not _ _ c hc
      rw [mem_quotes_iff] at this
      simpa using this
    · intro c hc
      have := Trim_getLast_not _ _ c hc
      rw [mem_quotes_iff] at this
      simpa using this

/-! ## The bracket step of `GetArray` -/

/-- The result of `GetArray` on a raw value that starts with `[` and ends with `]`. -/
theorem GetArray_bracketed_value (env : Env) (name sep v : GoString)
    (allowQuotes trimQuoted : Bool) (hv : Get env name = v)
    (hh : v.head? = some '[') (hl : v.getLast? = some ']') :
    GetArray env name sep allowQuotes trimQuoted =
      finishParts allowQuotes trimQuoted
        ((Split (TrimSpace (TrimRight (TrimSpace (Trim v ['[', ']']))
            (if sep = [] then [','] else sep)))
          (if sep = [] then [','] else sep)).map TrimSpace) := by
  have hne : v ≠ [] := by
    intro h0
    rw [h0] at hh
    cases hh
  have hraw : GetOr env name [] = v := by
    rw [GetOr_nil_default, hv]
    apply Trim_eq_self
    · intro x hx
      rw [hh] at hx
      cases hx
      decide
    · intro x hx
      rw [hl] at hx
      cases hx
      decide
  have htrim : TrimSpace v = v := by
    apply TrimSpace_eq_self
    · intro x hx
      rw [hh] at hx
      cases hx
      decide
    · intro x hx
      rw [hl] at hx
      cases hx
      decide
  rw [GetArray_unfold, hraw, htrim, if_neg hne, if_neg hne]
  unfold unbracket
  rw [if_pos ⟨hh, hl⟩]

theorem mem_brackets_iff (c : Char) : c ∈ ['[', ']'] ↔ (c = '[' ∨ c = ']') := by
  simp

theorem filter_dropWhile_disjoint (p q : Char → Bool) (h : ∀ c, q c = true → p c = false)
    (s : GoString) : (s.dropWhile q).filter p = s.filter p := by
  induction s with
  | nil => rfl
  | cons c s ih =>
    rw [List.dropWhile_cons]
    by_cases hq : q c = true
    · rw [if_pos hq, ih, List.filter_cons_of_neg]
      simp [h c hq]
    · rw [if_neg hq]

theorem filter_rdropWhile_disjoint (p q : Char → Bool) (h : ∀ c, q c = true → p c = false)
    (s : GoString) : (s.rdropWhile q).filter p = s.filter p := by
  unfold List.rdropWhile
  rw [List.filter_reverse, filter_dropWhile_disjoint p q h, List.filter_reverse,
    List.reverse_reverse]

theorem filter_flatten_splitScan (p : Char → Bool) (sep : GoString)
    (hsep : ∀ c ∈ sep, p c = false) (hne : sep ≠ []) :
    ∀ (s : GoString) (skip : Nat) (cur : GoString), (∀ c ∈ s.take skip, p c = false) →
      (splitScan sep skip cur s).flatten.filter p = cur.reverse.filter p ++ s.filter p := by
  intro s
  induction s with
  | nil =>
    intro skip cur _
    cases skip <;> simp [splitScan]
  | cons c rest ih =>
    intro skip cur hskip
    cases skip with
    | succ k =>
      have hc : p c = false := hskip c (by simp)
      have hrest : ∀ x ∈ rest.take k, p x = false := by
        intro x hx
        exact hskip x (by simp [List.take_succ_cons, hx])
      rw [splitScan, ih k cur hrest, List.filter_cons_of_neg (by simp [hc])]
    | zero =>
      rw [splitScan]
      by_cases hpre : sep.isPrefixOf (c :: rest) = true
      · rw [if_pos hpre]
        obtain ⟨t, ht⟩ := List.isPrefixOf_iff_prefix.mp hpre
        cases sep with
        | nil => exact absurd rfl hne
        | cons d sep2 =>
          rw [List.cons_append] at ht
          injection ht with h1 h2
          have hc : p c = false := by
            rw [← h1]
            exact hsep d (List.mem_cons_self d sep2)
          have hrest : ∀ x ∈ rest.take sep2.length, p x = false := by
            intro x hx
            rw [← h2, List.take_left] at hx
            exact hsep x (List.mem_cons_of_mem d hx)
          simp only [List.length_cons, Nat.add_sub_cancel, List.flatten_cons, List.filter_append]
          rw [ih sep2.length [] hrest, List.filter_cons_of_neg (by simp [hc])]
          simp
      · rw [if_neg hpre, ih 0 (c :: cur) (by simp), List.reverse_cons, List.filter_append,
          List.append_assoc, ← List.filter_append]
        rfl


theorem filter_flatten_Split (p : Char → Bool) (s sep : GoString)
    (hsep : ∀ c ∈ sep, p c = false) :
    (Split s sep).flatten.filter p = s.filter p := by
  unfold Split
  by_cases h : sep.isEmpty = true
  · rw [if_pos h]
    have : (s.map (fun c => [c])).flatten = s := by
      induction s with
      | nil => rfl
      | cons c s ih => simp [ih]
    rw [this]
  · rw [if_neg h]
    have hne : sep ≠ [] := by
      intro h0
      rw [h0] at h
      exact h rfl
    rw [filter_flatten_splitScan p sep hsep hne s 0 [] (by simp)]
    rfl

theorem filter_flatten_map (p : Char → Bool) (f : GoString → GoString)
    (hf : ∀ x, (f x).filter p = x.filter p) (L : List GoString) :
    (L.map f).flatten.filter p = L.flatten.filter p := by
  induction L with
  | nil => rfl
  | cons x L ih =>
    rw [List.map_cons, List.flatten_cons, List.flatten_cons, List.filter_append,
      List.filter_append, hf, ih]

theorem flatten_filter_ne_nil (L : List GoString) :
    (L.filter (fun x => x != [])).flatten = L.flatten := by
  induction L with
  | nil => rfl
  | cons x L ih =>
    cases x with
    | nil => simpa using ih
    | cons c x =>
      rw [List.filter_cons_of_pos (by simp), List.flatten_cons, List.flatten_cons, ih]

theorem isBracket_not_space (c : Char) (h : isSpace c = true) : isBracket c = false := by
  unfold isBracket
  by_cases h1 : c = '['
  · rw [h1] at h
    exact absurd h (by decide)
  · by_cases h2 : c = ']'
    · rw [h2] at h
      exact absurd h (by decide)
    · simp [h1, h2]

theorem filter_isBracket_TrimSpace (s : GoString) :
    (TrimSpace s).filter isBracket = s.filter isBracket := by
  unfold TrimSpace
  rw [filter_rdropWhile_disjoint isBracket isSpace isBracket_not_space,
    filter_dropWhile_disjoint isBracket isSpace isBracket_not_space]

theorem filter_isBracket_Trim (s cutset : GoString) (h : ∀ c ∈ cutset, isBracket c = false) :
    (Trim s cutset).filter isBracket = s.filter isBracket := by
  have hq : ∀ c, cutset.contains c = true → isBracket c = false := by
    intro c hc
    exact h c (by simpa using hc)
  unfold Trim TrimLeft TrimRight
  rw [filter_dropWhile_disjoint isBracket _ hq, filter_rdropWhile_disjoint isBracket _ hq]

theorem filter_isBracket_TrimRight (s cutset : GoString)
    (h : ∀ c ∈ cutset, isBracket c = false) :
    (TrimRight s cutset).filter isBracket = s.filter isBracket := by
  have hq : ∀ c, cutset.contains c = true → isBracket c = false := by
    intro c hc
    exact h c (by simpa using hc)
  unfold TrimRight
  rw [filter_rdropWhile_disjoint isBracket _ hq]

theorem filter_isBracket_finishParts (allowQuotes trimQuoted : Bool) (L : List GoString) :
    (finishParts allowQuotes trimQuoted L).flatten.filter isBracket =
      L.flatten.filter isBracket := by
  have hd : ∀ x : GoString, (Trim x [dquote]).filter isBracket = x.filter isBracket :=
    fun x => filter_isBracket_Trim x _ (by decide)
  unfold finishParts
  simp only []
  rw [flatten_filter_ne_nil]
  cases allowQuotes <;> cases trimQuoted <;>
    simp only [Bool.not_false, Bool.not_true, if_true, if_false, Bool.false_eq_true]
  · exact filter_flatten_map _ _ hd L
  · rw [filter_flatten_map _ _ filter_isBracket_TrimSpace, filter_flatten_map _ _ hd]

/-- C18, as the code has it: on a bracket-delimited value `GetArray` removes the
whole run of `[` and `]` at either end before splitting, not one layer.  A value made of
a run of brackets starting with `[`, a middle part that neither starts nor ends with a
bracket, and a run of brackets ending with `]` gives the same result as the middle
part in a single pair of brackets: the middle part trimmed, cleared of trailing
separator runes, trimmed, split, and its pieces trimmed, stripped of quotes under the
flags and filtered.  The brackets inside the middle part are left to these steps: when
the separator holds no bracket, they all stay in the elements, in their order. -/
theorem GetArray_strips_bracket_runs (env env2 : Env) (name name2 sep : GoString)
    (allowQuotes trimQuoted : Bool) (a m b : GoString)
    (ha : ∀ c ∈ a, c = '[' ∨ c = ']') (hb : ∀ c ∈ b, c = '[' ∨ c = ']')
    (hah : a.head? = some '[') (hbl : b.getLast? = some ']')
    (hmh : ∀ c, m.head? = some c → c ≠ '[' ∧ c ≠ ']')
    (hml : ∀ c, m.getLast? = some c → c ≠ '[' ∧ c ≠ ']')
    (hv : Get env name = a ++ m ++ b)
    (hv2 : Get env2 name2 = "[".toList ++ m ++ "]".toList) :
    GetArray env name sep allowQuotes trimQuoted =
      GetArray env2 name2 sep allowQuotes trimQuoted ∧
    GetArray env name sep allowQuotes trimQuoted =
      finishParts allowQuotes trimQuoted
        ((Split (TrimSpace (TrimRight (TrimSpace m) (if sep = [] then [','] else sep)))
          (if sep = [] then [','] else sep)).map TrimSpace) ∧
    ((∀ c ∈ sep, c ≠ '[' ∧ c ≠ ']') →
      (GetArray env name sep allowQuotes trimQuoted).flatten.filter isBracket =
        m.filter isBracket) := by
  have hmh2 : ∀ x, m.head? = some x → x ∉ ['[', ']'] := by
    intro x hx hmem
    have h1 := hmh x hx
    rcases (mem_brackets_iff x).mp hmem with h | h
    · exact h1.1 h
    · exact h1.2 h
  have hml2 : ∀ x, m.getLast? = some x → x ∉ ['[', ']'] := by
    intro x hx hmem
    have h1 := hml x hx
    rcases (mem_brackets_iff x).mp hmem with h | h
    · exact h1.1 h
    · exact h1.2 h
  have h1 : Trim (a ++ m ++ b) ['[', ']'] = m :=
    Trim_wrapped a m b _ (fun x hx => (mem_brackets_iff x).mpr (ha x hx))
      (fun x hx => (mem_brackets_iff x).mpr (hb x hx)) hmh2 hml2
  have h2 : Trim ("[".toList ++ m ++ "]".toList) ['[', ']'] = m :=
    Trim_wrapped _ m _ _ (by decide) (by decide) hmh2 hml2
  have hhead : (a ++ m ++ b).head? = some '[' := by
    rw [List.append_assoc, List.head?_append, hah]
    rfl
  have hlast : (a ++ m ++ b).getLast? = some ']' := by
    rw [List.getLast?_append, hbl]
    rfl
  have hlast2 : ("[".toList ++ m ++ "]".toList).getLast? = some ']' := by
    rw [List.getLast?_append]
    rfl
  have e1 := GetArray_bracketed_value env name sep _ allowQuotes trimQuoted hv hhead hlast
  have e2 := GetArray_bracketed_value env2 name2 sep _ allowQuotes trimQuoted hv2 rfl hlast2
  rw [h1] at e1
  rw [h2] at e2
  refine ⟨e1.trans e2.symm, e1, ?_⟩
  intro hsep
  have hsep2 : ∀ c ∈ (if sep = [] then [','] else sep), isBracket c = false := by
    intro c hc
    split at hc
    · rw [List.mem_singleton.mp hc]
      decide
    · have := hsep c hc
      simp [isBracket, this.1, this.2]
  rw [e1, filter_isBracket_finishParts, filter_flatten_map _ _ filter_isBracket_TrimSpace,
    filter_flatten_Split _ _ _ hsep2, filter_isBracket_TrimSpace,
    filter_isBracket_TrimRight _ _ hsep2, filter_isBracket_TrimSpace]

/-- C18, on a value with brackets inside the middle part: the value `[[a[1],b]]` gives
what `[a[1],b]` gives, the elements `a[1]` and `b`, which keep the two inner
brackets. -/
theorem GetArray_strips_bracket_runs_witness :
    GetArray (setenv "A".toList "[[a[1],b]]".toList) "A".toList ",".toList false false =
      GetArray (setenv "B".toList "[a[1],b]".toList) "B".toList ",".toList false false ∧
    GetArray (setenv "A".toList "[[a[1],b]]".toList) "A".toList ",".toList false false =
      ["a[1]".toList, "b".toList] ∧
    (GetArray (setenv "A".toList "[[a[1],b]]".toList) "A".toList ",".toList false
      false).flatten.filter isBracket = "[]".toList :=
  have h := GetArray_strips_bracket_runs (setenv "A".toList "[[a[1],b]]".toList)
    (setenv "B".toList "[a[1],b]".toList) "A".toList "B".toList ",".toList false false
    "[[".toList "a[1],b".toList "]]".toList
    (by decide) (by decide) (by decide) (by decide)
    (fun c h => by cases h; decide) (fun c h => by cases h; decide) (by decide) (by decide)
  ⟨h.1, h.2.1.trans (by decide), (h.2.2 (by decide)).trans (by decide)⟩

/-- C18 fails as stated: on the value `[[a,b]]` with the separator "," and both flags
false the result is `a` and `b`, not `[a` and `b]`. -/
theorem GetArray_nested_brackets_counterexample :
    GetArray (setenv "A".toList "[[a,b]]".toList) "A".toList ",".toList false false =
      ["a".toList, "b".toList] ∧
    GetArray (setenv "A".toList "[[a,b]]".toList) "A".toList ",".toList false false ≠
      ["[a".toList, "b]".toList] := by
  decide

/-- Brackets inside the value: with the separator "," they stay in the elements, with
a bracket as the separator they are where the value is split. -/
theorem test_GetArray_inner_brackets :
    GetArray (setenv "A".toList "[[a],[b]]".toList) "A".toList ",".toList false false =
      ["a]".toList, "[b".toList] ∧
    GetArray (setenv "A".toList "[a]b]".toList) "A".toList "]".toList false false =
      ["a".toList, "b".toList] := by
  decide

/-- The result of `GetArray` with a separator of one rune on a raw value that holds
no double quote and is not bracketed after trimming. -/
theorem GetArray_single_plain (env : Env) (name : GoString) (x : Char)
    (allowQuotes trimQuoted : Bool) (hq : ∀ c ∈ Get env name, c ≠ dquote)
    (hb : (TrimSpace (Get env name)).head? ≠ some '[') :
    GetArray env name [x] allowQuotes trimQuoted =
      cleanBy isSpace (List.splitOnP (fun c => c == x) (TrimSpace (Get env name))) := by
  have hraw : GetOr env name [] = Get env name := by
    rw [GetOr_nil_default]
    apply Trim_eq_self_of_not_mem
    intro c hc hmem
    exact hq c hc (List.mem_singleton.mp hmem)
  rw [GetArray_unfold, hraw]
  by_cases h1 : Get env name = []
  · rw [if_pos h1, h1]
    rfl
  · rw [if_neg h1]
    by_cases h2 : TrimSpace (Get env name) = []
    · rw [if_pos h2, h2]
      rfl
    · rw [if_neg h2]
      have hsep : (if ([x] : GoString) = [] then [','] else [x]) = [x] := by simp
      have hub : unbracket (TrimSpace (Get env name)) [x] = TrimSpace (Get env name) := by
        unfold unbracket
        rw [if_neg (fun h => hb h.1)]
      rw [hsep, hub, Split_single, finishParts_plain]
      · rfl
      · intro piece hp c hc
        have hmem : c ∈ TrimSpace (Get env name) :=
          mem_of_mem_splitOnP _ _ piece c hp hc
        exact hq c (TrimSpace_mem _ c hmem)

/-- With a separator of one rune the brackets change nothing: on a string without `[`,
`]` and double quote, `GetArray` returns on the bracketed string what it returns on the
string itself. -/
theorem GetArray_brackets_single_rune (env env2 : Env) (name name2 s : GoString) (x : Char)
    (allowQuotes trimQuoted : Bool) (hs : ∀ c ∈ s, isSyntaxChar c = false)
    (hv : Get env name = "[".toList ++ s ++ "]".toList) (hv2 : Get env2 name2 = s) :
    GetArray env name [x] allowQuotes trimQuoted =
      GetArray env2 name2 [x] allowQuotes trimQuoted := by
  have hplain : GetArray env2 name2 [x] allowQuotes trimQuoted =
      cleanBy isSpace (List.splitOnP (fun c => c == x) (TrimSpace s)) := by
    rw [← hv2] at hs ⊢
    apply GetArray_single_plain
    · intro c hc
      exact (not_syntax_ne c (hs c hc)).2.2
    · intro h
      have hmem : '[' ∈ Get env2 name2 := TrimSpace_mem _ _ (List.mem_of_mem_head? h)
      exact (not_syntax_ne _ (hs _ hmem)).1 rfl
  have hstrip : Trim ("[".toList ++ s ++ "]".toList) ['[', ']'] = s := by
    apply Trim_wrapped _ s _ _ (by decide) (by decide)
    · intro c hc hmem
      have hn := not_syntax_ne c (hs c (List.mem_of_mem_head? hc))
      rcases (mem_brackets_iff c).mp hmem with h | h
      · exact hn.1 h
      · exact hn.2.1 h
    · intro c hc hmem
      have hn := not_syntax_ne c (hs c (List.mem_of_mem_getLast? hc))
      rcases (mem_brackets_iff c).mp hmem with h | h
      · exact hn.1 h
      · exact hn.2.1 h
  have hlast : ("[".toList ++ s ++ "]".toList).getLast? = some ']' := by
    rw [List.getLast?_append]
    rfl
  have hsep : (if ([x] : GoString) = [] then [','] else [x]) = [x] := by simp
  rw [hplain, GetArray_bracketed_value env name [x] _ allowQuotes trimQuoted hv rfl hlast,
    hstrip, hsep, Split_single, finishParts_plain]
  · have hp : (fun c : Char => [x].contains c) = (fun c => c == x) := by
      funext c
      by_cases h : c = x <;> simp [h]
    by_cases hx : isSpace x = true
    · have hkeep : TrimRight (TrimSpace s) [x] = TrimSpace s := by
        unfold TrimRight
        rw [List.rdropWhile_eq_self_iff]
        intro hne
        have hl := trim_getLast_not isSpace s _ (List.getLast?_eq_getLast _ hne)
        intro hc
        have hlx : (TrimSpace s).getLast hne = x := by simpa using hc
        rw [hlx, hx] at hl
        cases hl
      rw [hkeep, TrimSpace_idem]
      rfl
    · have hqp : ∀ c, isSpace c = true → (c == x) = false := by
        intro c hc
        by_cases h : c = x
        · rw [h] at hc
          exact absurd hc hx
        · simpa using h
      have h1 := cleanBy_splitOnP_trim (fun c => c == x) isSpace
        (TrimRight (TrimSpace s) [x]) hqp
      have h2 := cleanBy_splitOnP_rdropWhile (fun c => c == x) isSpace (TrimSpace s)
      unfold TrimRight at h1 ⊢
      rw [hp] at h1 ⊢
      exact h1.trans h2
  · intro piece hp c hc
    have h1 : c ∈ TrimSpace (TrimRight (TrimSpace s) [x]) :=
      mem_of_mem_splitOnP _ _ piece c hp hc
    have h2 : c ∈ TrimRight (TrimSpace s) [x] := TrimSpace_mem _ c h1
    have h3 : c ∈ TrimSpace s := (List.rdropWhile_prefix _ _).subset h2
    exact (not_syntax_ne c (hs c (TrimSpace_mem _ c h3))).2.2

/-- C17 does not hold on the code: with the separator `ab` the variable holding `[xa]`
gives the element `x`, the variable holding `xa` gives the element `xa`.  The trailing
`a` of the last element is removed because `strings.TrimRight` takes the separator as
a set of runes. -/
theorem GetArray_brackets_long_separator :
    GetArray (setenv "A".toList "[xa]".toList) "A".toList "ab".toList false false =
      ["x".toList] ∧
    GetArray (setenv "A".toList "xa".toList) "A".toList "ab".toList false false =
      ["xa".toList] := by
  decide

/-! ## Milliseconds from nanoseconds -/

/-- Truncated division by a positive number, by the sign of the dividend. -/
theorem tdiv_eq_cases (a b : Int) (hb : 0 < b) :
    Int.tdiv a b = if 0 ≤ a then a / b else -((-a) / b) := by
  by_cases ha : 0 ≤ a
  · rw [if_pos ha, Int.tdiv_eq_ediv ha (Int.le_of_lt hb)]
  · rw [if_neg ha]
    have hna : 0 ≤ -a := by omega
    have h := Int.tdiv_eq_ediv hna (Int.le_of_lt hb)
    rw [Int.neg_tdiv] at h
    omega

theorem MilliFrom_eq (nsec : Int) (h : -2 ^ 63 ≤ nsec ∧ nsec < 2 ^ 63) :
    MilliFrom nsec = if 0 ≤ nsec then nsec / 1000000 else -((-nsec) / 1000000) := by
  unfold MilliFrom wrapInt64
  rw [tdiv_eq_cases nsec 1000000 (by decide)]
  split <;> omega

/-- C16: for every signed 64-bit `nsec`, `MilliFrom nsec` is the quotient of `nsec` by
1000000 truncated toward zero: `nsec` is the quotient times 1000000 plus a remainder
below 1000000 in absolute value that is zero or has the sign of `nsec`; so
`MilliFrom (-1)` is 0; and `MilliFrom` is monotone non-decreasing. -/
theorem MilliFrom_spec (nsec : Int) (h : -2 ^ 63 ≤ nsec ∧ nsec < 2 ^ 63) :
    (∃ r : Int, nsec = MilliFrom nsec * 1000000 + r ∧ -1000000 < r ∧ r < 1000000 ∧
      (r = 0 ∨ (0 < r ∧ 0 < nsec) ∨ (r < 0 ∧ nsec < 0))) ∧
    MilliFrom (-1) = 0 ∧
    (∀ m : Int, -2 ^ 63 ≤ m ∧ m < 2 ^ 63 → nsec ≤ m → MilliFrom nsec ≤ MilliFrom m) := by
  refine ⟨⟨nsec - MilliFrom nsec * 1000000, by omega, ?_⟩, by decide, ?_⟩
  · rw [MilliFrom_eq nsec h]
    split <;> omega
  · intro m hm hle
    rw [MilliFrom_eq nsec h, MilliFrom_eq m hm]
    split <;> split <;> omega

/-- C16, at -1999999 nanoseconds: the quotient is -1 and the remainder -999999. -/
theorem MilliFrom_spec_witness :
    MilliFrom (-1999999) = -1 ∧ MilliFrom (-1) = 0 ∧
    (∃ r : Int, (-1999999 : Int) = MilliFrom (-1999999) * 1000000 + r ∧ -1000000 < r ∧
      r < 1000000 ∧ (r = 0 ∨ (0 < r ∧ 0 < (-1999999 : Int)) ∨ (r < 0 ∧ (-1999999 : Int) < 0))) :=
  ⟨by decide, by decide, (MilliFrom_spec (-1999999) (by decide)).1⟩

/-! ## The calendar of package `time` -/

theorem isLeap_iff (y : Int) :
    isLeap y = true ↔ (y % 4 = 0 ∧ (y % 100 ≠ 0 ∨ y % 400 = 0)) := by
  simp [isLeap]

theorem mixed_radix (n400 Y : Int) (n100 n4 n1 : Nat) (h100 : n100 ≤ 3) (h4 : n4 ≤ 24)
    (h1 : n1 ≤ 3) (hY : Y = 400 * n400 + 100 * n100 + 4 * n4 + n1) :
    Y / 400 = n400 ∧ Y % 400 / 100 = n100 ∧ Y % 100 / 4 = n4 ∧ Y % 4 = n1 := by
  refine ⟨by omega, by omega, ?_, by omega⟩
  have h : Y % 100 = 4 * n4 + n1 := by omega
  omega

/-- The cycle cuts of `yearDay`, step by step: the days before the year and the day
within the year add up to the day count, and day 365 only occurs in a leap year. -/
theorem yearDay_aux (d n400 y : Int) (d1 q n100 d2 n4 d3 r n1 yd : Nat)
    (h400 : n400 = d / 146097) (hd1 : (d1 : Int) = d % 146097)
    (hq : q = d1 / 36524) (hn100 : n100 = q - q / 4)
    (hd2 : d2 = d1 - 36524 * n100) (hn4 : n4 = d2 / 1461)
    (hd3 : d3 = d2 - 1461 * n4) (hr : r = d3 / 365) (hn1 : n1 = r - r / 4)
    (hyd : yd = d3 - 365 * n1)
    (hy : y = 400 * n400 + 100 * n100 + 4 * n4 + n1 + 1) :
    daysSinceEpoch y + yd = d ∧
    (yd < 365 ∨ (yd = 365 ∧ (y % 4 = 0 ∧ (y % 100 ≠ 0 ∨ y % 400 = 0)))) := by
  have b1 : d1 < 146097 := by omega
  have b2 : n100 ≤ 3 ∧ d2 + 36524 * n100 = d1 ∧ d2 ≤ 36524 ∧ (d2 = 36524 → n100 = 3) := by
    omega
  have b3 : n4 ≤ 24 ∧ d3 + 1461 * n4 = d2 ∧ d3 ≤ 1460 := by omega
  have b4 : n1 ≤ 3 ∧ yd + 365 * n1 = d3 ∧ yd ≤ 365 ∧ (yd = 365 → n1 = 3) := by omega
  have hY : y - 1 = 400 * n400 + 100 * n100 + 4 * n4 + n1 := by omega
  obtain ⟨hy1, hy2, hy3, hy4⟩ := mixed_radix n400 (y - 1) n100 n4 n1 b2.1 b3.1 b4.1 hY
  have hd : d = 146097 * n400 + d1 := by omega
  constructor
  · unfold daysSinceEpoch
    simp only [hy1, hy2, hy3, hy4]
    omega
  · by_cases h : yd = 365
    · right
      refine ⟨h, ?_⟩
      have hn1 : n1 = 3 := b4.2.2.2 h
      have h3 : d3 = 1460 := by omega
      have hc : n4 = 24 → n100 = 3 := by
        intro h4
        apply b2.2.2.2
        omega
      have hb100 : n100 ≤ 3 := b2.1
      have hb4 : n4 ≤ 24 := b3.1
      clear hd hy1 hy2 hy3 hy4 b1 b2 b3 b4 hyd hr hd3 hn4 hd2 hq hd1 h400 hn100 h3 h
      subst hn1
      by_cases h24 : n4 = 24
      · have := hc h24
        omega
      · omega
    · left
      omega

theorem yearDay_spec (d : Int) :
    daysSinceEpoch (yearDay d).1 + (yearDay d).2 = d ∧
    ((yearDay d).2 < 365 ∨ ((yearDay d).2 = 365 ∧ isLeap (yearDay d).1 = true)) := by
  rw [isLeap_iff]
  exact yearDay_aux d _ _ (d % 146097).toNat _ _ _ _ _ _ _ _ rfl (by omega) rfl rfl rfl rfl
    rfl rfl rfl rfl rfl

/-- The month estimate of `monthDayPlain` and its adjustment: the month is from 1 to
12, the day lies within the month, the days before the month and the day add up to the
count, and the first 59 days are those of January and February. -/
theorem monthDayPlain_spec (day : Nat) (h : day < 365) :
    1 ≤ (monthDayPlain day).1 ∧ (monthDayPlain day).1 ≤ 12 ∧ 1 ≤ (monthDayPlain day).2 ∧
    (monthDayPlain day).2 ≤
      daysBefore (monthDayPlain day).1 - daysBefore ((monthDayPlain day).1 - 1) ∧
    daysBefore ((monthDayPlain day).1 - 1) + ((monthDayPlain day).2 - 1) = day ∧
    (day < 59 ↔ (monthDayPlain day).1 ≤ 2) := by
  unfold monthDayPlain
  obtain ⟨month, hm⟩ : ∃ month, month = day / 31 := ⟨_, rfl⟩
  rw [← hm]
  have hle : month ≤ 11 := by omega
  interval_cases month <;> simp only [daysBefore, List.getD_cons_succ, List.getD_cons_zero] <;>
    split <;> simp <;> omega

/-- The month and day of `monthDay` on a day of the year: a date of the calendar whose
day count within the year, as `Date` computes it, is the given one. -/
theorem monthDay_spec (y : Int) (yd : Nat)
    (h : yd < 365 ∨ (yd = 365 ∧ isLeap y = true)) :
    1 ≤ (monthDay y yd).1 ∧ (monthDay y yd).1 ≤ 12 ∧ 1 ≤ (monthDay y yd).2 ∧
    (monthDay y yd).2 ≤ daysIn (monthDay y yd).1 y ∧
    (daysBefore ((monthDay y yd).1 - 1) : Int)
      + (if isLeap y = true ∧ (monthDay y yd).1 ≥ 3 then 1 else 0)
      + (((monthDay y yd).2 - 1 : Nat) : Int) = yd := by
  unfold monthDay daysIn
  cases hl : isLeap y with
  | false =>
    have hyd : yd < 365 := by
      rcases h with h | h
      · exact h
      · rw [hl] at h
        exact absurd h.2 (by decide)
    obtain ⟨h1, h2, h3, h4, h5, _⟩ := monthDayPlain_spec yd hyd
    simp only [Bool.false_eq_true, false_and, and_false, if_false]
    refine ⟨h1, h2, h3, h4, ?_⟩
    omega
  | true =>
    by_cases h59 : yd = 31 + 29 - 1
    · subst h59
      simp [daysBefore]
    · by_cases hgt : yd > 31 + 29 - 1
      · have hyd : yd - 1 < 365 := by omega
        obtain ⟨h1, h2, h3, h4, h5, h6⟩ := monthDayPlain_spec (yd - 1) hyd
        simp only [h59, hgt, and_false, and_true, true_and, if_true, if_false]
        have hm3 : (monthDayPlain (yd - 1)).1 ≥ 3 := by omega
        have hne : ¬ (monthDayPlain (yd - 1)).1 = 2 := by omega
        simp only [hne, hm3, if_true, if_false]
        refine ⟨h1, h2, h3, h4, ?_⟩
        omega
      · have hyd : yd < 365 := by omega
        obtain ⟨h1, h2, h3, h4, h5, h6⟩ := monthDayPlain_spec yd hyd
        simp only [h59, hgt, and_false, and_true, true_and, if_true, if_false]
        have hm3 : ¬ (monthDayPlain yd).1 ≥ 3 := by omega
        simp only [hm3, if_false]
        refine ⟨h1, h2, h3, ?_, ?_⟩
        · split
          · rename_i h2m
            rw [h2m] at h4
            simp [daysBefore] at h4
            omega
          · exact h4
        · omega

/-! ## Digits of fixed width -/

theorem fmtDigits_fuel (f f2 u : Nat) (h : u ≤ f) (h2 : u ≤ f2) :
    fmtDigits f u = fmtDigits f2 u := by
  induction f generalizing f2 u with
  | zero =>
    have hu : u = 0 := by omega
    subst hu
    cases f2 <;> rfl
  | succ f ih =>
    cases f2 with
    | zero =>
      have hu : u = 0 := by omega
      subst hu
      rfl
    | succ f2 =>
      rw [fmtDigits, fmtDigits]
      by_cases h10 : u < 10
      · rw [if_pos h10, if_pos h10]
      · rw [if_neg h10, if_neg h10, ih f2 (u / 10) (by omega) (by omega)]

/-- The text of a number: one digit below ten, otherwise the text of the tenth
followed by the last digit. -/
theorem sprintUint_eq (n : Nat) :
    sprintUint n =
      if n < 10 then [digitChar n] else sprintUint (n / 10) ++ [digitChar (n % 10)] := by
  unfold sprintUint
  cases n with
  | zero => rfl
  | succ n =>
    rw [fmtDigits]
    by_cases h10 : n + 1 < 10
    · rw [if_pos h10, if_pos h10]
    · rw [if_neg h10, if_neg h10, fmtDigits_fuel n ((n + 1) / 10) ((n + 1) / 10) (by omega)
        (Nat.le_refl _)]

theorem fixedDigits_length (w n : Nat) : (fixedDigits w n).length = w := by
  induction w generalizing n with
  | zero => rfl
  | succ w ih => simp [fixedDigits, ih]

theorem fixedDigits_zero (w : Nat) : fixedDigits w 0 = List.replicate w '0' := by
  induction w with
  | zero => rfl
  | succ w ih =>
    rw [fixedDigits, Nat.zero_div, ih, List.replicate_succ']
    rfl

/-- Padding the text of a number below `10 ^ (w + 1)` to the width `w + 1` gives its
`w + 1` digits. -/
theorem pad_sprintUint (w n : Nat) (h : n < 10 ^ (w + 1)) :
    List.replicate (w + 1 - (sprintUint n).length) '0' ++ sprintUint n =
      fixedDigits (w + 1) n := by
  induction w generalizing n with
  | zero =>
    have h10 : n < 10 := by simpa using h
    have hm : n % 10 = n := by omega
    rw [sprintUint_eq, if_pos h10, fixedDigits, fixedDigits, hm]
    rfl
  | succ w ih =>
    rw [sprintUint_eq, fixedDigits]
    by_cases h10 : n < 10
    · rw [if_pos h10]
      have h0 : n / 10 = 0 := by omega
      have hm : n % 10 = n := by omega
      rw [h0, hm, fixedDigits_zero]
      simp
    · rw [if_neg h10]
      have hlt : n / 10 < 10 ^ (w + 1) := by
        rw [Nat.pow_succ] at h
        omega
      rw [← ih (n / 10) hlt]
      simp [List.append_assoc]

theorem appendInt_nat (w n : Nat) (h : n < 10 ^ (w + 1)) :
    appendInt (n : Int) (w + 1) = fixedDigits (w + 1) n := by
  unfold appendInt
  have hneg : ¬ ((n : Int) < 0) := by omega
  rw [if_neg hneg, Int.natAbs_ofNat, List.nil_append]
  exact pad_sprintUint w n h

theorem isDigit_digitChar (d : Nat) (h : d < 10) : isDigit (digitChar d) = true := by
  simp only [isDigit, digitChar_toNat d h, decide_eq_true_eq]
  omega

theorem fixedDigits_all (w n : Nat) : ∀ c ∈ fixedDigits w n, isDigit c = true := by
  induction w generalizing n with
  | zero => simp [fixedDigits]
  | succ w ih =>
    intro c hc
    rw [fixedDigits] at hc
    rcases List.mem_append.mp hc with h | h
    · exact ih _ c h
    · rw [List.mem_singleton.mp h]
      exact isDigit_digitChar _ (by omega)

theorem decValueFrom_append (k : Nat) (a b : GoString) :
    decValueFrom k (a ++ b) = decValueFrom (decValueFrom k a) b := by
  unfold decValueFrom
  rw [List.foldl_append]

theorem decValue_fixedDigits (w n : Nat) (h : n < 10 ^ w) :
    decValue (fixedDigits w n) = n := by
  induction w generalizing n with
  | zero =>
    have hn : n = 0 := by simpa using h
    subst hn
    rfl
  | succ w ih =>
    have hlt : n / 10 < 10 ^ w := by
      rw [Nat.pow_succ] at h
      omega
    have := ih (n / 10) hlt
    unfold decValue at this ⊢
    rw [fixedDigits, decValueFrom_append, this]
    simp only [decValueFrom, List.foldl_cons, List.foldl_nil, digitChar_toNat (n % 10) (by omega)]
    omega

/-- A field of `w` digits parses back to its number when the number is in range. -/
theorem parseField_fixedDigits (w n lo hi : Nat) (h : n < 10 ^ w) (hlo : lo ≤ n)
    (hhi : n ≤ hi) : parseField (fixedDigits w n) lo hi = some n := by
  unfold parseField
  have hall : (fixedDigits w n).all isDigit = true := by
    rw [List.all_eq_true]
    exact fixedDigits_all w n
  rw [if_pos hall, decValue_fixedDigits w n h, if_neg (by omega)]

/-! ## Reading back the text of `Format` -/

theorem fixedDigits_two (n : Nat) :
    ∃ a b, fixedDigits 2 n = [a, b] :=
  ⟨digitChar (n / 10 % 10), digitChar (n % 10), rfl⟩

theorem fixedDigits_four (n : Nat) :
    ∃ a b c d, fixedDigits 4 n = [a, b, c, d] :=
  ⟨digitChar (n / 10 / 10 / 10 % 10), digitChar (n / 10 / 10 % 10), digitChar (n / 10 % 10),
    digitChar (n % 10), rfl⟩

/-- On a text that starts with the nineteen runes of a date and a clock in range,
`parseRFC3339` reads the six fields and goes on with the fraction and the zone. -/
theorem parseRFC3339_fields (Y M D h mi s : Nat) (rest : GoString)
    (hY : Y ≤ 9999) (hM : 1 ≤ M ∧ M ≤ 12) (hD : 1 ≤ D ∧ D ≤ daysIn M Y)
    (hh : h ≤ 23) (hmi : mi ≤ 59) (hs : s ≤ 59) :
    parseRFC3339 (fixedDigits 4 Y ++ '-' :: (fixedDigits 2 M ++ '-' :: (fixedDigits 2 D ++
      'T' :: (fixedDigits 2 h ++ ':' :: (fixedDigits 2 mi ++ ':' :: (fixedDigits 2 s ++ rest))))))
      = parseFractionZone (Date Y M D h mi s) rest := by
  have hD31 : D ≤ 31 := by
    have := hD.2
    unfold daysIn at this
    split at this
    · omega
    · have hm : M ≤ 12 := hM.2
      have h1 : 1 ≤ M := hM.1
      interval_cases M <;> simp [daysBefore] at this <;> omega
  have pY := parseField_fixedDigits 4 Y 0 9999 (by omega) (by omega) hY
  have pM := parseField_fixedDigits 2 M 1 12 (by omega) hM.1 hM.2
  have pD := parseField_fixedDigits 2 D 1 (daysIn M Y) (by omega) hD.1 hD.2
  have ph := parseField_fixedDigits 2 h 0 23 (by omega) (by omega) hh
  have pmi := parseField_fixedDigits 2 mi 0 59 (by omega) (by omega) hmi
  have ps := parseField_fixedDigits 2 s 0 59 (by omega) (by omega) hs
  obtain ⟨y3, y2, y1, y0, eY⟩ := fixedDigits_four Y
  obtain ⟨m1, m0, eM⟩ := fixedDigits_two M
  obtain ⟨d1, d0, eD⟩ := fixedDigits_two D
  obtain ⟨h1, h0, eh⟩ := fixedDigits_two h
  obtain ⟨i1, i0, emi⟩ := fixedDigits_two mi
  obtain ⟨s1, s0, es⟩ := fixedDigits_two s
  rw [eY] at pY ⊢
  rw [eM] at pM ⊢
  rw [eD] at pD ⊢
  rw [eh] at ph ⊢
  rw [emi] at pmi ⊢
  rw [es] at ps ⊢
  unfold parseRFC3339
  simp only [slice, List.cons_append, List.nil_append, List.length_cons, List.drop, List.take]
  simp [pY, pM, pD, ph, pmi, ps]

/-- The zone text of an offset of whole minutes within a day parses back to the
offset, and the instant is moved back by it. -/
theorem parseZone_appendZone (t0 : Time) (offset : Int) (h0 : t0.offset = 0)
    (hm : offset % 60 = 0) (hr : -86400 < offset ∧ offset < 86400) :
    parseZone t0 (appendZone offset) = some ⟨t0.sec - offset, t0.nsec, offset⟩ := by
  unfold appendZone
  by_cases hz : offset = 0
  · rw [if_pos hz, hz]
    unfold parseZone
    rw [if_pos rfl]
    cases t0
    simp only [Int.sub_zero] at h0 ⊢
    rw [h0]
  · rw [if_neg hz]
    have htd := tdiv_eq_cases offset 60 (by decide)
    obtain ⟨a, ha⟩ : ∃ a : Nat, a = (Int.tdiv offset 60).natAbs := ⟨_, rfl⟩
    simp only []
    rw [← ha]
    have hhr : a / 60 ≤ 23 := by
      split at htd <;> omega
    have hmm : a % 60 ≤ 59 := by omega
    rw [appendInt_nat 1 (a / 60) (by omega), appendInt_nat 1 (a % 60) (by omega)]
    have pH := parseField_fixedDigits 2 (a / 60) 0 23 (by omega) (by omega) hhr
    have pM := parseField_fixedDigits 2 (a % 60) 0 59 (by omega) (by omega) hmm
    obtain ⟨x1, x0, eH⟩ := fixedDigits_two (a / 60)
    obtain ⟨z1, z0, eM⟩ := fixedDigits_two (a % 60)
    rw [eH] at pH ⊢
    rw [eM] at pM ⊢
    have hval : (((a / 60 * 60 + a % 60) * 60 : Nat) : Int) = if offset < 0 then -offset else offset := by
      split at htd <;> split <;> omega
    by_cases hneg : Int.tdiv offset 60 < 0
    · have hoff : offset < 0 := by
        split at htd <;> omega
      rw [if_pos hneg]
      unfold parseZone
      simp only [slice, List.cons_append, List.nil_append, List.length_cons, List.drop,
        List.take, List.length_nil]
      simp only [pH, pM]
      simp
      rw [if_pos hoff] at hval
      omega
    · have hoff : ¬ offset < 0 := by
        split at htd <;> omega
      rw [if_neg hneg]
      unfold parseZone
      simp only [slice, List.cons_append, List.nil_append, List.length_cons, List.drop,
        List.take, List.length_nil]
      simp only [pH, pM]
      simp
      rw [if_neg hoff] at hval
      omega

theorem decValueFrom_zeros (k n : Nat) :
    decValueFrom n (List.replicate k '0') = n * 10 ^ k := by
  induction k generalizing n with
  | zero => simp [decValueFrom]
  | succ k ih =>
    rw [List.replicate_succ, decValueFrom_cons, ih, Nat.pow_succ]
    have h0 : ('0' : Char).toNat - 48 = 0 := by decide
    rw [h0]
    ring

theorem takeWhile_append_stop (p : Char → Bool) (a z : GoString)
    (ha : ∀ c ∈ a, p c = true) (hz : ∀ c, z.head? = some c → p c = false) :
    (a ++ z).takeWhile p = a := by
  induction a with
  | nil =>
    cases z with
    | nil => rfl
    | cons c z =>
      have := hz c rfl
      simp [List.takeWhile_cons, this]
  | cons c a ih =>
    have hc := ha c (List.mem_cons_self c a)
    rw [List.cons_append, List.takeWhile_cons, hc]
    simp only [if_true]
    rw [ih (fun x hx => ha x (List.mem_cons_of_mem c hx))]

/-- The digits of the fraction that `appendNano` writes: not empty, all digits, at
most nine, and scaled back to nine digits they denote the nanoseconds. -/
theorem nanoDigits_spec (nsec : Nat) (h0 : nsec ≠ 0) (hn : nsec < 1000000000) :
    (fixedDigits 9 nsec).rdropWhile (fun c => c == '0') ≠ [] ∧
    (∀ c ∈ (fixedDigits 9 nsec).rdropWhile (fun c => c == '0'), isDigit c = true) ∧
    ((fixedDigits 9 nsec).rdropWhile (fun c => c == '0')).length ≤ 9 ∧
    decValue ((fixedDigits 9 nsec).rdropWhile (fun c => c == '0')) *
      10 ^ (9 - ((fixedDigits 9 nsec).rdropWhile (fun c => c == '0')).length) = nsec := by
  have hsplit := rdropWhile_append_rtakeWhile (fun c => c == '0') (fixedDigits 9 nsec)
  obtain ⟨T, hT⟩ : ∃ T, T = (fixedDigits 9 nsec).rdropWhile (fun c => c == '0') := ⟨_, rfl⟩
  obtain ⟨Z, hZ⟩ : ∃ Z, Z = (fixedDigits 9 nsec).rtakeWhile (fun c => c == '0') := ⟨_, rfl⟩
  rw [← hT, ← hZ] at hsplit
  rw [← hT]
  have hZrep : Z = List.replicate Z.length '0' := by
    rw [List.eq_replicate_iff]
    refine ⟨rfl, ?_⟩
    intro c hc
    rw [hZ] at hc
    have := List.mem_rtakeWhile_imp hc
    simpa using this
  have hlen : T.length + Z.length = 9 := by
    have := congrArg List.length hsplit
    rw [List.length_append, fixedDigits_length] at this
    exact this
  have hval : decValue T * 10 ^ Z.length = nsec := by
    have hv := decValue_fixedDigits 9 nsec (by omega)
    rw [← hsplit] at hv
    unfold decValue at hv ⊢
    rw [decValueFrom_append] at hv
    have hz2 := decValueFrom_zeros Z.length (decValueFrom 0 T)
    rw [← hZrep] at hz2
    rw [hz2] at hv
    exact hv
  refine ⟨?_, ?_, by omega, ?_⟩
  · intro hnil
    rw [hnil] at hval
    have : decValue [] = 0 := rfl
    rw [this] at hval
    omega
  · intro c hc
    apply fixedDigits_all 9 nsec
    rw [← hsplit]
    exact List.mem_append_left _ hc
  · have hk : 9 - T.length = Z.length := by omega
    rw [hk]
    exact hval

/-- After the clock, the fraction that `appendNano` writes is read back to the
nanoseconds, up to a zone that starts with neither a digit nor a point. -/
theorem parseFractionZone_appendNano (mk : Nat → Time) (nsec : Nat) (z : GoString)
    (hn : nsec < 1000000000)
    (hz : ∀ c, z.head? = some c → isDigit c = false ∧ c ≠ '.') :
    parseFractionZone mk (appendNano nsec ++ z) = parseZone (mk nsec) z := by
  unfold appendNano
  by_cases h0 : nsec = 0
  · rw [if_pos h0, List.nil_append, h0]
    unfold parseFractionZone
    have hnp : ¬ (z.length ≥ 2 ∧ z.head? = some '.' ∧ isDigitAt z 1 = true) := by
      intro h
      exact (hz '.' h.2.1).2 rfl
    rw [if_neg hnp]
  · rw [if_neg h0, appendInt_nat 8 nsec (by omega)]
    obtain ⟨h1, h2, h3, h4⟩ := nanoDigits_spec nsec h0 hn
    obtain ⟨T, hT⟩ : ∃ T, T = (fixedDigits 9 nsec).rdropWhile (fun c => c == '0') := ⟨_, rfl⟩
    rw [← hT] at h1 h2 h3 h4 ⊢
    unfold parseFractionZone
    have htw : ((T ++ z)).takeWhile isDigit = T :=
      takeWhile_append_stop isDigit T z h2 (fun c hc => (hz c hc).1)
    cases T with
    | nil => exact absurd rfl h1
    | cons c T =>
      have hc : isDigit c = true := h2 c (List.mem_cons_self c T)
      have hcond : ('.' :: (c :: T) ++ z).length ≥ 2 ∧
          ('.' :: (c :: T) ++ z).head? = some '.' ∧
          isDigitAt ('.' :: (c :: T) ++ z) 1 = true := by
        refine ⟨by simp, rfl, ?_⟩
        simp [isDigitAt, hc]
      rw [if_pos hcond]
      have hdrop1 : ('.' :: (c :: T) ++ z).drop 1 = (c :: T) ++ z := rfl
      simp only [hdrop1, htw]
      have hdrop : ('.' :: (c :: T) ++ z).drop (1 + (c :: T).length) = z := by
        rw [Nat.add_comm]
        show ((c :: T) ++ z).drop (c :: T).length = z
        exact List.drop_left _ _
      have hnano : parseNanoseconds ('.' :: (c :: T) ++ z) (1 + (c :: T).length) = nsec := by
        unfold parseNanoseconds
        have hmin : min (1 + (c :: T).length) 10 = 1 + (c :: T).length := by
          apply Nat.min_eq_left
          omega
        simp only [hmin]
        have hsl : slice ('.' :: (c :: T) ++ z) 1 (1 + (c :: T).length) = c :: T := by
          unfold slice
          rw [hdrop1, Nat.add_sub_cancel_left]
          exact List.take_left _ _
        rw [hsl]
        have hk : 10 - (1 + (c :: T).length) = 9 - (c :: T).length := by omega
        rw [hk]
        exact h4
      rw [hdrop, hnano]

theorem appendZone_head (offset : Int) :
    ∀ c, (appendZone offset).head? = some c → isDigit c = false ∧ c ≠ '.' := by
  intro c hc
  unfold appendZone at hc
  split at hc
  · cases hc
    decide
  · simp only [] at hc
    split at hc
    · cases hc
      decide
    · cases hc
      decide

/-- Days and clock put together again give the seconds they were cut from. -/
theorem seconds_of_parts (abs dse adj : Int) (db yd dd : Nat)
    (hsum : dse + yd = abs / 86400 + 719162)
    (hmd : (db : Int) + adj + ((dd - 1 : Nat) : Int) = yd) :
    (dse + (db : Int) + adj + ((dd - 1 : Nat) : Int) - 719162) * 86400
      + (((abs % 86400).toNat / 3600 : Nat) : Int) * 3600
      + (((abs % 86400).toNat % 3600 / 60 : Nat) : Int) * 60
      + (((abs % 86400).toNat % 60 : Nat) : Int) = abs := by
  omega

/-- The seconds that `Date` computes from the date and the clock that `Format` writes
are the seconds of the instant moved by the zone offset. -/
theorem Date_of_civil (abs : Int) (nsec : Nat) :
    Date (yearDay (abs / 86400 + unixEpochDays)).1
      (monthDay (yearDay (abs / 86400 + unixEpochDays)).1
        (yearDay (abs / 86400 + unixEpochDays)).2).1
      (monthDay (yearDay (abs / 86400 + unixEpochDays)).1
        (yearDay (abs / 86400 + unixEpochDays)).2).2
      ((abs % 86400).toNat / 3600) ((abs % 86400).toNat % 3600 / 60)
      ((abs % 86400).toNat % 60) nsec = ⟨abs, nsec, 0⟩ := by
  obtain ⟨hsum, hyd⟩ := yearDay_spec (abs / 86400 + unixEpochDays)
  obtain ⟨_, _, _, _, hmd⟩ := monthDay_spec _ _ hyd
  unfold Date
  simp only [Time.mk.injEq, and_true]
  unfold unixEpochDays at hsum ⊢
  exact seconds_of_parts abs _ _ _ _ _ hsum hmd

theorem daysIn_le (M : Nat) (y : Int) (hM : M ≤ 12) : daysIn M y ≤ 31 := by
  unfold daysIn
  split
  · omega
  · interval_cases M <;> simp [daysBefore]

/-! ## The absolute seconds of package `time` -/

/-- As long as the absolute seconds do not wrap, days and clock are those of the
seconds from the Unix epoch moved by the zone offset. -/
theorem abs_plain (t : Time)
    (h : 0 ≤ t.sec + t.offset + unixToAbsolute ∧ t.sec + t.offset + unixToAbsolute < 2 ^ 64) :
    ((t.abs / 86400 : Nat) : Int) - internalToAbsoluteDays
      = (t.sec + t.offset) / 86400 + unixEpochDays ∧
    t.abs % 86400 = ((t.sec + t.offset) % 86400).toNat := by
  have hw : (t.sec + t.offset + unixToAbsolute) % 2 ^ 64 = t.sec + t.offset + unixToAbsolute :=
    Int.emod_eq_of_lt h.1 h.2
  unfold Time.abs
  rw [hw]
  unfold unixToAbsolute internalToAbsoluteDays unixEpochDays at *
  omega

/-- As long as the absolute seconds do not wrap, the year `Format` writes is the year
of the seconds from the Unix epoch moved by the zone offset. -/
theorem localYear_plain (t : Time)
    (h : 0 ≤ t.sec + t.offset + unixToAbsolute ∧ t.sec + t.offset + unixToAbsolute < 2 ^ 64) :
    localYear t = (yearDay ((t.sec + t.offset) / 86400 + unixEpochDays)).1 := by
  unfold localYear
  rw [(abs_plain t h).1]

theorem daysSinceEpoch_bounds_inv (y : Int) :
    (0 ≤ y → -366 ≤ daysSinceEpoch y) ∧ (y ≤ 9999 → daysSinceEpoch y ≤ 3651694) ∧
    (y ≤ 9998 → daysSinceEpoch y ≤ 3651329) := by
  unfold daysSinceEpoch
  simp only []
  have hdec : y - 1 = 400 * ((y - 1) / 400) + 100 * ((y - 1) % 400 / 100)
      + 4 * ((y - 1) % 100 / 4) + (y - 1) % 4 := by omega
  have hb : 0 ≤ (y - 1) % 400 / 100 ∧ (y - 1) % 400 / 100 ≤ 3 := by omega
  have hc : 0 ≤ (y - 1) % 100 / 4 ∧ (y - 1) % 100 / 4 ≤ 24 := by omega
  have he : 0 ≤ (y - 1) % 4 ∧ (y - 1) % 4 ≤ 3 := by omega
  generalize (y - 1) / 400 = a at hdec ⊢
  generalize (y - 1) % 400 / 100 = b at hdec hb ⊢
  generalize (y - 1) % 100 / 4 = c at hdec hc ⊢
  generalize (y - 1) % 4 = e at hdec he ⊢
  refine ⟨?_, ?_, ?_⟩
  · intro h
    omega
  · intro h
    omega
  · intro h
    omega

/-- A day count whose year is from 0 to 9999 lies between the first day of year 0
and the last day of year 9999. -/
theorem yearDay_range (d : Int) (h : 0 ≤ (yearDay d).1 ∧ (yearDay d).1 ≤ 9999) :
    -366 ≤ d ∧ d < 3652059 := by
  obtain ⟨hsum, hyd⟩ := yearDay_spec d
  obtain ⟨hlo, hhi, hhi2⟩ := daysSinceEpoch_bounds_inv (yearDay d).1
  have h1 := hlo h.1
  have h2 := hhi h.2
  have hyd0 : (0 : Int) ≤ ((yearDay d).2 : Int) := Int.ofNat_nonneg _
  constructor
  · clear hlo hhi hhi2 hyd h
    omega
  · by_cases h9 : (yearDay d).1 = 9999
    · rw [h9] at hyd hsum h2
      have hyd2 : ((yearDay d).2 : Int) < 365 := by
        rcases hyd with hl | hl
        · omega
        · exact absurd hl.2 (by decide)
      clear hlo hhi hhi2 hyd h
      omega
    · have h3 := hhi2 (by omega)
      have hyd2 : ((yearDay d).2 : Int) ≤ 365 := by
        rcases hyd with hl | hl
        · omega
        · omega
      clear hlo hhi hhi2 hyd h
      omega

/-- A time of `int64` seconds whose zone offset is below 25 hours and whose year is
from 0 to 9999 is far from the ends of the absolute seconds, which do not wrap. -/
theorem abs_no_wrap (t : Time) (hs : -2 ^ 63 ≤ t.sec ∧ t.sec < 2 ^ 63)
    (hr : -90000 < t.offset ∧ t.offset < 90000)
    (hy : 0 ≤ localYear t ∧ localYear t ≤ 9999) :
    0 ≤ t.sec + t.offset + unixToAbsolute ∧ t.sec + t.offset + unixToAbsolute < 2 ^ 64 := by
  have hd := yearDay_range _ hy
  unfold Time.abs unixToAbsolute internalToAbsoluteDays at *
  omega

/-- The text `Format` writes for a time in the years 0 to 9999: six fields of fixed
width in range, from which `Date` computes the seconds of the instant moved by the
zone offset, then the fraction and the zone. -/
theorem formatRFC3339Nano_parts (t : Time) (hs : -2 ^ 63 ≤ t.sec ∧ t.sec < 2 ^ 63)
    (hr : -90000 < t.offset ∧ t.offset < 90000)
    (hy : 0 ≤ localYear t ∧ localYear t ≤ 9999) :
    ∃ Y M D h mi s : Nat, Y ≤ 9999 ∧ (1 ≤ M ∧ M ≤ 12) ∧ (1 ≤ D ∧ D ≤ daysIn M Y) ∧
      h ≤ 23 ∧ mi ≤ 59 ∧ s ≤ 59 ∧
      Date Y M D h mi s t.nsec = ⟨t.sec + t.offset, t.nsec, 0⟩ ∧
      formatRFC3339Nano t =
        fixedDigits 4 Y ++ '-' :: (fixedDigits 2 M ++ '-' :: (fixedDigits 2 D ++
          'T' :: (fixedDigits 2 h ++ ':' :: (fixedDigits 2 mi ++ ':' :: (fixedDigits 2 s ++
            (appendNano t.nsec ++ appendZone t.offset)))))) := by
  have hnw := abs_no_wrap t hs hr hy
  rw [localYear_plain t hnw] at hy
  unfold formatRFC3339Nano
  simp only []
  rw [(abs_plain t hnw).1, (abs_plain t hnw).2]
  obtain ⟨hsum, hyd⟩ := yearDay_spec ((t.sec + t.offset) / 86400 + unixEpochDays)
  obtain ⟨hm1, hm2, hd1, hd2, _⟩ := monthDay_spec _ _ hyd
  have hdate := Date_of_civil (t.sec + t.offset) t.nsec
  obtain ⟨Y, hY⟩ : ∃ Y : Nat, (Y : Int) = (yearDay ((t.sec + t.offset) / 86400 + unixEpochDays)).1 :=
    ⟨_, Int.toNat_of_nonneg hy.1⟩
  rw [← hY] at hy hm1 hm2 hd1 hd2 hdate ⊢
  generalize (yearDay ((t.sec + t.offset) / 86400 + unixEpochDays)).2 = yd
    at hm1 hm2 hd1 hd2 hdate ⊢
  generalize (monthDay (Y : Int) yd).1 = M at hm1 hm2 hd1 hd2 hdate ⊢
  generalize (monthDay (Y : Int) yd).2 = D at hd1 hd2 hdate ⊢
  have hcl : ((t.sec + t.offset) % 86400).toNat < 86400 := by omega
  generalize ((t.sec + t.offset) % 86400).toNat = clock at hcl hdate ⊢
  have hD31 := daysIn_le M (Y : Int) hm2
  have hY2 : Y ≤ 9999 := by omega
  refine ⟨Y, M, D, clock / 3600, clock % 3600 / 60, clock % 60, hY2, ⟨hm1, hm2⟩, ⟨hd1, hd2⟩,
    by omega, by omega, by omega, hdate, ?_⟩
  rw [appendInt_nat 3 Y (by omega), appendInt_nat 1 M (by omega), appendInt_nat 1 D (by omega),
    appendInt_nat 1 (clock / 3600) (by omega), appendInt_nat 1 (clock % 3600 / 60) (by omega),
    appendInt_nat 1 (clock % 60) (by omega)]
  simp only [List.append_assoc, List.singleton_append, List.cons_append, List.nil_append]

/-- The text `Format` writes for a time in the years 0 to 9999 whose zone offset is a
whole number of minutes within a day is read back by `parseRFC3339` to the same
time. -/
theorem parseRFC3339_format (t : Time) (hn : t.nsec < 1000000000)
    (hs : -2 ^ 63 ≤ t.sec ∧ t.sec < 2 ^ 63)
    (hm : t.offset % 60 = 0) (hr : -86400 < t.offset ∧ t.offset < 86400)
    (hy : 0 ≤ localYear t ∧ localYear t ≤ 9999) :
    parseRFC3339 (formatRFC3339Nano t) = some t := by
  obtain ⟨Y, M, D, h, mi, s, hY, hM, hD, hh, hmi, hs2, hdate, hfmt⟩ :=
    formatRFC3339Nano_parts t hs (by omega) hy
  rw [hfmt, parseRFC3339_fields Y M D h mi s _ hY hM hD hh hmi hs2,
    parseFractionZone_appendNano _ _ _ hn (appendZone_head _), hdate,
    parseZone_appendZone _ _ rfl hm hr]
  cases t
  simp

/-- The zone text of an offset of whole minutes from 24 hours up to 25 hours is not
read by `parseZone`, which admits the hours 0 to 23. -/
theorem parseZone_appendZone_far (t0 : Time) (offset : Int)
    (hm : offset % 60 = 0) (hr : -90000 < offset ∧ offset < 90000)
    (hfar : offset ≤ -86400 ∨ 86400 ≤ offset) :
    parseZone t0 (appendZone offset) = none := by
  unfold appendZone
  have hz : offset ≠ 0 := by omega
  rw [if_neg hz]
  have htd := tdiv_eq_cases offset 60 (by decide)
  obtain ⟨a, ha⟩ : ∃ a : Nat, a = (Int.tdiv offset 60).natAbs := ⟨_, rfl⟩
  simp only []
  rw [← ha]
  have hhr : a / 60 = 24 := by
    split at htd <;> omega
  have hmm : a % 60 ≤ 59 := by omega
  rw [hhr, appendInt_nat 1 24 (by omega), appendInt_nat 1 (a % 60) (by omega)]
  obtain ⟨z1, z0, eM⟩ := fixedDigits_two (a % 60)
  rw [eM]
  have e24 : fixedDigits 2 24 = ['2', '4'] := by decide
  rw [e24]
  have p24 : parseField ['2', '4'] 0 23 = none := by decide
  unfold parseZone
  split_ifs <;>
    simp [slice, p24] at *

/-- The text `Format` writes for a time in the years 0 to 9999 whose zone offset is a
whole number of minutes from 24 hours up to 25 hours is not read by `parseRFC3339`. -/
theorem parseRFC3339_format_far (t : Time) (hn : t.nsec < 1000000000)
    (hs : -2 ^ 63 ≤ t.sec ∧ t.sec < 2 ^ 63)
    (hm : t.offset % 60 = 0) (hr : -90000 < t.offset ∧ t.offset < 90000)
    (hfar : t.offset ≤ -86400 ∨ 86400 ≤ t.offset)
    (hy : 0 ≤ localYear t ∧ localYear t ≤ 9999) :
    parseRFC3339 (formatRFC3339Nano t) = none := by
  obtain ⟨Y, M, D, h, mi, s, hY, hM, hD, hh, hmi, hs2, _, hfmt⟩ :=
    formatRFC3339Nano_parts t hs hr hy
  rw [hfmt, parseRFC3339_fields Y M D h mi s _ hY hM hD hh hmi hs2,
    parseFractionZone_appendNano _ _ _ hn (appendZone_head _),
    parseZone_appendZone_far _ _ hm hr hfar]

/-! ## The layout-driven parser -/

theorem getnum_fixedDigits (n : Nat) (h : n < 100) (rest : GoString) (fixed : Bool) :
    getnum (fixedDigits 2 n ++ rest) fixed = some (n, rest) := by
  have hall := fixedDigits_all 2 n
  have hval := decValue_fixedDigits 2 n (by omega)
  obtain ⟨a, b, e⟩ := fixedDigits_two n
  rw [e] at hall hval ⊢
  have ha : isDigit a = true := hall a (by simp)
  have hb : isDigit b = true := hall b (by simp)
  unfold getnum
  simp [isDigitAt, ha, hb, hval]

theorem atoi_fixedDigits (n : Nat) (h : n < 10000) : atoi (fixedDigits 4 n) = some n := by
  unfold atoi
  have hall : (fixedDigits 4 n).all isDigit = true := by
    rw [List.all_eq_true]
    exact fixedDigits_all 4 n
  rw [if_pos hall, decValue_fixedDigits 4 n (by omega)]

theorem skip_cons (c : Char) (v : GoString) : skip (c :: v) c = some v := by
  simp [skip]

/-- On a text that starts with the nineteen runes of a date and a clock in range,
`parse` reads the six fields and goes on with the fraction and the zone. -/
theorem parse_fields (Y M D h mi s : Nat) (rest : GoString)
    (hY : Y ≤ 9999) (hM : 1 ≤ M ∧ M ≤ 12) (hh : h ≤ 23) (hmi : mi ≤ 59) (hs : s ≤ 59)
    (hD : D ≤ 99) :
    parse (fixedDigits 4 Y ++ '-' :: (fixedDigits 2 M ++ '-' :: (fixedDigits 2 D ++
      'T' :: (fixedDigits 2 h ++ ':' :: (fixedDigits 2 mi ++ ':' :: (fixedDigits 2 s ++ rest))))))
      = parseEnd Y M D h mi s rest := by
  have pY := atoi_fixedDigits Y (by omega)
  have hYall := fixedDigits_all 4 Y
  have pM := fun r => getnum_fixedDigits M (by omega) r true
  have pD := fun r => getnum_fixedDigits D (by omega) r true
  have ph := fun r => getnum_fixedDigits h (by omega) r false
  have pmi := fun r => getnum_fixedDigits mi (by omega) r true
  have ps := fun r => getnum_fixedDigits s (by omega) r true
  obtain ⟨y3, y2, y1, y0, eY⟩ := fixedDigits_four Y
  obtain ⟨m1, m0, eM⟩ := fixedDigits_two M
  obtain ⟨d1, d0, eD⟩ := fixedDigits_two D
  obtain ⟨h1, h0, eh⟩ := fixedDigits_two h
  obtain ⟨i1, i0, emi⟩ := fixedDigits_two mi
  obtain ⟨s1, s0, es⟩ := fixedDigits_two s
  rw [eY] at pY hYall ⊢
  rw [eM] at pM ⊢
  rw [eD] at pD ⊢
  rw [eh] at ph ⊢
  rw [emi] at pmi ⊢
  rw [es] at ps ⊢
  have hy3 : isDigit y3 = true := hYall y3 (by simp)
  simp only [List.cons_append, List.nil_append] at pM pD ph pmi ps
  unfold parse parseClock
  have c1 : ¬ (rest.length + 1 + 1 + 1 + 1 + 1 + 1 + 1 + 1 + 1 + 1 + 1 + 1 + 1 + 1 + 1 + 1 + 1
      + 1 + 1 < 4 ∨ true = false) := by
    intro hc
    rcases hc with hc | hc
    · omega
    · cases hc
  have c2 : ¬ (M = 0 ∨ 12 < M) := by omega
  have c3 : ¬ (24 ≤ h) := by omega
  have c4 : ¬ (60 ≤ mi) := by omega
  have c5 : ¬ (60 ≤ s) := by omega
  simp only [List.cons_append, List.nil_append, List.length_cons, List.drop, List.take,
    isDigitAt, List.getElem?_cons_zero, hy3, pY, Option.some_bind, skip_cons, pM, pD, ph, pmi,
    ps, List.append_eq, c1, c2, c3, c4, c5, if_false]

/-- The fraction that `appendNano` writes is read back by `parseFraction` to the
nanoseconds, up to a rest that starts with neither a digit, a point nor a comma. -/
theorem parseFraction_appendNano (nsec : Nat) (z : GoString) (hn : nsec < 1000000000)
    (hz : ∀ c, z.head? = some c → isDigit c = false ∧ c ≠ '.' ∧ c ≠ ',') :
    parseFraction (appendNano nsec ++ z) = (nsec, z) := by
  unfold appendNano
  by_cases h0 : nsec = 0
  · rw [if_pos h0, List.nil_append, h0]
    unfold parseFraction
    have hnp : ¬ (z.length ≥ 2 ∧ (z.head?.map commaOrPeriod = some true)
        ∧ isDigitAt z 1 = true) := by
      intro h
      cases z with
      | nil => exact absurd h.2.1 (by simp)
      | cons c z =>
        have hc := hz c rfl
        have h1 : commaOrPeriod c = true := by simpa using h.2.1
        unfold commaOrPeriod at h1
        simp [hc.2.1, hc.2.2] at h1
    rw [if_neg hnp]
  · rw [if_neg h0, appendInt_nat 8 nsec (by omega)]
    obtain ⟨h1, h2, h3, h4⟩ := nanoDigits_spec nsec h0 hn
    obtain ⟨T, hT⟩ : ∃ T, T = (fixedDigits 9 nsec).rdropWhile (fun c => c == '0') := ⟨_, rfl⟩
    rw [← hT] at h1 h2 h3 h4 ⊢
    unfold parseFraction
    have htw : ((T ++ z)).takeWhile isDigit = T :=
      takeWhile_append_stop isDigit T z h2 (fun c hc => (hz c hc).1)
    cases T with
    | nil => exact absurd rfl h1
    | cons c T =>
      have hc : isDigit c = true := h2 c (List.mem_cons_self c T)
      have hcond : ('.' :: (c :: T) ++ z).length ≥ 2 ∧
          (('.' :: (c :: T) ++ z).head?.map commaOrPeriod = some true) ∧
          isDigitAt ('.' :: (c :: T) ++ z) 1 = true := by
        refine ⟨by simp, by simp [commaOrPeriod], ?_⟩
        simp [isDigitAt, hc]
      rw [if_pos hcond]
      have hdrop1 : ('.' :: (c :: T) ++ z).drop 1 = (c :: T) ++ z := rfl
      simp only [hdrop1, htw]
      have hdrop : ('.' :: (c :: T) ++ z).drop (1 + (c :: T).length) = z := by
        rw [Nat.add_comm]
        show ((c :: T) ++ z).drop (c :: T).length = z
        exact List.drop_left _ _
      have hnano : parseNanoseconds ('.' :: (c :: T) ++ z) (1 + (c :: T).length) = nsec := by
        unfold parseNanoseconds
        have hmin : min (1 + (c :: T).length) 10 = 1 + (c :: T).length := by
          apply Nat.min_eq_left
          omega
        simp only [hmin]
        have hsl : slice ('.' :: (c :: T) ++ z) 1 (1 + (c :: T).length) = c :: T := by
          unfold slice
          rw [hdrop1, Nat.add_sub_cancel_left]
          exact List.take_left _ _
        rw [hsl]
        have hk : 10 - (1 + (c :: T).length) = 9 - (c :: T).length := by omega
        rw [hk]
        exact h4
      rw [hdrop, hnano]

theorem appendZone_head_sign (offset : Int) :
    ∀ c, (appendZone offset).head? = some c → isDigit c = false ∧ c ≠ '.' ∧ c ≠ ',' := by
  intro c hc
  unfold appendZone at hc
  split at hc
  · cases hc
    decide
  · simp only [] at hc
    split at hc
    · cases hc
      decide
    · cases hc
      decide

/-- The zone text of an offset of whole minutes below 25 hours is read back by
`parseZoneOffset` to the offset, and nothing is left of the text. -/
theorem parseZoneOffset_appendZone (offset : Int)
    (hm : offset % 60 = 0) (hr : -90000 < offset ∧ offset < 90000) :
    parseZoneOffset (appendZone offset) = some (offset, []) := by
  unfold appendZone
  by_cases hz : offset = 0
  · rw [if_pos hz, hz]
    rfl
  · rw [if_neg hz]
    have htd := tdiv_eq_cases offset 60 (by decide)
    obtain ⟨a, ha⟩ : ∃ a : Nat, a = (Int.tdiv offset 60).natAbs := ⟨_, rfl⟩
    simp only []
    rw [← ha]
    have hhr : a / 60 ≤ 24 := by
      split at htd <;> omega
    have hmm : a % 60 ≤ 59 := by omega
    rw [appendInt_nat 1 (a / 60) (by omega), appendInt_nat 1 (a % 60) (by omega)]
    have pH := getnum_fixedDigits (a / 60) (by omega) [] true
    have pM := getnum_fixedDigits (a % 60) (by omega) [] true
    obtain ⟨x1, x0, eH⟩ := fixedDigits_two (a / 60)
    obtain ⟨z1, z0, eM⟩ := fixedDigits_two (a % 60)
    rw [eH] at pH ⊢
    rw [eM] at pM ⊢
    simp only [List.cons_append, List.nil_append] at pH pM
    have hval : (((a / 60 * 60 + a % 60) * 60 : Nat) : Int) = if offset < 0 then -offset else offset := by
      split at htd <;> split <;> omega
    have c1 : ¬ (a / 60 > 24 ∨ a % 60 > 60) := by omega
    by_cases hneg : Int.tdiv offset 60 < 0
    · have hoff : offset < 0 := by
        split at htd <;> omega
      rw [if_pos hneg]
      unfold parseZoneOffset
      simp only [slice, List.cons_append, List.nil_append, List.length_cons, List.drop,
        List.take, List.length_nil]
      simp only [pH, pM]
      simp [c1]
      rw [if_pos hoff] at hval
      omega
    · have hoff : ¬ offset < 0 := by
        split at htd <;> omega
      rw [if_neg hneg]
      unfold parseZoneOffset
      simp only [slice, List.cons_append, List.nil_append, List.length_cons, List.drop,
        List.take, List.length_nil]
      simp only [pH, pM]
      simp [c1]
      rw [if_neg hoff] at hval
      omega

/-- The text `Format` writes for a time in the years 0 to 9999 whose zone offset is a
whole number of minutes below 25 hours is read back by `parse` to the same time. -/
theorem parse_format (t : Time) (hn : t.nsec < 1000000000)
    (hs : -2 ^ 63 ≤ t.sec ∧ t.sec < 2 ^ 63)
    (hm : t.offset % 60 = 0) (hr : -90000 < t.offset ∧ t.offset < 90000)
    (hy : 0 ≤ localYear t ∧ localYear t ≤ 9999) :
    parse (formatRFC3339Nano t) = some t := by
  obtain ⟨Y, M, D, h, mi, s, hY, hM, hD, hh, hmi, hs2, hdate, hfmt⟩ :=
    formatRFC3339Nano_parts t hs hr hy
  have hD31 := daysIn_le M (Y : Int) hM.2
  have hday : ¬ (D < 1 ∨ daysIn M (Y : Int) < D) := by omega
  rw [hfmt, parse_fields Y M D h mi s _ hY hM hh hmi hs2 (by omega)]
  unfold parseEnd
  simp only []
  rw [parseFraction_appendNano _ _ hn (appendZone_head_sign _),
    parseZoneOffset_appendZone _ hm hr]
  simp only [ne_eq, not_true_eq_false, if_false, hday, hdate]
  cases t
  simp

/-! ## Parsing signed integers -/

/-- On a digit string the loop of `ParseUint` with the bound of 64 bits returns the
value of the string when it fits 64 bits, and the range error otherwise. -/
theorem parseUintLoop_digits64 (w : GoString) (hw : ∀ c ∈ w, isDigit c = true) (n : Nat)
    (hn : n ≤ 2 ^ 64 - 1) :
    parseUintLoop (2 ^ 64 - 1) w n =
      if decValueFrom n w ≤ 2 ^ 64 - 1 then .ok (decValueFrom n w) else .error .ErrRange := by
  induction w generalizing n with
  | nil =>
    norm_num at hn
    simp [parseUintLoop, decValueFrom, hn]
  | cons c w ih =>
    have hc : 48 ≤ c.toNat ∧ c.toNat ≤ 57 := by
      have := hw c (List.mem_cons_self c w)
      simpa [isDigit] using this
    have hw2 : ∀ x ∈ w, isDigit x = true := fun x hx => hw x (List.mem_cons_of_mem c hx)
    have hge := le_decValueFrom w (10 * n + (c.toNat - 48))
    rw [parseUintLoop, if_pos hc, decValueFrom_cons]
    norm_num at hn hge ⊢
    by_cases hcut : 1844674407370955162 ≤ n
    · rw [if_pos hcut, if_neg (by omega)]
    · rw [if_neg hcut]
      have h10 : (n * 10) % 18446744073709551616 = n * 10 := Nat.mod_eq_of_lt (by omega)
      rw [h10]
      by_cases hov : n * 10 + (c.toNat - 48) < 18446744073709551616
      · have h1 : (n * 10 + (c.toNat - 48)) % 18446744073709551616 = n * 10 + (c.toNat - 48) :=
          Nat.mod_eq_of_lt hov
        rw [h1, if_neg (by omega)]
        have := ih hw2 (n * 10 + (c.toNat - 48)) (by norm_num; omega)
        norm_num at this
        rw [this]
        have hcomm : 10 * n + (c.toNat - 48) = n * 10 + (c.toNat - 48) := by omega
        rw [hcomm]
      · have h1 : (n * 10 + (c.toNat - 48)) % 18446744073709551616 < n * 10 := by omega
        rw [if_pos (Or.inl h1), if_neg (by omega)]

theorem ParseUint64_literal (w : GoString) (h : isUintLiteral w = true) :
    ParseUint w 64 =
      if decValue w ≤ 2 ^ 64 - 1 then .ok (decValue w) else .error .ErrRange := by
  simp only [isUintLiteral, Bool.and_eq_true, Bool.not_eq_true', List.all_eq_true] at h
  unfold ParseUint
  rw [h.1]
  simp only [Bool.false_eq_true, if_false]
  exact parseUintLoop_digits64 w h.2 0 (by norm_num)

theorem ParseUint_not_literal (w : GoString) (bitSize : Nat)
    (h : isUintLiteral w = false) : ∃ e, ParseUint w bitSize = .error e := by
  unfold ParseUint
  cases w with
  | nil => exact ⟨.ErrSyntax, rfl⟩
  | cons c w =>
    have hnd : ¬ ∀ x ∈ c :: w, isDigit x = true := by
      intro hall
      have : isUintLiteral (c :: w) = true := by
        simp only [isUintLiteral, Bool.and_eq_true, Bool.not_eq_true', List.all_eq_true]
        exact ⟨rfl, hall⟩
      rw [h] at this
      cases this
    obtain ⟨e, he⟩ := parseUintLoop_nondigit (2 ^ bitSize - 1) (c :: w) hnd 0
    exact ⟨e, by simp only [List.isEmpty_cons, Bool.false_eq_true, if_false]; exact he⟩

theorem wrapInt64_small (x : Int) (h : -2 ^ 63 ≤ x ∧ x < 2 ^ 63) : wrapInt64 x = x := by
  unfold wrapInt64
  omega

theorem parseIntBody_literal (neg : Bool) (digits : GoString)
    (h : isUintLiteral digits = true) :
    parseIntBody 64 neg digits =
      if (neg = false ∧ decValue digits ≤ 2 ^ 63 - 1) ∨ (neg = true ∧ decValue digits ≤ 2 ^ 63)
      then .ok (if neg = true then -(decValue digits : Int) else (decValue digits : Int))
      else .error .ErrRange := by
  unfold parseIntBody
  rw [ParseUint64_literal digits h]
  generalize decValue digits = v
  have hw1 : v < 9223372036854775808 → wrapInt64 (v : Int) = v := by
    intro hv
    exact wrapInt64_small _ (by omega)
  have hw2 : v ≤ 9223372036854775808 → wrapInt64 (-(wrapInt64 (v : Int))) = -(v : Int) := by
    intro hv
    unfold wrapInt64
    omega
  by_cases hfit : v ≤ 2 ^ 64 - 1
  · rw [if_pos hfit]
    simp only []
    norm_num at hfit
    cases neg with
    | false =>
      simp only [Bool.false_eq_true, false_and, or_false, true_and, if_false]
      norm_num
      split_ifs with h1 h2 h2
      · exfalso; omega
      · rfl
      · rw [hw1 (by omega)]
      · exfalso; omega
    | true =>
      simp only [Bool.true_eq_false, false_and, false_or, true_and, if_false, if_true]
      norm_num
      split_ifs with h1 h2 h2
      · exfalso; omega
      · rfl
      · rw [hw2 (by omega)]
      · exfalso; omega
  · rw [if_neg hfit]
    simp only []
    norm_num at hfit
    cases neg with
    | false =>
      simp only [Bool.false_eq_true, false_and, or_false, true_and, if_false]
      norm_num
      rw [if_neg (by omega)]
    | true =>
      simp only [Bool.true_eq_false, false_and, false_or, true_and, if_false, if_true]
      norm_num
      rw [if_neg (by omega)]

theorem parseIntBody_not_literal (neg : Bool) (digits : GoString)
    (h : isUintLiteral digits = false) : ∃ e, parseIntBody 64 neg digits = .error e := by
  obtain ⟨e, he⟩ := ParseUint_not_literal digits 64 h
  unfold parseIntBody
  rw [he]
  cases e with
  | ErrSyntax => exact ⟨_, rfl⟩
  | ErrRange =>
    simp only []
    cases neg <;> simp

/-- The result of `ParseInt` with 64 bits: the value of a signed literal, an error
for every other text. -/
theorem ParseInt64_spec (s : GoString) :
    (isInt64Literal s = true → ParseInt s 64 = .ok (int64Value s)) ∧
    (isInt64Literal s = false → ∃ e, ParseInt s 64 = .error e) := by
  have key : ∀ (neg : Bool) (digits : GoString) (val : Int),
      val = (if neg = true then -(decValue digits : Int) else (decValue digits : Int)) →
      ((isUintLiteral digits && decide (-2 ^ 63 ≤ val ∧ val ≤ 2 ^ 63 - 1)) = true →
        parseIntBody 64 neg digits = .ok val) ∧
      ((isUintLiteral digits && decide (-2 ^ 63 ≤ val ∧ val ≤ 2 ^ 63 - 1)) = false →
        ∃ e, parseIntBody 64 neg digits = .error e) := by
    intro neg digits val hval
    by_cases hlit : isUintLiteral digits = true
    · rw [parseIntBody_literal neg digits hlit, hlit, ← hval]
      simp only [Bool.true_and, decide_eq_true_eq, decide_eq_false_iff_not]
      have hcond : ((neg = false ∧ decValue digits ≤ 2 ^ 63 - 1) ∨
          (neg = true ∧ decValue digits ≤ 2 ^ 63)) ↔ (-2 ^ 63 ≤ val ∧ val ≤ 2 ^ 63 - 1) := by
        cases neg <;> simp at hval ⊢ <;> omega
      constructor
      · intro h
        rw [if_pos (hcond.mpr h)]
      · intro h
        rw [if_neg (fun hc => h (hcond.mp hc))]
        exact ⟨_, rfl⟩
    · have hlit2 : isUintLiteral digits = false := by simpa using hlit
      rw [hlit2]
      constructor
      · intro h
        simp at h
      · intro _
        exact parseIntBody_not_literal neg digits hlit2
  cases s with
  | nil =>
    constructor
    · intro h
      exact absurd h (by decide)
    · intro _
      exact ⟨_, rfl⟩
  | cons c r =>
    unfold ParseInt isInt64Literal
    simp only [List.isEmpty_cons, Bool.false_eq_true, if_false, List.head?_cons, List.tail_cons,
      Option.some.injEq]
    by_cases hm : c = '-'
    · subst hm
      exact key true r _ rfl
    · by_cases hp : c = '+'
      · subst hp
        exact key false r _ rfl
      · have hd : int64Digits (c :: r) = c :: r := by
          unfold int64Digits
          split
          · rename_i heq
            cases heq
            exact absurd rfl hp
          · rename_i heq
            cases heq
            exact absurd rfl hm
          · rfl
        have hv : int64Value (c :: r) = (decValue (c :: r) : Int) := by
          unfold int64Value
          split
          · rename_i heq
            cases heq
            exact absurd rfl hm
          · rename_i heq
            cases heq
            exact absurd rfl hp
          · rfl
        rw [hd, hv]
        have hneg : (some c == some '-') = false := by simpa using hm
        have hor : ¬ (c = '+' ∨ c = '-') := by
          intro h
          rcases h with h | h
          · exact hp h
          · exact hm h
        rw [hneg, if_neg hor]
        exact key false (c :: r) _ rfl

/-! ## From nanoseconds to a time -/

theorem daysSinceEpoch_bounds (y : Int) :
    (y ≤ 0 → daysSinceEpoch y ≤ -366) ∧ (10000 ≤ y → 3652059 ≤ daysSinceEpoch y) := by
  unfold daysSinceEpoch
  simp only []
  have hdec : y - 1 = 400 * ((y - 1) / 400) + 100 * ((y - 1) % 400 / 100)
      + 4 * ((y - 1) % 100 / 4) + (y - 1) % 4 := by omega
  have hb : 0 ≤ (y - 1) % 400 / 100 ∧ (y - 1) % 400 / 100 ≤ 3 := by omega
  have hc : 0 ≤ (y - 1) % 100 / 4 ∧ (y - 1) % 100 / 4 ≤ 24 := by omega
  have he : 0 ≤ (y - 1) % 4 ∧ (y - 1) % 4 ≤ 3 := by omega
  generalize (y - 1) / 400 = a at hdec ⊢
  generalize (y - 1) % 400 / 100 = b at hdec hb ⊢
  generalize (y - 1) % 100 / 4 = c at hdec hc ⊢
  generalize (y - 1) % 4 = e at hdec he ⊢
  constructor
  · intro h
    omega
  · intro h
    omega

/-- A day count from year 1 on and before year 10000 lies in a year from 1 to
9999. -/
theorem yearDay_bounds (d : Int) (h0 : 0 ≤ d) (h1 : d < 3652059) :
    1 ≤ (yearDay d).1 ∧ (yearDay d).1 ≤ 9999 := by
  obtain ⟨hsum, hyd⟩ := yearDay_spec d
  have hyd2 : ((yearDay d).2 : Int) ≤ 365 := by
    rcases hyd with h | h
    · omega
    · omega
  have hyd0 : (0 : Int) ≤ ((yearDay d).2 : Int) := Int.ofNat_nonneg _
  obtain ⟨hlo, hhi⟩ := daysSinceEpoch_bounds (yearDay d).1
  constructor
  · by_contra hc
    have := hlo (by omega)
    omega
  · by_contra hc
    have := hhi (by omega)
    omega

/-- The seconds and nanoseconds that `NanoStringToTime` hands to `time.Unix` give, in
UTC, the time at the quotient and remainder of the nanosecond count by 10^9, both
rounded down. -/
theorem Unix_of_nanos (zone : Int → Int) (val : Int) (h : -2 ^ 63 ≤ val ∧ val < 2 ^ 63) :
    UTC (Unix zone (wrapInt64 (Int.tdiv val 1000000000))
      (wrapInt64 (val - wrapInt64 (wrapInt64 (Int.tdiv val 1000000000) * 1000000000)))) =
      ⟨val / 1000000000, (val % 1000000000).toNat, 0⟩ := by
  have hq := tdiv_eq_cases val 1000000000 (by decide)
  obtain ⟨q, hqdef⟩ : ∃ q, q = Int.tdiv val 1000000000 := ⟨_, rfl⟩
  rw [← hqdef] at hq ⊢
  have hqb : -9223372037 < q ∧ q < 9223372037 := by
    split at hq <;> omega
  have hw1 : wrapInt64 q = q := wrapInt64_small q (by omega)
  have hrem : -1000000000 < val - q * 1000000000 ∧ val - q * 1000000000 < 1000000000 := by
    split at hq <;> omega
  have hw2 : wrapInt64 (q * 1000000000) = q * 1000000000 := wrapInt64_small _ (by omega)
  have hw3 : wrapInt64 (val - q * 1000000000) = val - q * 1000000000 :=
    wrapInt64_small _ (by omega)
  rw [hw1, hw2, hw3]
  obtain ⟨r, hr⟩ : ∃ r, r = val - q * 1000000000 := ⟨_, rfl⟩
  rw [← hr] at hrem ⊢
  have ht0 : Int.tdiv r 1000000000 = 0 := by
    rw [tdiv_eq_cases r 1000000000 (by decide)]
    split <;> omega
  have hfloor : val / 1000000000 = (if r < 0 then q - 1 else q) ∧
      val % 1000000000 = (if r < 0 then r + 1000000000 else r) := by
    split <;> omega
  unfold UTC Unix
  by_cases hneg : r < 0
  · have hcond : r < 0 ∨ r ≥ 1000000000 := Or.inl hneg
    rw [if_pos hcond]
    simp only [ht0]
    have hw0 : wrapInt64 0 = 0 := by decide
    have hz : wrapInt64 (0 * 1000000000) = 0 := by decide
    rw [hw0, hz, Int.add_zero, hw1, Int.sub_zero, wrapInt64_small r (by omega), if_pos hneg]
    simp only []
    rw [wrapInt64_small (q - 1) (by omega), wrapInt64_small (r + 1000000000) (by omega)]
    simp only [if_pos hneg] at hfloor
    rw [hfloor.1, hfloor.2]
  · have hcond : ¬ (r < 0 ∨ r ≥ 1000000000) := by omega
    rw [if_neg hcond]
    simp only [if_neg hneg] at hfloor
    simp only []
    rw [hfloor.1, hfloor.2]

theorem formatRFC3339Nano_ne_nil (t : Time) : formatRFC3339Nano t ≠ [] := by
  unfold formatRFC3339Nano
  simp

/-! ## Round trip of `ToEpoche` and `FromEpoche` -/

/-- C14, as the code has it: for a time whose year in its own zone is from 0 to 9999
and whose zone offset is a whole number of minutes, less than 25 hours in absolute
value, `FromEpoche (ToEpoche t)` succeeds and returns `t`: the same instant to the
nanosecond, with the same offset.  The seconds of `t` are an `int64` and its
nanoseconds are below 10^9, as in every `time.Time`.  Up to 24 hours of offset the
text is read by the RFC 3339 parser, from there on by the layout-driven parser. -/
theorem FromEpoche_ToEpoche (t : Time)
    (hs : -2 ^ 63 ≤ t.sec ∧ t.sec < 2 ^ 63) (hn : t.nsec < 1000000000)
    (hm : t.offset % 60 = 0) (hr : -90000 < t.offset ∧ t.offset < 90000)
    (hy : 0 ≤ localYear t ∧ localYear t ≤ 9999) :
    FromEpoche (ToEpoche t) = some t := by
  unfold FromEpoche ToEpoche
  by_cases hnear : -86400 < t.offset ∧ t.offset < 86400
  · rw [parseRFC3339_format t hn hs hm hnear hy]
  · rw [parseRFC3339_format_far t hn hs hm hr (by omega) hy]
    exact parse_format t hn hs hm hr hy

/-- C14, on 14 November 2023, 22:13:20.123456 UTC, in a zone 24 hours east of UTC. -/
theorem FromEpoche_ToEpoche_witness :
    ToEpoche ⟨1700000000, 123456000, 86400⟩ = "2023-11-15T22:13:20.123456+24:00".toList ∧
    FromEpoche (ToEpoche ⟨1700000000, 123456000, 86400⟩) =
      some ⟨1700000000, 123456000, 86400⟩ :=
  ⟨by decide, FromEpoche_ToEpoche ⟨1700000000, 123456000, 86400⟩ (by decide) (by decide)
    (by decide) (by decide) (by decide)⟩

/-- C14 fails as stated.  A time at the first second of 1971 in a zone 44 minutes and
30 seconds west of UTC is written with the zone `-00:44`, and the text is read back as
an instant 30 seconds earlier.  A time in the year 10000 is written with a year of five
digits and a time in the year before the year 0 with a sign, a time in a zone 25 hours
east or west of UTC with the zone hours 25: none of these texts is read back. -/
theorem FromEpoche_ToEpoche_counterexample :
    ToEpoche ⟨31536000, 0, -2670⟩ = "1970-12-31T23:15:30-00:44".toList ∧
    FromEpoche (ToEpoche ⟨31536000, 0, -2670⟩) = some ⟨31535970, 0, -2640⟩ ∧
    ToEpoche ⟨253402300800, 0, 0⟩ = "10000-01-01T00:00:00Z".toList ∧
    FromEpoche (ToEpoche ⟨253402300800, 0, 0⟩) = none ∧
    ToEpoche ⟨-62167219201, 0, 0⟩ = "-0001-12-31T23:59:59Z".toList ∧
    FromEpoche (ToEpoche ⟨-62167219201, 0, 0⟩) = none ∧
    ToEpoche ⟨1700000000, 0, 90000⟩ = "2023-11-15T23:13:20+25:00".toList ∧
    FromEpoche (ToEpoche ⟨1700000000, 0, 90000⟩) = none ∧
    ToEpoche ⟨1700000000, 0, -90000⟩ = "2023-11-13T21:13:20-25:00".toList ∧
    FromEpoche (ToEpoche ⟨1700000000, 0, -90000⟩) = none := by
  decide

/-! ## `NanoStringToTime` -/

/-- C15: `NanoStringToTime` returns the empty string exactly when the input is not the
base-10 text of a signed 64-bit integer (an optional sign, ASCII digits, a value from
-2^63 to 2^63 - 1).  On such a text it returns a non-empty string: the RFC 3339 text
with nanoseconds, in UTC, of the instant that many nanoseconds from the Unix epoch,
which `parseRFC3339` reads back as that instant with the offset zero. -/
theorem NanoStringToTime_spec (zone : Int → Int) (input : GoString) :
    (NanoStringToTime zone input = [] ↔ isInt64Literal input = false) ∧
    (isInt64Literal input = true →
      NanoStringToTime zone input ≠ [] ∧
      NanoStringToTime zone input =
        ToEpoche ⟨int64Value input / 1000000000,
          (int64Value input % 1000000000).toNat, 0⟩ ∧
      parseRFC3339 (NanoStringToTime zone input) =
        some ⟨int64Value input / 1000000000, (int64Value input % 1000000000).toNat, 0⟩) := by
  obtain ⟨hok, herr⟩ := ParseInt64_spec input
  have hvalid : isInt64Literal input = true →
      NanoStringToTime zone input =
        formatRFC3339Nano ⟨int64Value input / 1000000000,
          (int64Value input % 1000000000).toNat, 0⟩ := by
    intro hlit
    have hrange : -2 ^ 63 ≤ int64Value input ∧ int64Value input < 2 ^ 63 := by
      unfold isInt64Literal at hlit
      simp only [Bool.and_eq_true, decide_eq_true_eq] at hlit
      omega
    unfold NanoStringToTime
    rw [hok hlit]
    simp only []
    rw [Unix_of_nanos zone _ hrange]
  cases hlit : isInt64Literal input with
  | false =>
    obtain ⟨e, he⟩ := herr hlit
    refine ⟨⟨fun _ => rfl, fun _ => ?_⟩, fun h => by cases h⟩
    unfold NanoStringToTime
    rw [he]
  | true =>
    have hfmt := hvalid hlit
    have hrange : -2 ^ 63 ≤ int64Value input ∧ int64Value input < 2 ^ 63 := by
      unfold isInt64Literal at hlit
      simp only [Bool.and_eq_true, decide_eq_true_eq] at hlit
      omega
    have hne : NanoStringToTime zone input ≠ [] := by
      rw [hfmt]
      exact formatRFC3339Nano_ne_nil _
    refine ⟨⟨fun h => absurd h hne, fun h => by cases h⟩, fun _ => ⟨hne, hfmt, ?_⟩⟩
    rw [hfmt]
    apply parseRFC3339_format
    · show (int64Value input % 1000000000).toNat < 1000000000
      omega
    · show -2 ^ 63 ≤ int64Value input / 1000000000 ∧ int64Value input / 1000000000 < 2 ^ 63
      omega
    · rfl
    · show -86400 < (0 : Int) ∧ (0 : Int) < 86400
      omega
    · have hb := yearDay_bounds ((int64Value input / 1000000000 + 0) / 86400 + unixEpochDays)
        (by unfold unixEpochDays; omega) (by unfold unixEpochDays; omega)
      rw [localYear_plain _ (by
        show 0 ≤ int64Value input / 1000000000 + 0 + unixToAbsolute ∧
          int64Value input / 1000000000 + 0 + unixToAbsolute < 2 ^ 64
        unfold unixToAbsolute
        omega)]
      show 0 ≤ (yearDay ((int64Value input / 1000000000 + 0) / 86400 + unixEpochDays)).1 ∧
        (yearDay ((int64Value input / 1000000000 + 0) / 86400 + unixEpochDays)).1 ≤ 9999
      omega

/-! ## Known dates -/

theorem test_ToEpoche_known_dates :
    ToEpoche ⟨0, 0, 0⟩ = "1970-01-01T00:00:00Z".toList ∧
    ToEpoche ⟨978307199, 999999999, 0⟩ = "2000-12-31T23:59:59.999999999Z".toList ∧
    ToEpoche ⟨1709208000, 1, -19800⟩ = "2024-02-29T06:30:00.000000001-05:30".toList ∧
    ToEpoche ⟨-2203891201, 0, 0⟩ = "1900-02-28T23:59:59Z".toList ∧
    ToEpoche ⟨-2203891200, 0, 0⟩ = "1900-03-01T00:00:00Z".toList ∧
    ToEpoche ⟨-62167219200, 0, 0⟩ = "0000-01-01T00:00:00Z".toList ∧
    ToEpoche ⟨-62167219201, 0, 0⟩ = "-0001-12-31T23:59:59Z".toList := by
  decide

/-- At the ends of the `int64` range of seconds the absolute seconds wrap around: the
last second and, one step on, the first second are written in the same minute. -/
theorem test_ToEpoche_extremes :
    ToEpoche ⟨2 ^ 63 - 1, 0, 0⟩ = "292277026596-12-04T15:30:07Z".toList ∧
    ToEpoche ⟨-2 ^ 63, 0, 0⟩ = "292277026596-12-04T15:30:08Z".toList ∧
    ToEpoche ⟨-9223372028715321600, 0, 0⟩ = "-292277022399-01-01T00:00:00Z".toList := by
  decide

theorem test_parse :
    parse "2023-11-15T22:13:20.123456+24:00".toList = some ⟨1700000000, 123456000, 86400⟩ ∧
    parseRFC3339 "2023-11-15T22:13:20.123456+24:00".toList = none ∧
    parse "2023-11-14T22:13:20Z".toList = some ⟨1700000000, 0, 0⟩ ∧
    parse "2023-11-14T22:13:20,5Z".toList = some ⟨1700000000, 500000000, 0⟩ ∧
    parse "2023-11-14T3:04:05Z".toList = some ⟨1699931045, 0, 0⟩ ∧
    parse "2023-11-15T23:13:20+25:00".toList = none ∧
    parse "2023-02-29T00:00:00Z".toList = none ∧
    parse "2023-11-14T22:13:20Zx".toList = none ∧
    parse "2023-11-14 22:13:20Z".toList = none := by
  decide

theorem test_parseRFC3339 :
    parseRFC3339 "2024-02-29T06:30:00.000000001-05:30".toList =
      some ⟨1709208000, 1, -19800⟩ ∧
    parseRFC3339 "2023-02-29T00:00:00Z".toList = none ∧
    parseRFC3339 "2023-11-14T23:13:20.123456+01:00".toList =
      some ⟨1700000000, 123456000, 3600⟩ := by
  decide

theorem test_NanoStringToTime :
    NanoStringToTime (fun _ => 3600) "1700000000123456000".toList =
      "2023-11-14T22:13:20.123456Z".toList ∧
    NanoStringToTime (fun _ => 3600) "-1".toList = "1969-12-31T23:59:59.999999999Z".toList ∧
    NanoStringToTime (fun _ => 3600) "9223372036854775807".toList =
      "2262-04-11T23:47:16.854775807Z".toList ∧
    NanoStringToTime (fun _ => 3600) "-9223372036854775808".toList =
      "1677-09-21T00:12:43.145224192Z".toList ∧
    NanoStringToTime (fun _ => 3600) "9223372036854775808".toList = [] ∧
    NanoStringToTime (fun _ => 3600) "abc".toList = [] ∧
    NanoStringToTime (fun _ => 3600) "".toList = [] := by
  decide

end Obvious
